import Mathlib

/-!
Verification development for the dependency-graph engine of the
`versionconductor` repository.

Go strings are modelled as `List Char` (`Str`): Go compares strings
byte-lexicographically, and for UTF-8 text this coincides with
codepoint-lexicographic comparison, which `ltb` below implements.
Go maps are modelled as association lists with at-most-one entry per key
(`setA` preserves this); map iteration order is canonicalised to list
order, and every place where the Go code sorts after iterating a map is
modelled by sorting the canonical list, so results that the code makes
deterministic by sorting are reproduced exactly.
-/

namespace VC

/-- Go string, as a list of characters. -/
abbrev Str := List Char

/-- Byte/codepoint-lexicographic strict comparison, as Go `<` on strings. -/
def ltb : Str → Str → Bool
  | [], [] => false
  | [], _ :: _ => true
  | _ :: _, [] => false
  | a :: as, b :: bs => if a < b then true else if b < a then false else ltb as bs

/-- Lexicographic `≤` on Go strings. -/
def leb (s t : Str) : Bool := !(ltb t s)

/-- `≤` on Go strings as a proposition. -/
def sLE (s t : Str) : Prop := leb s t = true

instance : DecidableRel sLE := fun s t => by unfold sLE; infer_instance

/-- `sort.Strings`: ascending lexicographic sort. -/
def sortStr (l : List Str) : List Str := l.insertionSort sLE

/-- Position of the first occurrence of `b` in a string list (the list's
length when absent). -/
def idxOfS (b : Str) : List Str → Nat
  | [] => 0
  | x :: t => if x = b then 0 else idxOfS b t + 1

/-- Association-list lookup: Go `m[k]` (with `ok`). -/
def lookupA {α : Type} (l : List (Str × α)) (k : Str) : Option α :=
  match l with
  | [] => none
  | (k', v) :: t => if k' = k then some v else lookupA t k

/-- Association-list insert/replace: Go `m[k] = v`. -/
def setA {α : Type} (l : List (Str × α)) (k : Str) (v : α) : List (Str × α) :=
  match l with
  | [] => [(k, v)]
  | (k', v') :: t => if k' = k then (k, v) :: t else (k', v') :: setA t k v

/-- Association-list delete: Go `delete(m, k)`. -/
def removeA {α : Type} (l : List (Str × α)) (k : Str) : List (Str × α) :=
  match l with
  | [] => []
  | (k', v') :: t => if k' = k then t else (k', v') :: removeA t k

/-- Go `m[k]` on a `map[string][]string` (missing key reads as `nil`). -/
def getListA (l : List (Str × List Str)) (k : Str) : List Str :=
  (lookupA l k).getD []

/-- Go `m[k] = append(m[k], x)` on a `map[string][]string`. -/
def appendA (l : List (Str × List Str)) (k : Str) (x : Str) : List (Str × List Str) :=
  match l with
  | [] => [(k, [x])]
  | (k', v') :: t => if k' = k then (k, v' ++ [x]) :: t else (k', v') :: appendA t k x

/-! ## Data model (`types.go`) -/

/-- The `Language` string type; the fixed enumeration of tags. -/
abbrev Language := Str

def LanguageGo : Language := ("go").data
def LanguageTypeScript : Language := ("typescript").data
def LanguageSwift : Language := ("swift").data
def LanguagePython : Language := ("python").data
def LanguageRust : Language := ("rust").data

/-- The fixed enumeration of language tags. -/
def languageTags : List Language :=
  [LanguageGo, LanguageTypeScript, LanguageSwift, LanguagePython, LanguageRust]

/-- `ModuleRef` from `types.go`. -/
structure ModuleRef where
  ID : Str
  Version : Str
  IsManaged : Bool
deriving DecidableEq

/-- `Module` from `types.go` (the `Repo` pointer, irrelevant to the graph
algorithms, is omitted; `Dependents` is the derived field of the struct). -/
structure Module where
  ID : Str
  Language : Language
  Name : Str
  Org : Str
  Version : Str
  IsManaged : Bool
  Dependencies : List ModuleRef
  Dependents : List ModuleRef
deriving DecidableEq

/-- `Portfolio` from `types.go`. -/
structure Portfolio where
  Name : Str
  Orgs : List Str
  GraphRepo : Str
  Languages : List Str
deriving DecidableEq

/-- `GraphSnapshot` from `types.go`; the module map as an association list. -/
structure GraphSnapshot where
  Portfolio : Portfolio
  Timestamp : Str
  Modules : List (Str × Module)
deriving DecidableEq

/-- `Cycle` from `types.go`. -/
structure Cycle where
  Modules : List Str
deriving DecidableEq

/-- `UpgradeOrder` result record from `types.go`. -/
structure UpgradeOrderRec where
  Modules : List Module
  Cycles : List Cycle
deriving DecidableEq

/-- `StaleModule` from `types.go`. -/
structure StaleModule where
  Module : Module
  Dependency : Str
  Current : Str
  Latest : Str
deriving DecidableEq

/-- `NewModuleID` from `types.go`: `string(lang) + ":" + name`. -/
def NewModuleID (lang : Language) (name : Str) : Str := lang ++ [':'] ++ name

/-- `ParseModuleID` from `types.go`: split at the first colon
(`strings.Index(id, ":")`); no colon yields an empty language. -/
def ParseModuleID (id : Str) : Language × Str :=
  if (id.takeWhile (fun c => c ≠ ':')).length = id.length then ([], id)
  else (id.takeWhile (fun c => c ≠ ':'),
        id.drop ((id.takeWhile (fun c => c ≠ ':')).length + 1))

/-! ## The dependency graph (`graph.go`) -/

/-- `DependencyGraph`: the module map plus the two derived indices. -/
structure DependencyGraph where
  portfolio : Portfolio
  modules : List (Str × Module)
  edges : List (Str × List Str)
  reverse : List (Str × List Str)
deriving DecidableEq

/-- `NewGraph`: empty maps, zero portfolio. -/
def NewGraph : DependencyGraph :=
  { portfolio := ⟨[], [], [], []⟩, modules := [], edges := [], reverse := [] }

/-- The edge-building step of `AddModule` for one dependency reference. -/
def addEdgesStep (mID : Str) (g' : DependencyGraph) (dep : ModuleRef) : DependencyGraph :=
  { g' with
    edges := appendA g'.edges mID dep.ID
    reverse := appendA g'.reverse dep.ID mID }

/-- `AddModule`: store the module under its ID, then append one forward and
one reverse edge per dependency reference, in order. -/
def AddModule (g : DependencyGraph) (m : Module) : DependencyGraph :=
  m.Dependencies.foldl (addEdgesStep m.ID) { g with modules := setA g.modules m.ID m }

/-- `GetModule`. -/
def GetModule (g : DependencyGraph) (id : Str) : Option Module :=
  lookupA g.modules id

/-- `Dependents`: resolve the reverse index, silently dropping ids that are
not in the module map. -/
def Dependents (g : DependencyGraph) (moduleID : Str) : List Module :=
  (getListA g.reverse moduleID).filterMap (fun id => lookupA g.modules id)

/-- `Dependencies`: resolve the forward index, silently dropping ids that
are not in the module map. -/
def Dependencies (g : DependencyGraph) (moduleID : Str) : List Module :=
  (getListA g.edges moduleID).filterMap (fun id => lookupA g.modules id)

/-- Module order used by `sort.Slice(result, ...ID < ...ID)`. -/
def modLE (a b : Module) : Prop := sLE a.ID b.ID

instance : DecidableRel modLE := fun a b => by unfold modLE; infer_instance

/-- Sort a module list ascending by ID. -/
def sortModByID (l : List Module) : List Module := l.insertionSort modLE

/-- `AllModules`: all map values, sorted by ID for deterministic output. -/
def AllModules (g : DependencyGraph) : List Module :=
  sortModByID (g.modules.map Prod.snd)

/-- `ManagedModules`: managed map values, sorted by ID. -/
def ManagedModules (g : DependencyGraph) : List Module :=
  sortModByID ((g.modules.map Prod.snd).filter (fun m => m.IsManaged))

/-- `StaleModules`: scan managed modules' references; report those resolving
to `dependency` with a version lexicographically below `minVersion`. -/
def StaleModules (g : DependencyGraph) (dependency minVersion : Str) : List StaleModule :=
  (ManagedModules g).flatMap (fun m =>
    m.Dependencies.filterMap (fun dep =>
      if (ParseModuleID dep.ID).2 = dependency ∧ ltb dep.Version minVersion = true then
        some ⟨m, dependency, dep.Version, minVersion⟩
      else none))

/-- `Snapshot`: capture portfolio and module map (timestamp zero value). -/
def Snapshot (g : DependencyGraph) : GraphSnapshot :=
  { Portfolio := g.portfolio, Timestamp := [], Modules := g.modules }

/-- `BuildFromSnapshot` from `builder.go`: fresh graph, snapshot portfolio,
re-add every module value. -/
def BuildFromSnapshot (snapshot : GraphSnapshot) : DependencyGraph :=
  (snapshot.Modules.map Prod.snd).foldl AddModule
    { NewGraph with portfolio := snapshot.Portfolio }

/-- `GraphStats` from `graph.go`; the two count maps are modelled by their
content as count functions. -/
structure GraphStats where
  TotalModules : Nat
  ManagedModules : Nat
  ExternalModules : Nat
  TotalEdges : Nat
  ByLanguage : Language → Nat
  ByOrg : Str → Nat

/-- `Stats`. -/
def Stats (g : DependencyGraph) : GraphStats :=
  let vals := g.modules.map Prod.snd
  { TotalModules := vals.length
    ManagedModules := (vals.filter (fun m => m.IsManaged)).length
    ExternalModules := (vals.filter (fun m => !m.IsManaged)).length
    TotalEdges := (vals.map (fun m => m.Dependencies.length)).sum
    ByLanguage := fun l => (vals.filter (fun m => m.Language = l)).length
    ByOrg := fun o => (vals.filter (fun m => m.Org = o)).length }

/-- A graph assembled by `NewGraph`, `Build(portfolio)` and a sequence of
`AddModule` calls, in order. -/
def buildGraph (p : Portfolio) (ms : List Module) : DependencyGraph :=
  ms.foldl AddModule { NewGraph with portfolio := p }

/-! ## `UpgradeOrder` (Kahn's algorithm restricted to managed modules) -/

/-- One step of the inner loop over `g.reverse[id]`: skip non-managed
dependents, otherwise decrement their in-degree and enqueue them when it
reaches zero. -/
def decStep (managedIDs : List Str) (p : (Str → Int) × List Str) (depID : Str) :
    (Str → Int) × List Str :=
  if depID ∈ managedIDs then
    let d' : Str → Int := fun x => if x = depID then p.1 x - 1 else p.1 x
    if p.1 depID - 1 = 0 then (d', p.2 ++ [depID]) else (d', p.2)
  else p

/-- The inner loop over a reverse-adjacency list, threading the in-degree
map and the live queue. -/
def processReverse (managedIDs : List Str) (d : Str → Int) (q : List Str)
    (l : List Str) : (Str → Int) × List Str :=
  l.foldl (decStep managedIDs) (d, q)

/-- The outer Kahn loop.  The Go loop runs one iteration per queue element;
`fuel` is an upper bound on the total number of iterations (theorem
`kahnLoopF_drains` below shows the bound chosen by `UpgradeOrder` always
drains the queue, so the fuel never cuts a run short).  Returns the emitted
modules, the visited ids in visit order, and the remaining queue. -/
def kahnLoopF (mlook : Str → Option Module) (rlook : Str → List Str)
    (managedIDs : List Str) :
    Nat → (Str → Int) → List Str → List Module → List Str →
    List Module × List Str × List Str
  | 0, _, visited, out, queue => (out, visited, queue)
  | fuel + 1, d, visited, out, queue =>
    match queue with
    | [] => (out, visited, [])
    | id :: rest =>
      if id ∈ visited then
        kahnLoopF mlook rlook managedIDs fuel d visited out rest
      else
        let out' := match mlook id with
          | some m => out ++ [m]
          | none => out
        let step := processReverse managedIDs d rest (rlook id)
        kahnLoopF mlook rlook managedIDs fuel step.1 (visited ++ [id]) out'
          (sortStr step.2)

/-- The initial in-degree map: for a managed module, the number of its
dependency entries whose target is itself a managed module. -/
def inDeg0 (managed : List Module) (managedIDs : List Str) (id : Str) : Int :=
  match managed.find? (fun m => m.ID = id) with
  | some m => ((m.Dependencies.filter (fun dep => decide (dep.ID ∈ managedIDs))).length : Int)
  | none => 0

/-- The ids of the managed modules of a graph (ascending). -/
def managedIDsOf (g : DependencyGraph) : List Str :=
  (ManagedModules g).map (fun m => m.ID)

/-- The initial ready queue: managed ids of zero qualifying in-degree,
sorted ascending (`sort.Strings`). -/
def initialQueue (g : DependencyGraph) : List Str :=
  let managedIDs := managedIDsOf g
  let d0 := inDeg0 (ManagedModules g) managedIDs
  sortStr (managedIDs.filter (fun id => decide (d0 id = 0)))

/-- Iteration bound for the Kahn loop: every iteration consumes one queue
element, and every id ever enqueued either starts in the queue or is pushed
when its in-degree first reaches zero (at most once per managed id). -/
def kahnFuel (managedIDs : List Str) (d : Str → Int) (queue : List Str) : Nat :=
  queue.length + ((managedIDs.dedup).filter (fun x => decide (1 ≤ d x))).length

/-- `UpgradeOrder` from `graph.go`.  Always returns a `nil` error (modelled
by the `Option Str` component being `none`). -/
def UpgradeOrder (g : DependencyGraph) : UpgradeOrderRec × Option Str :=
  let managed := ManagedModules g
  let managedIDs := managedIDsOf g
  let d0 := inDeg0 managed managedIDs
  let queue0 := initialQueue g
  let res := kahnLoopF (lookupA g.modules) (fun id => getListA g.reverse id)
    managedIDs (kahnFuel managedIDs d0 queue0) d0 [] [] queue0
  let outMods := res.1
  let visited := res.2.1
  let cycles :=
    if outMods.length < managed.length then
      [Cycle.mk (managedIDs.filter (fun id => decide (id ∉ visited)))]
    else []
  (⟨outMods, cycles⟩, none)

/-! ## Specification-side definitions -/

/-- Managed-to-managed dependency edge of a graph: `a` and `b` are both ids
of managed modules present in the graph and `a`'s module lists `b` among
its dependency targets. -/
def EdgeToB (g : DependencyGraph) (a b : Str) : Bool :=
  match lookupA g.modules a, lookupA g.modules b with
  | some ma, some mb =>
      ma.IsManaged && mb.IsManaged && ma.Dependencies.any (fun dep => dep.ID = b)
  | _, _ => false

/-- The managed modules contain no cycle among managed-to-managed edges. -/
def NoManagedCycle (g : DependencyGraph) : Prop :=
  ∀ a, ¬ Relation.TransGen (fun x y => EdgeToB g x y = true) a a

/-- The dependency list of the module stored under `u` (empty when absent). -/
def depsOf (mlook : Str → Option Module) (u : Str) : List ModuleRef :=
  match mlook u with
  | some m => m.Dependencies
  | none => []

/-- Remaining qualifying in-degree of `u` once the ids in `V` are treated
as already visited: dependency entries of `u`'s module whose target is a
managed id not in `V` (spec: "counting only edges between two managed
modules"). -/
def remDeg (mlook : Str → Option Module) (managedIDs : List Str) (V : List Str)
    (u : Str) : Int :=
  (((depsOf mlook u).filter
    (fun dep => decide (dep.ID ∈ managedIDs) && decide (dep.ID ∉ V))).length : Int)

/-- The emission-order invariant: every managed dependency target of the
module visited at position `i` was visited before position `i`. -/
def ordInv (mlook : Str → Option Module) (managedIDs : List Str)
    (visited : List Str) : Prop :=
  ∀ (i : Nat) (u : Str), visited[i]? = some u →
    ∀ dref ∈ depsOf mlook u, dref.ID ∈ managedIDs → dref.ID ∈ visited.take i

/-- Modelled from the spec: the ready set after visiting `V` — managed ids
not yet visited whose remaining qualifying in-degree is zero, in ascending
id order. -/
def readyList (mlook : Str → Option Module) (managedIDs : List Str)
    (V : List Str) : List Str :=
  managedIDs.filter (fun u => decide (u ∉ V) && decide (remDeg mlook managedIDs V u = 0))

/-- Modelled from the spec: the greedy reference order — repeatedly emit the
lexicographically smallest ready managed id, re-computing the ready set
after every emission. -/
def specUpgradeSeq (mlook : Str → Option Module) (managedIDs : List Str) :
    Nat → List Str → List Str
  | 0, _ => []
  | fuel + 1, V =>
    match readyList mlook managedIDs V with
    | [] => []
    | u :: _ => u :: specUpgradeSeq mlook managedIDs fuel (V ++ [u])

/-- The spec order for a graph, with enough fuel to visit every managed id. -/
def specUpgradeOrder (g : DependencyGraph) : List Str :=
  specUpgradeSeq (lookupA g.modules) (managedIDsOf g) (managedIDsOf g).length []

/-! ## `go.mod` parsing (`gomod.go`), with the `bufio.Scanner` line model -/

/-- `ModuleVersion` from `types.go`. -/
structure ModuleVersion where
  Path : Str
  Version : Str
  Indirect : Bool
deriving DecidableEq

/-- `ModuleReplace` from `types.go`. -/
structure ModuleReplace where
  Old : ModuleVersion
  New : ModuleVersion
deriving DecidableEq

/-- `GoModInfo` from `types.go`. -/
structure GoModInfo where
  Module : Str
  Go : Str
  Require : List ModuleVersion
  Replace : List ModuleReplace
  Exclude : List ModuleVersion
deriving DecidableEq

/-- `unicode.IsSpace` (the whitespace characters Go's `strings` helpers
split and trim on). -/
def isGoSpace (c : Char) : Bool :=
  c = ' ' || c = '\t' || c = '\n' || (c = '\x0b') || (c = '\x0c') || c = '\r' ||
  (c = '\u0085') || (c = '\u00A0')

/-- `strings.TrimSpace`. -/
def trimGo (s : Str) : Str :=
  ((s.dropWhile isGoSpace).reverse.dropWhile isGoSpace).reverse

/-- `strings.TrimPrefix`. -/
def trimPre (pre s : Str) : Str :=
  if pre.isPrefixOf s then s.drop pre.length else s

/-- Accumulator loop behind `fieldsGo` (`strings.Fields`). -/
def fieldsAux : Str → Str → List Str
  | [], acc => if acc.isEmpty then [] else [acc.reverse]
  | c :: t, acc =>
    if isGoSpace c then
      if acc.isEmpty then fieldsAux t [] else acc.reverse :: fieldsAux t []
    else fieldsAux t (c :: acc)

/-- `strings.Fields`: maximal runs of non-whitespace characters. -/
def fieldsGo (s : Str) : List Str := fieldsAux s []

/-- `strings.Contains` (for a non-empty needle). -/
def hasSub : Str → Str → Bool
  | [], sub => sub.isEmpty
  | c :: t, sub => sub.isPrefixOf (c :: t) || hasSub t sub

/-- `strings.Split(s, sub)[0]` for a non-empty `sub`: the text before the
first occurrence (all of `s` when absent). -/
def beforeFirst : Str → Str → Str
  | [], _ => []
  | c :: t, sub => if sub.isPrefixOf (c :: t) then [] else c :: beforeFirst t sub

/-- Prepend a character to the first part of a split result. -/
def consHead (c : Char) : List Str → List Str
  | [] => [[c]]
  | h :: t => (c :: h) :: t

/-- The `" => "` separator of replace directives. -/
def arrowSep : Str := (" => ").data

/-- `strings.Split(s, " => ")`. -/
def splitArrow (s : Str) : List Str :=
  if h : arrowSep.isPrefixOf s then
    [] :: splitArrow (s.drop 4)
  else
    match s with
    | [] => [[]]
    | c :: t => consHead c (splitArrow t)
  termination_by s.length
  decreasing_by
  · have h4 : 4 ≤ s.length := by
      have hp : arrowSep <+: s := List.isPrefixOf_iff_prefix.mp h
      simpa [arrowSep] using hp.length_le
    simp only [List.length_drop]
    omega
  · simp

/-- `parseModuleVersion` from `gomod.go`. -/
def parseModuleVersion (line : Str) : ModuleVersion :=
  let l1 := trimGo line
  let indirect := hasSub l1 (("// indirect").data)
  let l2 := if indirect then trimGo (beforeFirst l1 (("//").data)) else l1
  match fieldsGo l2 with
  | p0 :: p1 :: _ => { Path := p0, Version := p1, Indirect := indirect }
  | _ => { Path := [], Version := [], Indirect := false }

/-- `parseModuleReplace` from `gomod.go`.  The Go code indexes
`oldFields[0]` and `newFields[0]` without a length check; `none` models the
run-time fault that an empty field list would cause. -/
def parseModuleReplace (line : Str) : Option ModuleReplace :=
  match splitArrow (trimGo line) with
  | [a, b] =>
    match fieldsGo (trimGo a), fieldsGo (trimGo b) with
    | o0 :: oRest, n0 :: nRest =>
      some { Old := { Path := o0, Version := oRest.headD [], Indirect := false },
             New := { Path := n0, Version := nRest.headD [], Indirect := false } }
    | _, _ => none
  | _ => some { Old := ⟨[], [], false⟩, New := ⟨[], [], false⟩ }

/-- Parser state of the `ParseGoMod` scan loop. -/
structure PState where
  info : GoModInfo
  inRequire : Bool
  inReplace : Bool
  inExclude : Bool
deriving DecidableEq

/-- The zero parser state. -/
def initPState : PState := ⟨⟨[], [], [], [], []⟩, false, false, false⟩

/-- One iteration of the `ParseGoMod` loop on a scanned line; `none` models
a run-time fault escaping from `parseModuleReplace`. -/
def stepLine (st : PState) (raw : Str) : Option PState :=
  let line := trimGo raw
  if line = [] ∨ (("//").data).isPrefixOf line then some st
  else if line = ("require (").data then some { st with inRequire := true }
  else if line = ("replace (").data then some { st with inReplace := true }
  else if line = ("exclude (").data then some { st with inExclude := true }
  else if line = (")").data then
    some { st with inRequire := false, inReplace := false, inExclude := false }
  else if (("module ").data).isPrefixOf line then
    some { st with info := { st.info with Module := trimGo (trimPre (("module ").data) line) } }
  else if (("go ").data).isPrefixOf line then
    some { st with info := { st.info with Go := trimGo (trimPre (("go ").data) line) } }
  else if (("require ").data).isPrefixOf line ∧ st.inRequire = false then
    let mv := parseModuleVersion (trimPre (("require ").data) line)
    some (if mv.Path ≠ [] then
      { st with info := { st.info with Require := st.info.Require ++ [mv] } } else st)
  else if (("replace ").data).isPrefixOf line ∧ st.inReplace = false then
    match parseModuleReplace (trimPre (("replace ").data) line) with
    | none => none
    | some mr =>
      some (if mr.Old.Path ≠ [] then
        { st with info := { st.info with Replace := st.info.Replace ++ [mr] } } else st)
  else if (("exclude ").data).isPrefixOf line ∧ st.inExclude = false then
    let mv := parseModuleVersion (trimPre (("exclude ").data) line)
    some (if mv.Path ≠ [] then
      { st with info := { st.info with Exclude := st.info.Exclude ++ [mv] } } else st)
  else
    let st1 := if st.inRequire then
        let mv := parseModuleVersion line
        if mv.Path ≠ [] then
          { st with info := { st.info with Require := st.info.Require ++ [mv] } } else st
      else st
    let ost2 : Option PState := if st1.inReplace then
        match parseModuleReplace line with
        | none => none
        | some mr =>
          some (if mr.Old.Path ≠ [] then
            { st1 with info := { st1.info with Replace := st1.info.Replace ++ [mr] } } else st1)
      else some st1
    match ost2 with
    | none => none
    | some st2 =>
      some (if st2.inExclude then
        let mv := parseModuleVersion line
        if mv.Path ≠ [] then
          { st2 with info := { st2.info with Exclude := st2.info.Exclude ++ [mv] } } else st2
      else st2)

/-- `bufio.Scanner`'s default token cap (`MaxScanTokenSize`): a line that
reaches this many bytes with no newline makes `Scan` stop and `Err` return
`bufio.ErrTooLong`. -/
def maxTok : Nat := 65536

/-- Split on newline characters, keeping every segment (including a final
empty one when the input ends in a newline). -/
def splitNL : Str → List Str
  | [] => [[]]
  | c :: t => if c = '\n' then [] :: splitNL t else consHead c (splitNL t)

/-- `bufio.ScanLines` drops one optional trailing carriage return. -/
def dropCR (s : Str) : Str :=
  if s.getLast? = some '\r' then s.dropLast else s

/-- The scanned tokens and whether scanning stopped with `ErrTooLong`: each
newline-terminated segment must fit under `maxTok`; a final segment is a
token only when non-empty. -/
def scanTokens : List Str → List Str × Bool
  | [] => ([], false)
  | [last] =>
    if last = [] then ([], false)
    else if maxTok ≤ last.length then ([], true)
    else ([dropCR last], false)
  | seg :: r :: rest =>
    if maxTok ≤ seg.length then ([], true)
    else
      let p := scanTokens (r :: rest)
      (dropCR seg :: p.1, p.2)

/-- The scanner over manifest content. -/
def scanGo (content : Str) : List Str × Bool := scanTokens (splitNL content)

/-- `ParseGoMod` from `gomod.go`: fold the loop body over the scanned
lines; the `Bool` is whether `scanner.Err()` was non-nil, and `none` models
a run-time fault. -/
def ParseGoMod (content : Str) : Option (GoModInfo × Bool) :=
  let p := scanGo content
  (p.1.foldlM stepLine initPState).map (fun st => (st.info, p.2))

/-! ## The two-tier cache (`cache.go`) -/

/-- Cached bytes. -/
abbrev Bytes := List Nat

/-- An in-process cache entry (`cacheEntry`). -/
structure MemEntry where
  data : Bytes
  expiresAt : Int
deriving DecidableEq

/-- Cache state: configuration, the in-process tier, and the durable tier
(content files and `.meta` sidecar files keyed by hashed key).  Instants
are integers; each operation takes the instant at which it runs. -/
structure CacheState where
  ttl : Int
  hasDir : Bool
  memory : List (Str × MemEntry)
  fileData : List (Str × Bytes)
  fileMeta : List (Str × Int)
deriving DecidableEq

/-- `getFromFile`: read the sidecar, remove both files when expired
(`time.Now().After(expiresAt)`, strict), otherwise read the content file. -/
def getFromFile (c : CacheState) (now : Int) (hash : Str) : Option Bytes × CacheState :=
  match lookupA c.fileMeta hash with
  | none => (none, c)
  | some exp =>
    if exp < now then
      (none, { c with fileMeta := removeA c.fileMeta hash,
                      fileData := removeA c.fileData hash })
    else
      match lookupA c.fileData hash with
      | none => (none, c)
      | some d => (some d, c)

/-- `Cache.Get`: memory tier first (`time.Now().Before(expiresAt)`,
strict), then the durable tier, re-populating the memory tier with a fresh
expiration on a durable hit.  `h` is the key-hashing function
(`hashKey`); every result below holds for an arbitrary `h`. -/
def cacheGet (h : Str → Str) (c : CacheState) (now : Int) (key : Str) :
    Option Bytes × CacheState :=
  let hash := h key
  let memHit := match lookupA c.memory hash with
    | some e => if now < e.expiresAt then some e.data else none
    | none => none
  match memHit with
  | some d => (some d, c)
  | none =>
    if c.hasDir then
      match getFromFile c now hash with
      | (some d, c') => (some d, { c' with memory := setA c'.memory hash ⟨d, now + c.ttl⟩ })
      | (none, c') => (none, c')
    else (none, c)

/-- `Cache.Set`: write the memory entry and, with a durable tier, the two
files, all carrying `now + ttl`. -/
def cacheSet (h : Str → Str) (c : CacheState) (now : Int) (key : Str)
    (data : Bytes) : CacheState :=
  let hash := h key
  let exp := now + c.ttl
  let c1 := { c with memory := setA c.memory hash ⟨data, exp⟩ }
  if c.hasDir then
    { c1 with fileMeta := setA c1.fileMeta hash exp,
              fileData := setA c1.fileData hash data }
  else c1

/-- A sequence of intervening `Get` calls: (key, instant) pairs. -/
def applyGets (h : Str → Str) (c : CacheState) (ops : List (Str × Int)) : CacheState :=
  ops.foldl (fun c' p => (cacheGet h c' p.2 p.1).2) c

/-- Invariant tying a cache state to a single `Set(key, data)` that recorded
expiration `e`: the memory tier still holds the original entry, the durable
tier either still holds both files for the hashed key or holds neither, and
the durable key lists stay duplicate-free. -/
def cacheInv (h : Str → Str) (ttl : Int) (hasDir : Bool) (e : Int) (key : Str)
    (data : Bytes) (c : CacheState) : Prop :=
  c.ttl = ttl ∧ c.hasDir = hasDir ∧
  lookupA c.memory (h key) = some ⟨data, e⟩ ∧
  (c.fileMeta.map Prod.fst).Nodup ∧ (c.fileData.map Prod.fst).Nodup ∧
  (hasDir = true →
    ((lookupA c.fileMeta (h key) = some e ∧ lookupA c.fileData (h key) = some data) ∨
     (lookupA c.fileMeta (h key) = none ∧ lookupA c.fileData (h key) = none)))

/-! ## Test fixtures used by witnesses and counterexamples -/

/-- A module fixture: id, versioned dependency targets, managed flag. -/
def mkM (id : Str) (deps : List (Str × Str)) (managed : Bool) : Module :=
  { ID := id, Language := LanguageGo, Name := id, Org := [], Version := [],
    IsManaged := managed,
    Dependencies := deps.map (fun d => ⟨d.1, d.2, true⟩), Dependents := [] }

/-- The zero portfolio. -/
def P0 : Portfolio := ⟨[], [], [], []⟩

/-- Chain A→B→C, all managed. -/
def gChain : DependencyGraph :=
  buildGraph P0
    [mkM (("A").data) [((("B").data), [])] true,
     mkM (("B").data) [((("C").data), [])] true,
     mkM (("C").data) [] true]

/-- Diamond A→{B,C}, B→D, C→D, all managed. -/
def gDiamond : DependencyGraph :=
  buildGraph P0
    [mkM (("A").data) [((("B").data), []), ((("C").data), [])] true,
     mkM (("B").data) [((("D").data), [])] true,
     mkM (("C").data) [((("D").data), [])] true,
     mkM (("D").data) [] true]

/-- Three-cycle A→B→C→A, all managed. -/
def gCyc : DependencyGraph :=
  buildGraph P0
    [mkM (("A").data) [((("B").data), [])] true,
     mkM (("B").data) [((("C").data), [])] true,
     mkM (("C").data) [((("A").data), [])] true]

/-- A managed module whose only dependency is an unmanaged module. -/
def gExt : DependencyGraph :=
  buildGraph P0
    [mkM (("A").data) [((("X").data), [])] true,
     mkM (("X").data) [] false]

/-- Re-adding module `x` (first depending on `a`, then on `y`) leaves the
stale reverse edge `a → x` in place. -/
def gRe : DependencyGraph :=
  buildGraph P0
    [mkM (("x").data) [((("a").data), [])] true,
     mkM (("a").data) [] true,
     mkM (("y").data) [((("b").data), [])] true,
     mkM (("b").data) [] true,
     mkM (("x").data) [((("y").data), [])] true]

/-- Module `n` first added depending on `m`, then re-added with no
dependencies: the reverse index keeps the stale edge. -/
def gDep : DependencyGraph :=
  buildGraph P0
    [mkM (("n").data) [((("m").data), [])] true,
     mkM (("m").data) [] true,
     mkM (("n").data) [] true]

/-- Module `m` added with dependency `a`, re-added with dependency `b`:
the forward adjacency accumulates. -/
def gAcc : DependencyGraph :=
  buildGraph P0
    [mkM (("m").data) [((("a").data), [])] true,
     mkM (("m").data) [((("b").data), [])] true]

end VC

/-! # Theorems -/

namespace VC

/-! ## Order facts for the string comparison -/

theorem ltb_iff_lex (s t : Str) : ltb s t = true ↔ List.Lex (· < ·) s t := by
  induction s generalizing t with
  | nil =>
    cases t with
    | nil => simp [ltb]
    | cons b bs =>
      simp only [ltb]
      exact iff_of_true trivial List.Lex.nil
  | cons a as ih =>
    cases t with
    | nil =>
      simp only [ltb]
      constructor
      · intro h; cases h
      · intro h; cases h
    | cons b bs =>
      simp only [ltb]
      by_cases h1 : a < b
      · simp only [h1, if_true]
        exact iff_of_true trivial (List.Lex.rel h1)
      · by_cases h2 : b < a
        · simp only [h1, if_false, h2, if_true]
          constructor
          · intro h; cases h
          · intro h
            cases h with
            | rel hr => exact absurd hr h1
            | cons _ => exact absurd rfl (ne_of_gt h2)
        · have hab : a = b := le_antisymm (not_lt.mp h2) (not_lt.mp h1)
          subst hab
          simp only [h1, if_false, h2, if_true]
          rw [ih bs]
          constructor
          · intro h; exact List.Lex.cons h
          · intro h
            cases h with
            | rel hr => exact absurd hr h1
            | cons h => exact h

theorem ltb_iff_lt (s t : Str) : ltb s t = true ↔ s < t :=
  (ltb_iff_lex s t).trans Iff.rfl

theorem sLE_iff_le (s t : Str) : sLE s t ↔ s ≤ t := by
  unfold sLE leb
  rw [Bool.not_eq_true', ← not_iff_not, not_le]
  simp only [Bool.not_eq_false]
  exact ltb_iff_lt t s

instance : IsTrans Str sLE :=
  ⟨fun a b c hab hbc =>
    (sLE_iff_le a c).mpr (le_trans ((sLE_iff_le a b).mp hab) ((sLE_iff_le b c).mp hbc))⟩

instance : IsTotal Str sLE :=
  ⟨fun a b => by
    rcases le_total a b with h | h
    · exact Or.inl ((sLE_iff_le a b).mpr h)
    · exact Or.inr ((sLE_iff_le b a).mpr h)⟩

instance : IsAntisymm Str sLE :=
  ⟨fun a b hab hba => le_antisymm ((sLE_iff_le a b).mp hab) ((sLE_iff_le b a).mp hba)⟩

instance : IsTrans Module modLE :=
  ⟨fun a b c hab hbc => by
    unfold modLE at *
    exact Trans.trans hab hbc⟩

instance : IsTotal Module modLE :=
  ⟨fun a b => by
    unfold modLE
    exact @IsTotal.total Str sLE _ a.ID b.ID⟩

theorem sortStr_sorted (l : List Str) : List.Sorted sLE (sortStr l) :=
  List.sorted_insertionSort sLE l

theorem sortStr_perm (l : List Str) : (sortStr l).Perm l :=
  List.perm_insertionSort sLE l

theorem mem_sortStr {x : Str} {l : List Str} : x ∈ sortStr l ↔ x ∈ l :=
  (sortStr_perm l).mem_iff

theorem sortStr_nodup {l : List Str} (h : l.Nodup) : (sortStr l).Nodup :=
  ((sortStr_perm l).nodup_iff).mpr h

theorem sortMod_sorted (l : List Module) : List.Sorted modLE (sortModByID l) :=
  List.sorted_insertionSort modLE l

theorem sortMod_perm (l : List Module) : (sortModByID l).Perm l :=
  List.perm_insertionSort modLE l

/-- Two sorted string lists that are permutations of each other are equal. -/
theorem sortedStrEq {l₁ l₂ : List Str} (hp : l₁.Perm l₂)
    (h₁ : List.Sorted sLE l₁) (h₂ : List.Sorted sLE l₂) : l₁ = l₂ :=
  List.eq_of_perm_of_sorted hp h₁ h₂

/-- Two sorted module lists that are permutations of each other and have
no duplicate ids are equal. -/
theorem sortedModEq : ∀ {l₁ l₂ : List Module}, l₁.Perm l₂ →
    List.Sorted modLE l₁ → List.Sorted modLE l₂ →
    (l₁.map (fun m => m.ID)).Nodup → l₁ = l₂ := by
  intro l₁
  induction l₁ with
  | nil => intro l₂ hp _ _ _; exact (hp.nil_eq).symm ▸ rfl
  | cons a t₁ ih =>
    intro l₂ hp h₁ h₂ hn
    cases l₂ with
    | nil => exact absurd hp.symm.nil_eq (by simp)
    | cons b t₂ =>
      have hab : a = b := by
        have haIn : a ∈ b :: t₂ := hp.mem_iff.mp (List.mem_cons_self a t₁)
        have hbIn : b ∈ a :: t₁ := hp.mem_iff.mpr (List.mem_cons_self b t₂)
        have h1 : modLE a b := by
          rcases List.mem_cons.mp hbIn with rfl | hmem
          · exact (sLE_iff_le _ _).mpr le_rfl
          · exact (List.sorted_cons.mp h₁).1 b hmem
        have h2 : modLE b a := by
          rcases List.mem_cons.mp haIn with rfl | hmem
          · exact (sLE_iff_le _ _).mpr le_rfl
          · exact (List.sorted_cons.mp h₂).1 a hmem
        have hid : a.ID = b.ID :=
          le_antisymm ((sLE_iff_le _ _).mp h1) ((sLE_iff_le _ _).mp h2)
        have hn' : (∀ x ∈ t₁, ¬ x.ID = a.ID) ∧ (t₁.map (fun m => m.ID)).Nodup := by
          simpa using hn
        rcases List.mem_cons.mp hbIn with h | hmem
        · exact h.symm
        · exact absurd hid.symm (hn'.1 b hmem)
      subst hab
      have hn' : (∀ x ∈ t₁, ¬ x.ID = a.ID) ∧ (t₁.map (fun m => m.ID)).Nodup := by
        simpa using hn
      have ht : t₁ = t₂ :=
        ih hp.cons_inv (List.sorted_cons.mp h₁).2 (List.sorted_cons.mp h₂).2 hn'.2
      rw [ht]

/-! ## Module ids (claim C10) -/

theorem takeWhile_to_colon (p : Char → Bool) (name : Str) (hcolon : p ':' = false) :
    ∀ (l : Str), (∀ c ∈ l, p c = true) → (l ++ ':' :: name).takeWhile p = l := by
  intro l hl'
  induction l with
  | nil => simp [List.takeWhile_cons, hcolon]
  | cons c t ih =>
    have hc : p c = true := hl' c (List.mem_cons_self c t)
    simp only [List.cons_append, List.takeWhile_cons, hc, if_true]
    rw [ih (fun x hx => hl' x (List.mem_cons_of_mem c hx))]

theorem parse_new_id (lang name : Str) (h : ∀ c ∈ lang, c ≠ ':') :
    ParseModuleID (NewModuleID lang name) = (lang, name) := by
  unfold ParseModuleID NewModuleID
  have hl : lang ++ [':'] ++ name = lang ++ ':' :: name := by simp
  rw [hl]
  rw [takeWhile_to_colon _ name (by simp) lang (fun c hc => by simp [h c hc])]
  have hlen : ¬ lang.length = (lang ++ ':' :: name).length := by
    simp only [List.length_append, List.length_cons]
    omega
  rw [if_neg hlen]
  have hd : (lang ++ ':' :: name).drop (lang.length + 1) = name := by
    have h2 := @List.drop_append Char lang (':' :: name) 1
    simpa using h2
  rw [hd]

theorem parse_no_colon (id : Str) (h : ∀ c ∈ id, c ≠ ':') :
    ParseModuleID id = ([], id) := by
  unfold ParseModuleID
  have htw : id.takeWhile (fun c => (c ≠ ':' : Bool)) = id := by
    rw [List.takeWhile_eq_self_iff]
    intro x hx
    simpa using h x hx
  rw [htw, if_pos rfl]

/-- C10: for every language tag of the fixed enumeration (none contains a
colon) and every module name, `ParseModuleID (NewModuleID lang name)`
returns exactly `(lang, name)`, even when the name contains colons; an id
with no colon parses as an empty language and the whole id as name. -/
theorem moduleID_roundtrip :
    (∀ lang, lang ∈ languageTags → ∀ name : Str,
        ParseModuleID (NewModuleID lang name) = (lang, name)) ∧
    (∀ id : Str, (∀ c ∈ id, c ≠ ':') → ParseModuleID id = ([], id)) := by
  constructor
  · intro lang hlang name
    refine parse_new_id lang name ?_
    have h5 : lang = LanguageGo ∨ lang = LanguageTypeScript ∨ lang = LanguageSwift ∨
        lang = LanguagePython ∨ lang = LanguageRust := by
      simpa [languageTags] using hlang
    rcases h5 with rfl | rfl | rfl | rfl | rfl <;> decide
  · exact parse_no_colon

/-- Witness for C10 at `go` and a colon-bearing name. -/
theorem moduleID_roundtrip_witness :
    ParseModuleID (NewModuleID LanguageGo (("a:b").data)) = (LanguageGo, ("a:b").data) ∧
    ParseModuleID (("abc").data) = ([], ("abc").data) :=
  ⟨moduleID_roundtrip.1 LanguageGo (by decide) (("a:b").data),
   moduleID_roundtrip.2 (("abc").data) (by decide)⟩

/-! ## Stale-module detection (claim C6) -/

theorem managedModules_mem_char (g : DependencyGraph) (m : Module) :
    m ∈ ManagedModules g ↔ m.IsManaged = true ∧ ∃ k, (k, m) ∈ g.modules := by
  unfold ManagedModules sortModByID
  rw [(List.perm_insertionSort modLE _).mem_iff, List.mem_filter]
  constructor
  · rintro ⟨hmem, hman⟩
    rcases List.mem_map.mp hmem with ⟨⟨k, m'⟩, hp, he⟩
    exact ⟨hman, k, he ▸ hp⟩
  · rintro ⟨hman, k, hk⟩
    exact ⟨List.mem_map.mpr ⟨(k, m), hk, rfl⟩, hman⟩

theorem stale_mem_char (g : DependencyGraph) (dep minV : Str) (s : StaleModule) :
    s ∈ StaleModules g dep minV ↔
      ∃ m, m ∈ ManagedModules g ∧ ∃ r ∈ m.Dependencies,
        (ParseModuleID r.ID).2 = dep ∧ ltb r.Version minV = true ∧
        s = ⟨m, dep, r.Version, minV⟩ := by
  unfold StaleModules
  rw [List.mem_flatMap]
  constructor
  · rintro ⟨m, hm, hs⟩
    rcases List.mem_filterMap.mp hs with ⟨r, hr, heq⟩
    by_cases hc : (ParseModuleID r.ID).2 = dep ∧ ltb r.Version minV = true
    · rw [if_pos hc] at heq
      exact ⟨m, hm, r, hr, hc.1, hc.2, (Option.some.injEq _ _).mp heq |>.symm⟩
    · rw [if_neg hc] at heq
      cases heq
  · rintro ⟨m, hm, r, hr, h1, h2, rfl⟩
    refine ⟨m, hm, List.mem_filterMap.mpr ⟨r, hr, ?_⟩⟩
    rw [if_pos ⟨h1, h2⟩]

/-- C6: `StaleModules(name, minVersion)` reports exactly the (managed
module, dependency reference) pairs whose reference resolves to `name`
with a pinned version lexicographically below `minVersion`; every report
is about a managed module of the graph and a version strictly below the
minimum, so modules pinned at or above `minVersion`, and unmanaged
modules, are never reported. -/
theorem staleModules_spec :
    (∀ (g : DependencyGraph) (dep minV : Str) (s : StaleModule),
        s ∈ StaleModules g dep minV ↔
          ∃ m, m ∈ ManagedModules g ∧ ∃ r ∈ m.Dependencies,
            (ParseModuleID r.ID).2 = dep ∧ ltb r.Version minV = true ∧
            s = ⟨m, dep, r.Version, minV⟩) ∧
    (∀ (g : DependencyGraph) (m : Module),
        m ∈ ManagedModules g ↔ m.IsManaged = true ∧ ∃ k, (k, m) ∈ g.modules) ∧
    (∀ (g : DependencyGraph) (dep minV : Str) (s : StaleModule),
        s ∈ StaleModules g dep minV →
          s.Module.IsManaged = true ∧ ltb s.Current minV = true ∧
          s.Dependency = dep ∧ s.Latest = minV) := by
  refine ⟨stale_mem_char, managedModules_mem_char, ?_⟩
  intro g dep minV s hs
  rcases (stale_mem_char g dep minV s).mp hs with ⟨m, hm, r, _, _, h2, rfl⟩
  exact ⟨((managedModules_mem_char g m).mp hm).1, h2, rfl, rfl⟩

/-- Concrete graph for the C6 witness: one managed module pinning
`go:x` at `v1`, one unmanaged module pinning it at `v0`. -/
def gStale : DependencyGraph :=
  buildGraph P0
    [mkM (("go:m").data) [((("go:x").data), ("v1").data)] true,
     mkM (("go:u").data) [((("go:x").data), ("v0").data)] false]

/-- Witness for C6: the managed module's `v1` reference is reported below
`v2`, and every report is managed with version below the minimum. -/
theorem staleModules_spec_witness :
    (⟨mkM (("go:m").data) [((("go:x").data), ("v1").data)] true,
      ("x").data, ("v1").data, ("v2").data⟩ : StaleModule)
      ∈ StaleModules gStale (("x").data) (("v2").data) ∧
    (mkM (("go:m").data) [((("go:x").data), ("v1").data)] true) ∈ ManagedModules gStale := by
  constructor
  · refine (staleModules_spec.1 gStale (("x").data) (("v2").data) _).mpr ?_
    exact ⟨mkM (("go:m").data) [((("go:x").data), ("v1").data)] true, by decide,
      ⟨("go:x").data, ("v1").data, true⟩, by decide, by decide, by decide, by decide⟩
  · exact (staleModules_spec.2.1 gStale _).mpr ⟨by decide, ("go:m").data, by decide⟩

/-! ## Association-list facts -/

theorem lookupA_setA_self {α : Type} (l : List (Str × α)) (k : Str) (v : α) :
    lookupA (setA l k v) k = some v := by
  induction l with
  | nil => simp [setA, lookupA]
  | cons p t ih =>
    obtain ⟨k', v'⟩ := p
    by_cases h : k' = k
    · simp [setA, h, lookupA]
    · simp [setA, h, lookupA, ih]

theorem lookupA_setA_ne {α : Type} (l : List (Str × α)) (k k' : Str) (v : α)
    (h : k ≠ k') : lookupA (setA l k v) k' = lookupA l k' := by
  induction l with
  | nil => simp [setA, lookupA, h]
  | cons p t ih =>
    obtain ⟨k₀, v₀⟩ := p
    by_cases h0 : k₀ = k
    · subst h0
      simp [setA, lookupA, h]
    · simp [setA, h0, lookupA, ih]

theorem setA_fresh {α : Type} (l : List (Str × α)) (k : Str) (v : α)
    (h : k ∉ l.map Prod.fst) : setA l k v = l ++ [(k, v)] := by
  induction l with
  | nil => simp [setA]
  | cons p t ih =>
    obtain ⟨k₀, v₀⟩ := p
    have h1 : k₀ ≠ k := by
      intro he
      subst he
      exact h (List.mem_map_of_mem Prod.fst (List.mem_cons_self _ _))
    simp only [setA, h1, if_false]
    have ht : k ∉ t.map Prod.fst := by
      intro hm
      refine h ?_
      rw [List.map_cons]
      exact List.mem_cons_of_mem _ hm
    rw [ih ht]
    simp

theorem setA_cons_self {α : Type} (k : Str) (v v₀ : α) (t : List (Str × α)) :
    setA ((k, v₀) :: t) k v = (k, v) :: t := by
  simp [setA]

theorem setA_cons_ne {α : Type} {k₀ k : Str} (h : k₀ ≠ k) (v₀ v : α)
    (t : List (Str × α)) : setA ((k₀, v₀) :: t) k v = (k₀, v₀) :: setA t k v := by
  simp [setA, h]

theorem lookupA_cons_self {α : Type} (k : Str) (v₀ : α) (t : List (Str × α)) :
    lookupA ((k, v₀) :: t) k = some v₀ := by
  simp [lookupA]

theorem lookupA_cons_ne {α : Type} {k₀ k : Str} (h : k₀ ≠ k) (v₀ : α)
    (t : List (Str × α)) : lookupA ((k₀, v₀) :: t) k = lookupA t k := by
  simp [lookupA, h]

theorem mem_keys_setA {α : Type} {x : Str} : ∀ {l : List (Str × α)} {k : Str} {v : α},
    x ∈ (setA l k v).map Prod.fst ↔ x ∈ l.map Prod.fst ∨ x = k := by
  intro l
  induction l with
  | nil => intro k v; simp [setA]
  | cons p t ih =>
    obtain ⟨k₀, v₀⟩ := p
    intro k v
    by_cases h0 : k₀ = k
    · subst h0
      rw [setA_cons_self, List.map_cons, List.map_cons]
      simp only [List.mem_cons]
      tauto
    · rw [setA_cons_ne h0, List.map_cons, List.map_cons]
      simp only [List.mem_cons]
      rw [ih]
      tauto

theorem setA_keys_nodup {α : Type} (l : List (Str × α)) (k : Str) (v : α)
    (h : (l.map Prod.fst).Nodup) : ((setA l k v).map Prod.fst).Nodup := by
  induction l with
  | nil => simp [setA]
  | cons p t ih =>
    obtain ⟨k₀, v₀⟩ := p
    rw [List.map_cons] at h
    have h' := List.nodup_cons.mp h
    by_cases h0 : k₀ = k
    · subst h0
      simp only [setA, if_pos rfl, List.map_cons]
      exact List.nodup_cons.mpr ⟨h'.1, h'.2⟩
    · simp only [setA, h0, if_false, List.map_cons]
      refine List.nodup_cons.mpr ⟨?_, ih h'.2⟩
      intro hm
      rcases mem_keys_setA.mp hm with hm | hm
      · exact h'.1 hm
      · exact h0 hm

theorem setA_mem {α : Type} {l : List (Str × α)} {k : Str} {v : α} {p : Str × α}
    (h : p ∈ setA l k v) : p ∈ l ∨ p = (k, v) := by
  induction l with
  | nil => simpa [setA] using h
  | cons q t ih =>
    obtain ⟨k₀, v₀⟩ := q
    by_cases h0 : k₀ = k
    · simp only [setA, h0, if_true] at h
      rcases List.mem_cons.mp h with h | h
      · exact Or.inr h
      · exact Or.inl (List.mem_cons_of_mem _ h)
    · simp only [setA, h0, if_false] at h
      rcases List.mem_cons.mp h with h | h
      · exact Or.inl (h ▸ List.mem_cons_self _ _)
      · rcases ih h with h | h
        · exact Or.inl (List.mem_cons_of_mem _ h)
        · exact Or.inr h

theorem lookupA_eq_some_iff {α : Type} : ∀ {l : List (Str × α)},
    (l.map Prod.fst).Nodup → ∀ (k : Str) (v : α),
      (lookupA l k = some v ↔ (k, v) ∈ l) := by
  intro l
  induction l with
  | nil => intro _ k v; simp [lookupA]
  | cons p t ih =>
    obtain ⟨k₀, v₀⟩ := p
    intro h k v
    rw [List.map_cons] at h
    have h' := List.nodup_cons.mp h
    by_cases h0 : k₀ = k
    · subst h0
      rw [lookupA_cons_self]
      simp only [List.mem_cons, Option.some.injEq, Prod.mk.injEq]
      constructor
      · rintro rfl
        exact Or.inl ⟨trivial, rfl⟩
      · rintro (⟨_, rfl⟩ | hm)
        · rfl
        · exact absurd (List.mem_map_of_mem Prod.fst hm) h'.1
    · rw [lookupA_cons_ne h0]
      simp only [List.mem_cons, Prod.mk.injEq]
      rw [ih h'.2 k v]
      constructor
      · exact Or.inr
      · rintro (⟨he, _⟩ | hm)
        · exact absurd he.symm h0
        · exact hm

theorem lookupA_none_iff {α : Type} (l : List (Str × α)) (k : Str) :
    lookupA l k = none ↔ k ∉ l.map Prod.fst := by
  induction l with
  | nil => simp [lookupA]
  | cons p t ih =>
    obtain ⟨k₀, v₀⟩ := p
    by_cases h0 : k₀ = k
    · subst h0
      rw [lookupA_cons_self, List.map_cons]
      simp only [List.mem_cons]
      constructor
      · rintro h; cases h
      · intro h
        exact absurd (Or.inl trivial) h
    · rw [lookupA_cons_ne h0, List.map_cons]
      simp only [List.mem_cons]
      rw [ih]
      constructor
      · intro h1 h2
        rcases h2 with h2 | h2
        · exact h0 h2.symm
        · exact h1 h2
      · intro h1 h2
        exact h1 (Or.inr h2)

theorem getListA_appendA (l : List (Str × List Str)) (k k' : Str) (x : Str) :
    getListA (appendA l k x) k' =
      if k = k' then getListA l k' ++ [x] else getListA l k' := by
  induction l with
  | nil =>
    by_cases h : k = k'
    · simp [appendA, getListA, lookupA, h]
    · simp [appendA, getListA, lookupA, h]
  | cons p t ih =>
    obtain ⟨k₀, v₀⟩ := p
    by_cases h0 : k₀ = k
    · subst h0
      by_cases h1 : k₀ = k'
      · simp [appendA, getListA, lookupA, h1]
      · simp [appendA, getListA, lookupA, h1]
    · by_cases h1 : k₀ = k'
      · subst h1
        have : k ≠ k₀ := fun he => h0 he.symm
        simp [appendA, h0, getListA, lookupA, this]
      · simp only [appendA, h0, if_false]
        simp only [getListA, lookupA, h1, if_false]
        exact ih

/-! ## Structure of graphs assembled by `AddModule` -/

theorem addEdges_modules (i : Str) (deps : List ModuleRef) :
    ∀ g : DependencyGraph, (deps.foldl (addEdgesStep i) g).modules = g.modules := by
  induction deps with
  | nil => intro g; rfl
  | cons d t ih => intro g; rw [List.foldl_cons, ih]; rfl

theorem addEdges_portfolio (i : Str) (deps : List ModuleRef) :
    ∀ g : DependencyGraph, (deps.foldl (addEdgesStep i) g).portfolio = g.portfolio := by
  induction deps with
  | nil => intro g; rfl
  | cons d t ih => intro g; rw [List.foldl_cons, ih]; rfl

theorem addEdges_reverse (i : Str) (deps : List ModuleRef) :
    ∀ (g : DependencyGraph) (t : Str),
      getListA (deps.foldl (addEdgesStep i) g).reverse t =
        getListA g.reverse t ++ (deps.filter (fun d => d.ID = t)).map (fun _ => i) := by
  induction deps with
  | nil => intro g t; simp
  | cons d ds ih =>
    intro g t
    rw [List.foldl_cons, ih]
    show getListA (appendA g.reverse d.ID i) t ++ _ = _
    rw [getListA_appendA]
    by_cases h : d.ID = t
    · simp [h, List.filter_cons]
    · simp [h, List.filter_cons]

theorem addEdges_edges (i : Str) (deps : List ModuleRef) :
    ∀ (g : DependencyGraph) (a : Str),
      getListA (deps.foldl (addEdgesStep i) g).edges a =
        getListA g.edges a ++ (if i = a then deps.map (fun d => d.ID) else []) := by
  induction deps with
  | nil => intro g a; simp
  | cons d ds ih =>
    intro g a
    rw [List.foldl_cons, ih]
    show getListA (appendA g.edges i d.ID) a ++ _ = _
    rw [getListA_appendA]
    by_cases h : i = a
    · simp [h]
    · simp [h]

theorem addModule_modules (g : DependencyGraph) (m : Module) :
    (AddModule g m).modules = setA g.modules m.ID m := by
  unfold AddModule
  rw [addEdges_modules]

theorem addModule_portfolio (g : DependencyGraph) (m : Module) :
    (AddModule g m).portfolio = g.portfolio := by
  unfold AddModule
  rw [addEdges_portfolio]

theorem addModule_reverse (g : DependencyGraph) (m : Module) (t : Str) :
    getListA (AddModule g m).reverse t =
      getListA g.reverse t ++ (m.Dependencies.filter (fun d => d.ID = t)).map (fun _ => m.ID) := by
  unfold AddModule
  rw [addEdges_reverse]

theorem addModule_edges (g : DependencyGraph) (m : Module) (a : Str) :
    getListA (AddModule g m).edges a =
      getListA g.edges a ++ (if m.ID = a then m.Dependencies.map (fun d => d.ID) else []) := by
  unfold AddModule
  rw [addEdges_edges]

/-- Well-formed module map: no duplicate keys, and every stored module's ID
equals its key.  Every graph reachable through `AddModule` satisfies it. -/
def WFkeys (g : DependencyGraph) : Prop :=
  (g.modules.map Prod.fst).Nodup ∧ ∀ p ∈ g.modules, p.2.ID = p.1

theorem WFkeys_add {g : DependencyGraph} (h : WFkeys g) (m : Module) :
    WFkeys (AddModule g m) := by
  rw [WFkeys, addModule_modules]
  refine ⟨setA_keys_nodup _ _ _ h.1, ?_⟩
  intro p hp
  rcases setA_mem hp with hmem | he
  · exact h.2 p hmem
  · rw [he]

theorem WFkeys_build (p : Portfolio) (ms : List Module) : WFkeys (buildGraph p ms) := by
  have key : ∀ (l : List Module) (g : DependencyGraph), WFkeys g → WFkeys (l.foldl AddModule g) := by
    intro l
    induction l with
    | nil => intro g hg; exact hg
    | cons m t ih => intro g hg; exact ih _ (WFkeys_add hg m)
  exact key ms _ ⟨by simp [NewGraph], by simp [NewGraph]⟩

theorem buildFold_portfolio (ms : List Module) :
    ∀ g : DependencyGraph, (ms.foldl AddModule g).portfolio = g.portfolio := by
  induction ms with
  | nil => intro g; rfl
  | cons m t ih => intro g; rw [List.foldl_cons, ih, addModule_portfolio]

theorem buildFold_reverse (ms : List Module) :
    ∀ (g : DependencyGraph) (t : Str),
      getListA (ms.foldl AddModule g).reverse t =
        getListA g.reverse t ++
          ms.flatMap (fun m => (m.Dependencies.filter (fun d => d.ID = t)).map (fun _ => m.ID)) := by
  induction ms with
  | nil => intro g t; simp
  | cons m ms' ih =>
    intro g t
    rw [List.foldl_cons, ih, addModule_reverse]
    simp [List.flatMap_cons]

theorem buildFold_edges (ms : List Module) :
    ∀ (g : DependencyGraph) (a : Str),
      getListA (ms.foldl AddModule g).edges a =
        getListA g.edges a ++
          ms.flatMap (fun m => if m.ID = a then m.Dependencies.map (fun d => d.ID) else []) := by
  induction ms with
  | nil => intro g a; simp
  | cons m ms' ih =>
    intro g a
    rw [List.foldl_cons, ih, addModule_edges]
    simp [List.flatMap_cons]

theorem buildGraph_reverse (p : Portfolio) (ms : List Module) (t : Str) :
    getListA (buildGraph p ms).reverse t =
      ms.flatMap (fun m => (m.Dependencies.filter (fun d => d.ID = t)).map (fun _ => m.ID)) := by
  unfold buildGraph
  rw [buildFold_reverse]
  simp [NewGraph, getListA, lookupA]

theorem buildGraph_edges (p : Portfolio) (ms : List Module) (a : Str) :
    getListA (buildGraph p ms).edges a =
      ms.flatMap (fun m => if m.ID = a then m.Dependencies.map (fun d => d.ID) else []) := by
  unfold buildGraph
  rw [buildFold_edges]
  simp [NewGraph, getListA, lookupA]

/-- Re-adding a list of modules with fresh, pairwise-distinct ids appends
their entries in order. -/
theorem rebuild_modules : ∀ (l : List Module) (g : DependencyGraph),
    (∀ m ∈ l, m.ID ∉ g.modules.map Prod.fst) → (l.map (fun m => m.ID)).Nodup →
    (l.foldl AddModule g).modules = g.modules ++ l.map (fun m => (m.ID, m)) := by
  intro l
  induction l with
  | nil => intro g _ _; simp
  | cons m t ih =>
    intro g hfresh hnodup
    rw [List.foldl_cons]
    have h1 : (AddModule g m).modules = g.modules ++ [(m.ID, m)] := by
      rw [addModule_modules, setA_fresh _ _ _ (hfresh m (List.mem_cons_self m t))]
    have hn' : (∀ x ∈ t, ¬ x.ID = m.ID) ∧ ((t.map (fun x => x.ID)).Nodup) := by
      simpa using hnodup
    have h2 : ∀ m' ∈ t, m'.ID ∉ (AddModule g m).modules.map Prod.fst := by
      intro m' hm'
      rw [h1]
      simp only [List.map_append, List.mem_append]
      rintro (h | h)
      · exact hfresh m' (List.mem_cons_of_mem m hm') h
      · have he : m'.ID = m.ID := by simpa using h
        exact hn'.1 m' hm' he
    rw [ih (AddModule g m) h2 hn'.2, h1]
    simp

theorem buildGraph_modules (p : Portfolio) (ms : List Module)
    (h : (ms.map (fun m => m.ID)).Nodup) :
    (buildGraph p ms).modules = ms.map (fun m => (m.ID, m)) := by
  unfold buildGraph
  rw [rebuild_modules ms _ (by simp [NewGraph]) h]
  simp [NewGraph]

end VC

namespace VC

/-! ## Claims C4, C5, C7 -/

theorem buildGraph_keys_nodup (p : Portfolio) (ms : List Module)
    (h : (ms.map (fun m => m.ID)).Nodup) :
    ((buildGraph p ms).modules.map Prod.fst).Nodup := by
  rw [buildGraph_modules p ms h, List.map_map]
  exact h

theorem buildGraph_lookup (p : Portfolio) (ms : List Module)
    (h : (ms.map (fun m => m.ID)).Nodup) (i : Str) (x : Module) :
    lookupA (buildGraph p ms).modules i = some x ↔ x ∈ ms ∧ x.ID = i := by
  rw [lookupA_eq_some_iff (buildGraph_keys_nodup p ms h), buildGraph_modules p ms h]
  rw [List.mem_map]
  constructor
  · rintro ⟨m, hm, he⟩
    have h1 : m.ID = i := congrArg Prod.fst he
    have h2 : m = x := congrArg Prod.snd he
    subst h2
    exact ⟨hm, h1⟩
  · rintro ⟨hx, hi⟩
    exact ⟨x, hx, by rw [hi]⟩

theorem mem_values_buildGraph (p : Portfolio) (ms : List Module)
    (h : (ms.map (fun m => m.ID)).Nodup) (x : Module) :
    x ∈ (buildGraph p ms).modules.map Prod.snd ↔ x ∈ ms := by
  rw [buildGraph_modules p ms h, List.map_map]
  constructor
  · intro hx
    rcases List.mem_map.mp hx with ⟨m, hm, he⟩
    exact he ▸ hm
  · intro hx
    exact List.mem_map.mpr ⟨x, hx, rfl⟩

/-- C4 (amended): for graphs assembled by adding each module id once,
`Dependents(mid)` contains exactly the modules of the graph that list
`mid` among their dependency target ids. -/
theorem dependents_char (p : Portfolio) (ms : List Module)
    (h : (ms.map (fun m => m.ID)).Nodup) (mid : Str) (x : Module) :
    x ∈ Dependents (buildGraph p ms) mid ↔
      x ∈ (buildGraph p ms).modules.map Prod.snd ∧
        mid ∈ x.Dependencies.map (fun d => d.ID) := by
  unfold Dependents
  rw [List.mem_filterMap, mem_values_buildGraph p ms h]
  constructor
  · rintro ⟨i, hi, hl⟩
    rcases (buildGraph_lookup p ms h i x).mp hl with ⟨hx, hxid⟩
    refine ⟨hx, ?_⟩
    rw [buildGraph_reverse] at hi
    rcases List.mem_flatMap.mp hi with ⟨m, hm, hmem⟩
    rcases List.mem_map.mp hmem with ⟨d, hd, he⟩
    have hmx : m = x := by
      refine List.inj_on_of_nodup_map h hm hx ?_
      rw [he, hxid]
    subst hmx
    rcases List.mem_filter.mp hd with ⟨hd1, hd2⟩
    exact List.mem_map.mpr ⟨d, hd1, by simpa using hd2⟩
  · rintro ⟨hx, hmid⟩
    rcases List.mem_map.mp hmid with ⟨d, hd, he⟩
    refine ⟨x.ID, ?_, (buildGraph_lookup p ms h x.ID x).mpr ⟨hx, rfl⟩⟩
    rw [buildGraph_reverse]
    refine List.mem_flatMap.mpr ⟨x, hx, ?_⟩
    refine List.mem_map.mpr ⟨d, ?_, rfl⟩
    exact List.mem_filter.mpr ⟨hd, by simpa using he⟩

/-- C4 counterexample: after re-adding `n` without dependencies,
`Dependents("m")` still reports `n`, although no module of the graph lists
`m` among its dependency targets. -/
theorem dependents_cex :
    Dependents gDep (("m").data) ≠ [] ∧
    (∀ x ∈ Dependents gDep (("m").data),
      ¬ (("m").data) ∈ x.Dependencies.map (fun d => d.ID)) := by
  decide

/-- Witness for C4 on a duplicate-free graph. -/
theorem dependents_char_witness :
    (mkM (("n").data) [((("m").data), [])] true) ∈
      Dependents (buildGraph P0
        [mkM (("n").data) [((("m").data), [])] true,
         mkM (("m").data) [] true]) (("m").data) :=
  (dependents_char P0
      [mkM (("n").data) [((("m").data), [])] true, mkM (("m").data) [] true]
      (by decide) (("m").data) _).mpr (by decide)

theorem count_transpose_head (m : Module) (a b : Str) :
    ((if m.ID = a then m.Dependencies.map (fun d => d.ID) else []).count b) =
      ((m.Dependencies.filter (fun d => d.ID = b)).map (fun _ => m.ID)).count a := by
  by_cases hma : m.ID = a
  · rw [if_pos hma]
    generalize m.Dependencies = l
    induction l with
    | nil => simp
    | cons d t ih =>
      by_cases hdb : d.ID = b
      · simp [List.count_cons, hdb, hma, ih]
      · simp [List.count_cons, hdb, ih]
  · rw [if_neg hma]
    have : a ∉ (m.Dependencies.filter (fun d => d.ID = b)).map (fun _ => m.ID) := by
      intro hmem
      rcases List.mem_map.mp hmem with ⟨_, _, he⟩
      exact hma he
    simp only [List.count_nil]
    exact (List.count_eq_zero.mpr this).symm

theorem buildGraph_transpose (p : Portfolio) (ms : List Module) (a b : Str) :
    (getListA (buildGraph p ms).edges a).count b =
      (getListA (buildGraph p ms).reverse b).count a := by
  rw [buildGraph_edges, buildGraph_reverse]
  induction ms with
  | nil => rfl
  | cons m t ih =>
    rw [List.flatMap_cons, List.flatMap_cons, List.count_append, List.count_append, ih,
      count_transpose_head]

/-- C5 (amended): `AddModule` replaces the stored module value wholesale
(`GetModule` afterwards returns exactly the new module), but the forward
adjacency for its id is appended to, not reset — it becomes the previous
adjacency followed by the new dependency target ids — and the reverse
index remains the exact (multiplicity-counting) transpose of the forward
index on every graph assembled through `AddModule`. -/
theorem addModule_replace :
    (∀ (g : DependencyGraph) (m : Module), GetModule (AddModule g m) m.ID = some m) ∧
    (∀ (g : DependencyGraph) (m : Module),
        getListA (AddModule g m).edges m.ID =
          getListA g.edges m.ID ++ m.Dependencies.map (fun d => d.ID)) ∧
    (∀ (p : Portfolio) (ms : List Module) (a b : Str),
        (getListA (buildGraph p ms).edges a).count b =
          (getListA (buildGraph p ms).reverse b).count a) := by
  refine ⟨?_, ?_, buildGraph_transpose⟩
  · intro g m
    unfold GetModule
    rw [addModule_modules]
    exact lookupA_setA_self g.modules m.ID m
  · intro g m
    rw [addModule_edges, if_pos rfl]

/-- C5 counterexample: re-adding `m` with dependency `b` leaves the old
edge to `a` in the forward adjacency, so the adjacency is not the new
dependency list. -/
theorem addModule_replace_cex :
    GetModule gAcc (("m").data) = some (mkM (("m").data) [((("b").data), [])] true) ∧
    getListA gAcc.edges (("m").data) = [("a").data, ("b").data] ∧
    getListA gAcc.edges (("m").data) ≠
      (mkM (("m").data) [((("b").data), [])] true).Dependencies.map (fun d => d.ID) := by
  decide

/-- Witness for C5. -/
theorem addModule_replace_witness :
    GetModule (AddModule NewGraph (mkM (("z").data) [((("w").data), [])] true)) (("z").data)
        = some (mkM (("z").data) [((("w").data), [])] true) ∧
    (getListA (buildGraph P0 [mkM (("z").data) [((("w").data), [])] true]).edges
        (("z").data)).count (("w").data) =
      (getListA (buildGraph P0 [mkM (("z").data) [((("w").data), [])] true]).reverse
        (("w").data)).count (("z").data) :=
  ⟨addModule_replace.1 NewGraph _,
   addModule_replace.2.2 P0 [mkM (("z").data) [((("w").data), [])] true] (("z").data) (("w").data)⟩

theorem values_id_eq_keys {g : DependencyGraph} (h : WFkeys g) :
    (g.modules.map Prod.snd).map (fun m => m.ID) = g.modules.map Prod.fst := by
  rw [List.map_map]
  exact List.map_congr_left (fun p hp => h.2 p hp)

theorem rebuild_modules_eq {g : DependencyGraph} (h : WFkeys g) (p : Portfolio) :
    ((g.modules.map Prod.snd).foldl AddModule { NewGraph with portfolio := p }).modules
      = g.modules := by
  have hfresh : ∀ m ∈ g.modules.map Prod.snd,
      m.ID ∉ ({ NewGraph with portfolio := p } : DependencyGraph).modules.map Prod.fst := by
    intro m _
    simp [NewGraph]
  have hnodup : ((g.modules.map Prod.snd).map (fun m => m.ID)).Nodup := by
    rw [values_id_eq_keys h]
    exact h.1
  rw [rebuild_modules _ _ hfresh hnodup]
  have : (g.modules.map Prod.snd).map (fun m => (m.ID, m)) = g.modules := by
    rw [List.map_map]
    have : ∀ q ∈ g.modules, ((fun m => (m.ID, m)) ∘ Prod.snd) q = q := by
      intro q hq
      have := h.2 q hq
      simp only [Function.comp_apply, this]
    rw [List.map_congr_left this]
    exact List.map_id g.modules
  rw [this]
  simp [NewGraph]

theorem stats_congr {g₁ g₂ : DependencyGraph} (h : g₁.modules = g₂.modules) :
    Stats g₁ = Stats g₂ := by
  unfold Stats
  rw [h]

theorem allModules_congr {g₁ g₂ : DependencyGraph} (h : g₁.modules = g₂.modules) :
    AllModules g₁ = AllModules g₂ := by
  unfold AllModules
  rw [h]

/-- C7: round-tripping any graph assembled through `AddModule` through
`Snapshot` and `BuildFromSnapshot` preserves the module map, hence
`AllModules`, `Stats`, and the Portfolio. -/
theorem snapshot_roundtrip (p : Portfolio) (ms : List Module) :
    (BuildFromSnapshot (Snapshot (buildGraph p ms))).modules = (buildGraph p ms).modules ∧
    AllModules (BuildFromSnapshot (Snapshot (buildGraph p ms))) = AllModules (buildGraph p ms) ∧
    Stats (BuildFromSnapshot (Snapshot (buildGraph p ms))) = Stats (buildGraph p ms) ∧
    (BuildFromSnapshot (Snapshot (buildGraph p ms))).portfolio = (buildGraph p ms).portfolio := by
  have hwf : WFkeys (buildGraph p ms) := WFkeys_build p ms
  have hmods : (BuildFromSnapshot (Snapshot (buildGraph p ms))).modules
      = (buildGraph p ms).modules := by
    unfold BuildFromSnapshot Snapshot
    exact rebuild_modules_eq hwf _
  refine ⟨hmods, allModules_congr hmods, stats_congr hmods, ?_⟩
  unfold BuildFromSnapshot Snapshot
  rw [buildFold_portfolio]

end VC

namespace VC

/-! ## The inner loop of `UpgradeOrder` -/

theorem filter_length_mono {α : Type} (p q : α → Bool)
    (h : ∀ x, q x = true → p x = true) :
    ∀ l : List α, (l.filter q).length ≤ (l.filter p).length := by
  intro l
  induction l with
  | nil => simp
  | cons x t ih =>
    rw [List.filter_cons, List.filter_cons]
    by_cases hq : q x = true
    · rw [if_pos hq, if_pos (h x hq), List.length_cons, List.length_cons]
      omega
    · rw [if_neg hq]
      by_cases hp : p x = true
      · rw [if_pos hp, List.length_cons]
        omega
      · rw [if_neg hp]
        exact ih

theorem filter_length_lt {α : Type} (p q : α → Bool)
    (h : ∀ x, q x = true → p x = true) :
    ∀ (l : List α) (a : α), a ∈ l → p a = true → q a = false →
      (l.filter q).length < (l.filter p).length := by
  intro l
  induction l with
  | nil => intro a ha; cases ha
  | cons x t ih =>
    intro a ha hpa hqa
    rw [List.filter_cons, List.filter_cons]
    rcases List.mem_cons.mp ha with rfl | hat
    · rw [if_pos hpa, if_neg (by rw [hqa]; exact Bool.false_ne_true), List.length_cons]
      have := filter_length_mono p q h t
      omega
    · have hlt := ih a hat hpa hqa
      by_cases hq : q x = true
      · rw [if_pos hq, if_pos (h x hq), List.length_cons, List.length_cons]
        omega
      · rw [if_neg hq]
        by_cases hp : p x = true
        · rw [if_pos hp, List.length_cons]
          omega
        · rw [if_neg hp]
          exact hlt

theorem decStep_fst (mids : List Str) (p : (Str → Int) × List Str) (x : Str) :
    (decStep mids p x).1 =
      if x ∈ mids then (fun y => if y = x then p.1 y - 1 else p.1 y) else p.1 := by
  unfold decStep
  by_cases hx : x ∈ mids
  · by_cases hz : p.1 x - 1 = 0
    · simp [hx, hz]
    · simp [hx, hz]
  · simp [hx]

theorem decStep_snd (mids : List Str) (p : (Str → Int) × List Str) (x : Str) :
    (decStep mids p x).2 =
      if x ∈ mids ∧ p.1 x - 1 = 0 then p.2 ++ [x] else p.2 := by
  unfold decStep
  by_cases hx : x ∈ mids
  · by_cases hz : p.1 x - 1 = 0
    · simp [hx, hz]
    · simp [hx, hz]
  · simp [hx]

theorem processReverse_fst (mids : List Str) :
    ∀ (l : List Str) (d : Str → Int) (q : List Str) (u : Str),
      (processReverse mids d q l).1 u =
        if u ∈ mids then d u - (l.count u : Int) else d u := by
  intro l
  induction l with
  | nil =>
    intro d q u
    by_cases hu : u ∈ mids <;> simp [processReverse, hu]
  | cons x t ih =>
    intro d q u
    show (List.foldl (decStep mids) (decStep mids (d, q) x) t).1 u = _
    have hsplit : decStep mids (d, q) x =
        ((decStep mids (d, q) x).1, (decStep mids (d, q) x).2) := rfl
    rw [hsplit]
    have := ih (decStep mids (d, q) x).1 (decStep mids (d, q) x).2 u
    rw [show List.foldl (decStep mids) ((decStep mids (d, q) x).1,
        (decStep mids (d, q) x).2) t = processReverse mids (decStep mids (d, q) x).1
        (decStep mids (d, q) x).2 t from rfl, this, decStep_fst]
    by_cases hx : x ∈ mids
    · by_cases hu : u ∈ mids
      · by_cases hux : u = x
        · subst hux
          simp only [hx, if_true, hu, if_pos rfl, List.count_cons_self]
          push_cast
          omega
        · simp only [hx, if_true, hu, if_true, if_neg hux]
          rw [List.count_cons_of_ne (by simpa using hux)]
      · by_cases hux : u = x
        · subst hux
          exact absurd hx hu
        · simp only [hx, if_true, hu, if_false, if_neg hux]
    · by_cases hu : u ∈ mids
      · by_cases hux : u = x
        · subst hux
          exact absurd hu hx
        · simp only [hx, if_false, hu, if_true]
          rw [List.count_cons_of_ne (by simpa using hux)]
      · simp only [hx, if_false, hu, if_false]

end VC

namespace VC

theorem processReverse_cons (mids : List Str) (d : Str → Int) (q : List Str)
    (x : Str) (t : List Str) :
    processReverse mids d q (x :: t) =
      processReverse mids (decStep mids (d, q) x).1 (decStep mids (d, q) x).2 t := rfl

theorem processReverse_snd_mem (mids : List Str) :
    ∀ (l : List Str) (d : Str → Int) (q : List Str) (u : Str),
      u ∈ (processReverse mids d q l).2 ↔
        u ∈ q ∨ (u ∈ mids ∧ 1 ≤ d u ∧ d u ≤ (l.count u : Int)) := by
  intro l
  induction l with
  | nil =>
    intro d q u
    simp only [processReverse, List.foldl_nil, List.count_nil, Nat.cast_zero]
    constructor
    · exact Or.inl
    · rintro (h | ⟨_, h1, h2⟩)
      · exact h
      · omega
  | cons x t ih =>
    intro d q u
    rw [processReverse_cons, ih, decStep_fst, decStep_snd]
    dsimp only
    by_cases hx : x ∈ mids
    · by_cases hz : d x - 1 = 0
      · rw [if_pos ⟨hx, hz⟩, if_pos hx]
        by_cases hux : u = x
        · subst hux
          rw [List.count_cons_self]
          simp only [List.mem_append, List.mem_singleton, if_pos rfl]
          constructor
          · intro _
            right
            push_cast
            refine ⟨hx, by omega, by omega⟩
          · intro _
            exact Or.inl (Or.inr trivial)
        · rw [List.count_cons_of_ne (by simpa using hux)]
          simp only [List.mem_append, List.mem_singleton, if_neg hux]
          constructor
          · rintro ((h | h) | h)
            · exact Or.inl h
            · exact absurd h hux
            · exact Or.inr h
          · rintro (h | h)
            · exact Or.inl (Or.inl h)
            · exact Or.inr h
      · rw [if_neg (fun hc => hz hc.2), if_pos hx]
        by_cases hux : u = x
        · subst hux
          rw [List.count_cons_self, if_pos rfl]
          constructor
          · rintro (h | ⟨hm, h1, h2⟩)
            · exact Or.inl h
            · right
              push_cast
              refine ⟨hm, by omega, by omega⟩
          · rintro (h | ⟨hm, h1, h2⟩)
            · exact Or.inl h
            · right
              refine ⟨hm, ?_, ?_⟩ <;> push_cast at h2 ⊢ <;> omega
        · rw [List.count_cons_of_ne (by simpa using hux), if_neg hux]
    · rw [if_neg (fun hc => hx hc.1), if_neg hx]
      by_cases hux : u = x
      · subst hux
        rw [List.count_cons_self]
        constructor
        · rintro (h | ⟨hm, h1, h2⟩)
          · exact Or.inl h
          · exact absurd hm hx
        · rintro (h | ⟨hm, h1, h2⟩)
          · exact Or.inl h
          · exact absurd hm hx
      · rw [List.count_cons_of_ne (by simpa using hux)]

end VC

namespace VC

theorem mu_step (mids : List Str) :
    ∀ (l : List Str) (d : Str → Int) (q : List Str),
      (processReverse mids d q l).2.length +
        ((mids.dedup).filter (fun x => decide (1 ≤ (processReverse mids d q l).1 x))).length ≤
      q.length + ((mids.dedup).filter (fun x => decide (1 ≤ d x))).length := by
  intro l
  induction l with
  | nil => intro d q; simp [processReverse]
  | cons x t ih =>
    intro d q
    rw [processReverse_cons]
    refine le_trans (ih _ _) ?_
    rw [decStep_fst, decStep_snd]
    dsimp only
    by_cases hx : x ∈ mids
    · by_cases hz : d x - 1 = 0
      · rw [if_pos ⟨hx, hz⟩, if_pos hx, List.length_append, List.length_singleton]
        have hlt : ((mids.dedup).filter
            (fun y => decide (1 ≤ if y = x then d y - 1 else d y))).length <
            ((mids.dedup).filter (fun y => decide (1 ≤ d y))).length := by
          refine filter_length_lt _ _ ?_ mids.dedup x (List.mem_dedup.mpr hx) ?_ ?_
          · intro y hy
            rw [decide_eq_true_iff] at hy ⊢
            by_cases hyx : y = x
            · subst hyx
              rw [if_pos rfl] at hy
              omega
            · rwa [if_neg hyx] at hy
          · rw [decide_eq_true_iff]
            omega
          · rw [decide_eq_false_iff_not]
            rw [if_pos rfl]
            omega
        omega
      · rw [if_neg (fun hc => hz hc.2), if_pos hx]
        have hle : ((mids.dedup).filter
            (fun y => decide (1 ≤ if y = x then d y - 1 else d y))).length ≤
            ((mids.dedup).filter (fun y => decide (1 ≤ d y))).length := by
          refine filter_length_mono _ _ ?_ mids.dedup
          intro y hy
          rw [decide_eq_true_iff] at hy ⊢
          by_cases hyx : y = x
          · subst hyx
            rw [if_pos rfl] at hy
            omega
          · rwa [if_neg hyx] at hy
        omega
    · rw [if_neg (fun hc => hx hc.1), if_neg hx]

theorem processReverse_snd_nodup (mids : List Str) :
    ∀ (l : List Str) (d : Str → Int) (q : List Str),
      q.Nodup → (∀ u ∈ q, ¬ 1 ≤ d u) →
      ((processReverse mids d q l).2.Nodup ∧
        ∀ u ∈ (processReverse mids d q l).2, ¬ 1 ≤ (processReverse mids d q l).1 u) := by
  intro l
  induction l with
  | nil => intro d q h1 h2; exact ⟨h1, h2⟩
  | cons x t ih =>
    intro d q h1 h2
    rw [processReverse_cons]
    refine ih _ _ ?_ ?_
    · rw [decStep_snd]
      dsimp only
      by_cases hc : x ∈ mids ∧ d x - 1 = 0
      · rw [if_pos hc]
        refine List.Nodup.append h1 (List.nodup_singleton x) ?_
        intro a ha hax
        rw [List.mem_singleton] at hax
        subst hax
        have := h2 a ha
        omega
      · rw [if_neg hc]
        exact h1
    · rw [decStep_fst, decStep_snd]
      dsimp only
      by_cases hx : x ∈ mids
      · by_cases hz : d x - 1 = 0
        · rw [if_pos ⟨hx, hz⟩, if_pos hx]
          intro u hu
          rcases List.mem_append.mp hu with hu | hu
          · by_cases hux : u = x
            · rw [if_pos hux, hux]
              omega
            · rw [if_neg hux]
              exact h2 u hu
          · rw [List.mem_singleton] at hu
            rw [if_pos hu, hu]
            omega
        · rw [if_neg (fun hc => hz hc.2), if_pos hx]
          intro u hu
          by_cases hux : u = x
          · rw [if_pos hux]
            have := h2 u hu
            omega
          · rw [if_neg hux]
            exact h2 u hu
      · rw [if_neg (fun hc => hx hc.1), if_neg hx]
        exact h2

end VC

namespace VC

theorem kahnLoopF_general (mlook : Str → Option Module) (rlook : Str → List Str)
    (mids : List Str) :
    ∀ (fuel : Nat) (d : Str → Int) (visited : List Str) (out : List Module)
      (queue : List Str),
      kahnFuel mids d queue ≤ fuel →
      (∀ x ∈ queue, x ∈ mids) →
      visited.Nodup →
      (∀ x ∈ visited, x ∈ mids) →
      out = visited.filterMap mlook →
      (kahnLoopF mlook rlook mids fuel d visited out queue).2.2 = [] ∧
      (kahnLoopF mlook rlook mids fuel d visited out queue).2.1.Nodup ∧
      (∀ x ∈ (kahnLoopF mlook rlook mids fuel d visited out queue).2.1, x ∈ mids) ∧
      (kahnLoopF mlook rlook mids fuel d visited out queue).1 =
        (kahnLoopF mlook rlook mids fuel d visited out queue).2.1.filterMap mlook := by
  intro fuel
  induction fuel with
  | zero =>
    intro d visited out queue hfuel hq hnd hvm hout
    have hql : queue.length = 0 := by
      unfold kahnFuel at hfuel
      omega
    have hqe : queue = [] := List.length_eq_zero.mp hql
    subst hqe
    simp only [kahnLoopF]
    exact ⟨trivial, hnd, hvm, hout⟩
  | succ fuel ih =>
    intro d visited out queue hfuel hq hnd hvm hout
    cases queue with
    | nil =>
      simp only [kahnLoopF]
      exact ⟨trivial, hnd, hvm, hout⟩
    | cons id rest =>
      by_cases hv : id ∈ visited
      · simp only [kahnLoopF, if_pos hv]
        refine ih d visited out rest ?_ (fun x hx => hq x (List.mem_cons_of_mem id hx)) hnd hvm hout
        unfold kahnFuel at hfuel ⊢
        simp only [List.length_cons] at hfuel
        omega
      · simp only [kahnLoopF, if_neg hv]
        refine ih _ _ _ _ ?_ ?_ ?_ ?_ ?_
        · unfold kahnFuel at hfuel ⊢
          rw [(sortStr_perm (processReverse mids d rest (rlook id)).2).length_eq]
          have hmu := mu_step mids (rlook id) d rest
          simp only [List.length_cons] at hfuel
          omega
        · intro x hx
          rw [mem_sortStr] at hx
          rcases (processReverse_snd_mem mids (rlook id) d rest x).mp hx with h | h
          · exact hq x (List.mem_cons_of_mem id h)
          · exact h.1
        · refine List.Nodup.append hnd (List.nodup_singleton id) ?_
          intro a ha hb
          rw [List.mem_singleton] at hb
          exact hv (hb ▸ ha)
        · intro x hx
          rcases List.mem_append.mp hx with h | h
          · exact hvm x h
          · rw [List.mem_singleton] at h
            exact h ▸ hq id (List.mem_cons_self id rest)
        · rw [List.filterMap_append, ← hout]
          cases hmk : mlook id with
          | none => simp [List.filterMap_cons, hmk]
          | some m => simp [List.filterMap_cons, hmk]

end VC

namespace VC

theorem managedModules_ids_nodup {g : DependencyGraph} (h : WFkeys g) :
    (managedIDsOf g).Nodup := by
  unfold managedIDsOf ManagedModules
  have hperm := sortMod_perm ((g.modules.map Prod.snd).filter (fun m => m.IsManaged))
  refine (hperm.map (fun m => m.ID)).nodup_iff.mpr ?_
  have hsub : List.Sublist
      (((g.modules.map Prod.snd).filter (fun m => m.IsManaged)).map (fun m => m.ID))
      ((g.modules.map Prod.snd).map (fun m => m.ID)) :=
    (List.filter_sublist _).map _
  refine List.Nodup.sublist hsub ?_
  rw [values_id_eq_keys h]
  exact h.1

theorem mids_lookup {g : DependencyGraph} (h : WFkeys g) :
    ∀ x ∈ managedIDsOf g, ∃ m, lookupA g.modules x = some m ∧ m.ID = x := by
  intro x hx
  unfold managedIDsOf at hx
  rcases List.mem_map.mp hx with ⟨m, hm, rfl⟩
  rcases (managedModules_mem_char g m).mp hm with ⟨_, k, hk⟩
  have hkid : m.ID = k := h.2 (k, m) hk
  refine ⟨m, ?_, rfl⟩
  rw [hkid]
  exact (lookupA_eq_some_iff h.1 k m).mpr hk

theorem filterMap_map_id (mlook : Str → Option Module) :
    ∀ (v : List Str), (∀ x ∈ v, ∃ m, mlook x = some m ∧ m.ID = x) →
      ((v.filterMap mlook).map (fun m => m.ID)) = v := by
  intro v
  induction v with
  | nil => intro _; rfl
  | cons x t ih =>
    intro hv
    rcases hv x (List.mem_cons_self x t) with ⟨m, hm, hid⟩
    simp only [List.filterMap_cons, hm]
    rw [List.map_cons, hid, ih (fun y hy => hv y (List.mem_cons_of_mem x hy))]

theorem sub_length_lt_iff {v m : List Str} (hv : v.Nodup) (hm : m.Nodup)
    (hsub : ∀ x ∈ v, x ∈ m) : v.length < m.length ↔ ∃ u ∈ m, u ∉ v := by
  constructor
  · intro hlt
    by_contra hno
    push_neg at hno
    have hms : m ⊆ v := fun u hu => hno u hu
    have := (List.subperm_of_subset hm hms).length_le
    omega
  · rintro ⟨u, hu, hnv⟩
    have hsub' : v ⊆ m.erase u := by
      intro x hx
      refine (List.mem_erase_of_ne ?_).mpr (hsub x hx)
      intro he
      exact hnv (he ▸ hx)
    have h1 := (List.subperm_of_subset hv hsub').length_le
    have h2 : (m.erase u).length = m.length - 1 := List.length_erase_of_mem hu
    have h3 : 0 < m.length := List.length_pos_of_mem hu
    omega

theorem initialQueue_sub (g : DependencyGraph) :
    ∀ x ∈ initialQueue g, x ∈ managedIDsOf g := by
  intro x hx
  unfold initialQueue at hx
  rw [mem_sortStr] at hx
  exact (List.mem_filter.mp hx).1

/-- C2: `UpgradeOrder` never returns an error; for every reachable graph,
when some managed modules cannot be ordered there is exactly one `Cycle`
record containing, as a set, exactly the unordered managed ids (and no
record otherwise); a managed 3-cycle yields an empty sequence and one
record with all three ids. -/
theorem upgradeOrder_cycle_report :
    (∀ g : DependencyGraph, (UpgradeOrder g).2 = none) ∧
    (∀ (p : Portfolio) (ms : List Module),
      ((UpgradeOrder (buildGraph p ms)).1.Cycles = [] ↔
        ∀ u ∈ managedIDsOf (buildGraph p ms),
          u ∈ (UpgradeOrder (buildGraph p ms)).1.Modules.map (fun m => m.ID)) ∧
      ((∃ u ∈ managedIDsOf (buildGraph p ms),
          u ∉ (UpgradeOrder (buildGraph p ms)).1.Modules.map (fun m => m.ID)) →
        ∃ c, (UpgradeOrder (buildGraph p ms)).1.Cycles = [c] ∧
          ∀ u, (u ∈ c.Modules ↔ u ∈ managedIDsOf (buildGraph p ms) ∧
            u ∉ (UpgradeOrder (buildGraph p ms)).1.Modules.map (fun m => m.ID)))) ∧
    ((UpgradeOrder gCyc).1.Modules = [] ∧
      (UpgradeOrder gCyc).1.Cycles = [⟨[("A").data, ("B").data, ("C").data]⟩]) := by
  refine ⟨fun g => rfl, ?_, by decide⟩
  intro p ms
  have hwf : WFkeys (buildGraph p ms) := WFkeys_build p ms
  set g := buildGraph p ms with hg
  set mids := managedIDsOf g with hmids
  set d0 := inDeg0 (ManagedModules g) mids with hd0
  set q0 := initialQueue g with hq0
  set K := kahnLoopF (lookupA g.modules) (fun id => getListA g.reverse id) mids
    (kahnFuel mids d0 q0) d0 [] [] q0 with hK
  have hUO : UpgradeOrder g =
      (⟨K.1, if K.1.length < (ManagedModules g).length then
          [Cycle.mk (mids.filter (fun id => decide (id ∉ K.2.1)))] else []⟩, none) := rfl
  have hgen := kahnLoopF_general (lookupA g.modules) (fun id => getListA g.reverse id)
    mids (kahnFuel mids d0 q0) d0 [] [] q0 le_rfl (initialQueue_sub g)
    List.nodup_nil (by intro x hx; cases hx) rfl
  obtain ⟨hdrain, hnodupv, hsubv, hfm⟩ := hgen
  rw [← hK] at hnodupv hsubv hfm
  have hids : K.1.map (fun m => m.ID) = K.2.1 := by
    rw [hfm]
    exact filterMap_map_id _ _ (fun x hx => mids_lookup hwf x (hsubv x hx))
  have hlen : K.1.length = K.2.1.length := by
    have := congrArg List.length hids
    simpa using this
  have hmidsnd : mids.Nodup := managedModules_ids_nodup hwf
  have hmlen : (ManagedModules g).length = mids.length := by
    rw [hmids]
    unfold managedIDsOf
    rw [List.length_map]
  have htrig : K.1.length < (ManagedModules g).length ↔ ∃ u ∈ mids, u ∉ K.2.1 := by
    rw [hlen, hmlen]
    exact sub_length_lt_iff hnodupv hmidsnd hsubv
  rw [hUO]
  dsimp only
  rw [hids]
  constructor
  · constructor
    · intro hemp u hu
      by_contra hnu
      rw [if_pos (htrig.mpr ⟨u, hu, hnu⟩)] at hemp
      cases hemp
    · intro hall
      rw [if_neg ?_]
      rw [htrig]
      rintro ⟨u, hu, hnu⟩
      exact hnu (hall u hu)
  · rintro ⟨u, hu, hnu⟩
    refine ⟨Cycle.mk (mids.filter (fun id => decide (id ∉ K.2.1))), ?_, ?_⟩
    · rw [if_pos (htrig.mpr ⟨u, hu, hnu⟩)]
    · intro w
      dsimp only
      rw [List.mem_filter, decide_eq_true_iff]

/-- Witness for C2: a graph with one managed module that cannot be
ordered. -/
theorem upgradeOrder_cycle_report_witness :
    (UpgradeOrder gChain).2 = none ∧
    ((UpgradeOrder gCyc).1.Cycles = [] ↔
        ∀ u ∈ managedIDsOf gCyc,
          u ∈ (UpgradeOrder gCyc).1.Modules.map (fun m => m.ID)) := by
  refine ⟨upgradeOrder_cycle_report.1 gChain, ?_⟩
  exact (upgradeOrder_cycle_report.2.1 P0
    [mkM (("A").data) [((("B").data), [])] true,
     mkM (("B").data) [((("C").data), [])] true,
     mkM (("C").data) [((("A").data), [])] true]).1

end VC

namespace VC

theorem remDeg_nonneg (mlook : Str → Option Module) (mids V : List Str) (u : Str) :
    0 ≤ remDeg mlook mids V u := by
  unfold remDeg
  exact Int.natCast_nonneg _

theorem remDeg_eq_zero_iff (mlook : Str → Option Module) (mids V : List Str) (u : Str) :
    remDeg mlook mids V u = 0 ↔
      ∀ dref ∈ depsOf mlook u, dref.ID ∈ mids → dref.ID ∈ V := by
  unfold remDeg
  rw [Int.natCast_eq_zero, List.length_eq_zero, List.filter_eq_nil_iff]
  constructor
  · intro h dref hd hm
    by_contra hnv
    exact h dref hd (by simp [hm, hnv])
  · intro h dref hd hc
    rw [Bool.and_eq_true, decide_eq_true_iff, decide_eq_true_iff] at hc
    exact hc.2 (h dref hd hc.1)

theorem readyList_mem (mlook : Str → Option Module) (mids V : List Str) (u : Str) :
    u ∈ readyList mlook mids V ↔
      u ∈ mids ∧ u ∉ V ∧ remDeg mlook mids V u = 0 := by
  unfold readyList
  rw [List.mem_filter, Bool.and_eq_true, decide_eq_true_iff, decide_eq_true_iff]

theorem readyList_sorted (mlook : Str → Option Module) {mids : List Str}
    (hsort : List.Sorted sLE mids) (V : List Str) :
    List.Sorted sLE (readyList mlook mids V) :=
  List.Pairwise.sublist (List.filter_sublist mids) hsort

theorem readyList_nodup (mlook : Str → Option Module) {mids : List Str}
    (hnd : mids.Nodup) (V : List Str) : (readyList mlook mids V).Nodup :=
  List.Nodup.filter _ hnd

theorem spec_of_ready_nil (mlook : Str → Option Module) (mids : List Str)
    (V : List Str) (h : readyList mlook mids V = []) :
    ∀ f, specUpgradeSeq mlook mids f V = [] := by
  intro f
  cases f with
  | zero => rfl
  | succ f' => simp only [specUpgradeSeq, h]

theorem specUpgradeSeq_stable (mlook : Str → Option Module) (mids : List Str) :
    ∀ (f1 f2 : Nat) (V : List Str),
      (mids.filter (fun u => decide (u ∉ V))).length ≤ f1 →
      (mids.filter (fun u => decide (u ∉ V))).length ≤ f2 →
      specUpgradeSeq mlook mids f1 V = specUpgradeSeq mlook mids f2 V := by
  intro f1
  induction f1 with
  | zero =>
    intro f2 V h1 _
    have hfil : mids.filter (fun u => decide (u ∉ V)) = [] :=
      List.length_eq_zero.mp (by omega)
    have hready : readyList mlook mids V = [] := by
      rw [List.eq_nil_iff_forall_not_mem]
      intro u hu
      rcases (readyList_mem mlook mids V u).mp hu with ⟨hm, hnv, _⟩
      have : u ∈ mids.filter (fun u => decide (u ∉ V)) :=
        List.mem_filter.mpr ⟨hm, by simpa using hnv⟩
      rw [hfil] at this
      cases this
    rw [spec_of_ready_nil mlook mids V hready, spec_of_ready_nil mlook mids V hready]
  | succ f1' ih =>
    intro f2 V h1 h2
    cases hready : readyList mlook mids V with
    | nil =>
      rw [spec_of_ready_nil mlook mids V hready, spec_of_ready_nil mlook mids V hready]
    | cons u rest =>
      have hu : u ∈ readyList mlook mids V := hready ▸ List.mem_cons_self u rest
      rcases (readyList_mem mlook mids V u).mp hu with ⟨hum, hunv, _⟩
      have hufil : u ∈ mids.filter (fun w => decide (w ∉ V)) :=
        List.mem_filter.mpr ⟨hum, by simpa using hunv⟩
      have hpos : 0 < (mids.filter (fun w => decide (w ∉ V))).length :=
        List.length_pos_of_mem hufil
      cases f2 with
      | zero => omega
      | succ f2' =>
        simp only [specUpgradeSeq, hready]
        congr 1
        have hdec : (mids.filter (fun w => decide (w ∉ V ++ [u]))).length <
            (mids.filter (fun w => decide (w ∉ V))).length := by
          refine filter_length_lt _ _ ?_ mids u hum ?_ ?_
          · intro y hy
            rw [decide_eq_true_iff] at hy ⊢
            intro hyV
            exact hy (List.mem_append_left _ hyV)
          · simpa using hunv
          · simp
        exact ih f2' (V ++ [u]) (by omega) (by omega)

theorem queue_eq_ready (mlook : Str → Option Module) {mids : List Str}
    (hndm : mids.Nodup) (hsort : List.Sorted sLE mids)
    (d : Str → Int) (visited queue : List Str)
    (hqnd : queue.Nodup) (hqsort : List.Sorted sLE queue)
    (hqm : ∀ x ∈ queue, x ∈ mids ∧ x ∉ visited ∧ d x = 0)
    (hdC : ∀ u ∈ mids, d u = remDeg mlook mids visited u)
    (hready : ∀ u ∈ mids, u ∉ visited → remDeg mlook mids visited u = 0 → u ∈ queue) :
    queue = readyList mlook mids visited := by
  refine sortedStrEq ?_ hqsort (readyList_sorted mlook hsort visited)
  have hsub1 : queue ⊆ readyList mlook mids visited := by
    intro x hx
    rcases hqm x hx with ⟨hm, hnv, hd0⟩
    exact (readyList_mem mlook mids visited x).mpr ⟨hm, hnv, (hdC x hm) ▸ hd0⟩
  have hsub2 : readyList mlook mids visited ⊆ queue := by
    intro x hx
    rcases (readyList_mem mlook mids visited x).mp hx with ⟨hm, hnv, h0⟩
    exact hready x hm hnv h0
  exact List.Subperm.antisymm (List.subperm_of_subset hqnd hsub1)
    (List.subperm_of_subset (readyList_nodup mlook hndm visited) hsub2)

end VC

namespace VC

theorem kahnLoopF_build (mlook : Str → Option Module) (rlook : Str → List Str)
    (mids : List Str) (hndm : mids.Nodup) (hsortm : List.Sorted sLE mids)
    (hupd : ∀ (u : Str) (V : List Str) (id : Str), id ∈ mids → id ∉ V →
      remDeg mlook mids (V ++ [id]) u =
        remDeg mlook mids V u - ((rlook id).count u : Int)) :
    ∀ (fuel : Nat) (d : Str → Int) (visited : List Str) (out : List Module)
      (queue : List Str) (r : List Module × List Str × List Str),
      r = kahnLoopF mlook rlook mids fuel d visited out queue →
      kahnFuel mids d queue ≤ fuel →
      visited.Nodup → (∀ x ∈ visited, x ∈ mids) →
      queue.Nodup → List.Sorted sLE queue →
      (∀ x ∈ queue, x ∈ mids ∧ x ∉ visited ∧ d x = 0) →
      (∀ u ∈ mids, d u = remDeg mlook mids visited u) →
      (∀ u ∈ mids, u ∉ visited → remDeg mlook mids visited u = 0 → u ∈ queue) →
      (∀ u ∈ visited, remDeg mlook mids visited u = 0) →
      ordInv mlook mids visited →
      out = visited.filterMap mlook →
      (r.2.2 = [] ∧ r.2.1.Nodup ∧ (∀ x ∈ r.2.1, x ∈ mids) ∧
        (∀ u ∈ mids, u ∉ r.2.1 → ¬ remDeg mlook mids r.2.1 u = 0) ∧
        ordInv mlook mids r.2.1 ∧
        r.1 = r.2.1.filterMap mlook ∧
        ∀ fuelS, (mids.filter (fun u => decide (u ∉ visited))).length ≤ fuelS →
          r.2.1 = visited ++ specUpgradeSeq mlook mids fuelS visited) := by
  intro fuel
  induction fuel with
  | zero =>
    intro d visited out queue r hr hfuel hnd hvm hqnd hqsort hqm hdC hready hF hord hout
    have hqe : queue = [] := by
      refine List.length_eq_zero.mp ?_
      unfold kahnFuel at hfuel
      omega
    subst hqe
    subst hr
    simp only [kahnLoopF]
    have hrnil : readyList mlook mids visited = [] := by
      rw [List.eq_nil_iff_forall_not_mem]
      intro u hu
      rcases (readyList_mem mlook mids visited u).mp hu with ⟨h1, h2, h3⟩
      exact absurd (hready u h1 h2 h3) (List.not_mem_nil u)
    refine ⟨trivial, hnd, hvm, ?_, hord, hout, ?_⟩
    · intro u hu hnv h0
      exact absurd (hready u hu hnv h0) (List.not_mem_nil u)
    · intro fuelS _
      rw [spec_of_ready_nil mlook mids visited hrnil fuelS, List.append_nil]
  | succ fuel ih =>
    intro d visited out queue r hr hfuel hnd hvm hqnd hqsort hqm hdC hready hF hord hout
    cases queue with
    | nil =>
      subst hr
      simp only [kahnLoopF]
      have hrnil : readyList mlook mids visited = [] := by
        rw [List.eq_nil_iff_forall_not_mem]
        intro u hu
        rcases (readyList_mem mlook mids visited u).mp hu with ⟨h1, h2, h3⟩
        exact absurd (hready u h1 h2 h3) (List.not_mem_nil u)
      refine ⟨trivial, hnd, hvm, ?_, hord, hout, ?_⟩
      · intro u hu hnv h0
        exact absurd (hready u hu hnv h0) (List.not_mem_nil u)
      · intro fuelS _
        rw [spec_of_ready_nil mlook mids visited hrnil fuelS, List.append_nil]
    | cons id rest =>
      by_cases hv : id ∈ visited
      · exact absurd hv (hqm id (List.mem_cons_self id rest)).2.1
      · have hidm : id ∈ mids := (hqm id (List.mem_cons_self id rest)).1
        have hid0 : d id = 0 := (hqm id (List.mem_cons_self id rest)).2.2
        have hrem0 : remDeg mlook mids visited id = 0 := by
          rw [← hdC id hidm]
          exact hid0
        have hidrest : id ∉ rest := (List.nodup_cons.mp hqnd).1
        have hrestnd : rest.Nodup := (List.nodup_cons.mp hqnd).2
        have hrestsort : List.Sorted sLE rest := hqsort.of_cons
        have hfst := processReverse_fst mids (rlook id) d rest
        have hmem := processReverse_snd_mem mids (rlook id) d rest
        have hprnd := processReverse_snd_nodup mids (rlook id) d rest hrestnd
          (by
            intro u hu
            have := (hqm u (List.mem_cons_of_mem id hu)).2.2
            omega)
        have hupd' : ∀ u, remDeg mlook mids (visited ++ [id]) u =
            remDeg mlook mids visited u - ((rlook id).count u : Int) :=
          fun u => hupd u visited id hidm hv
        have hqready : (id :: rest) = readyList mlook mids visited :=
          queue_eq_ready mlook hndm hsortm d visited (id :: rest) hqnd hqsort hqm hdC hready
        subst hr
        simp only [kahnLoopF, if_neg hv]
        obtain ⟨c1, c2, c3, c4, c5, c6, c7⟩ :=
          ih (processReverse mids d rest (rlook id)).1 (visited ++ [id])
            (match mlook id with | some m => out ++ [m] | none => out)
            (sortStr (processReverse mids d rest (rlook id)).2) _ rfl
            (by
              unfold kahnFuel at hfuel ⊢
              rw [(sortStr_perm (processReverse mids d rest (rlook id)).2).length_eq]
              have hmu := mu_step mids (rlook id) d rest
              simp only [List.length_cons] at hfuel
              omega)
            (by
              refine List.Nodup.append hnd (List.nodup_singleton id) ?_
              intro a ha hb
              rw [List.mem_singleton] at hb
              exact hv (hb ▸ ha))
            (by
              intro x hx
              rcases List.mem_append.mp hx with h | h
              · exact hvm x h
              · rw [List.mem_singleton] at h
                exact h ▸ hidm)
            (sortStr_nodup hprnd.1)
            (sortStr_sorted _)
            (by
              intro x hx
              rw [mem_sortStr] at hx
              rcases (hmem x).mp hx with hxr | hxp
              · obtain ⟨hxm, hxnv, hx0⟩ := hqm x (List.mem_cons_of_mem id hxr)
                have hxid : x ≠ id := fun he => hidrest (he ▸ hxr)
                have hnv' : x ∉ visited ++ [id] := by
                  intro hc
                  rcases List.mem_append.mp hc with h | h
                  · exact hxnv h
                  · exact hxid (List.mem_singleton.mp h)
                have hr0 : remDeg mlook mids visited x = 0 := by
                  rw [← hdC x hxm]
                  exact hx0
                have hr1 := hupd' x
                have hr2 := remDeg_nonneg mlook mids (visited ++ [id]) x
                have hr3 : (0:Int) ≤ ((rlook id).count x : Int) := Int.natCast_nonneg _
                have hcnt : ((rlook id).count x : Int) = 0 := by omega
                refine ⟨hxm, hnv', ?_⟩
                rw [hfst x, if_pos hxm, hx0, hcnt]
                omega
              · obtain ⟨hxm, hx1, hx2⟩ := hxp
                have hxnv : x ∉ visited := by
                  intro hc
                  have h0 := hF x hc
                  have := hdC x hxm
                  omega
                have hxid : x ≠ id := by
                  intro he
                  rw [he] at hx1
                  omega
                have hnv' : x ∉ visited ++ [id] := by
                  intro hc
                  rcases List.mem_append.mp hc with h | h
                  · exact hxnv h
                  · exact hxid (List.mem_singleton.mp h)
                have hr1 := hupd' x
                have hr2 := remDeg_nonneg mlook mids (visited ++ [id]) x
                have hdx := hdC x hxm
                refine ⟨hxm, hnv', ?_⟩
                rw [hfst x, if_pos hxm]
                omega)
            (by
              intro u hu
              rw [hfst u, if_pos hu, hdC u hu, hupd' u])
            (by
              intro u hu hnv h0
              rw [mem_sortStr, hmem u]
              have hnvv : u ∉ visited := fun hc => hnv (List.mem_append_left _ hc)
              have hnid : u ≠ id := by
                intro he
                exact hnv (by rw [he]; exact List.mem_append_right _ (List.mem_singleton_self id))
              have hr1 := hupd' u
              by_cases hc : (rlook id).count u = 0
              · have hcz : ((rlook id).count u : Int) = 0 := by exact_mod_cast hc
                have hrv0 : remDeg mlook mids visited u = 0 := by omega
                have := hready u hu hnvv hrv0
                rcases List.mem_cons.mp this with he | hrm
                · exact absurd he hnid
                · exact Or.inl hrm
              · have hcnt1 : (1:Int) ≤ ((rlook id).count u : Int) := by
                  exact_mod_cast Nat.one_le_iff_ne_zero.mpr hc
                have hdu := hdC u hu
                refine Or.inr ⟨hu, by omega, by omega⟩)
            (by
              intro u hu
              have hr1 := hupd' u
              have hr2 := remDeg_nonneg mlook mids (visited ++ [id]) u
              have hr3 : (0:Int) ≤ ((rlook id).count u : Int) := Int.natCast_nonneg _
              rcases List.mem_append.mp hu with h | h
              · have h0 := hF u h
                omega
              · rw [List.mem_singleton] at h
                subst h
                have h4 := hrem0
                omega)
            (by
              intro i u hi dref hdref hdm
              have hlen : (visited ++ [id]).length = visited.length + 1 := by
                rw [List.length_append, List.length_singleton]
              by_cases hi1 : i < visited.length
              · rw [List.getElem?_append, if_pos hi1] at hi
                rw [List.take_append_of_le_length (le_of_lt hi1)]
                exact hord i u hi dref hdref hdm
              · by_cases hi2 : i = visited.length
                · subst hi2
                  rw [List.getElem?_append, if_neg (by omega)] at hi
                  rw [Nat.sub_self] at hi
                  simp only [List.getElem?_cons_zero, Option.some.injEq] at hi
                  subst hi
                  rw [List.take_left]
                  exact (remDeg_eq_zero_iff mlook mids visited id).mp hrem0 dref hdref hdm
                · rw [List.getElem?_eq_none (by omega)] at hi
                  cases hi)
            (by
              rw [List.filterMap_append, ← hout]
              cases hmk : mlook id with
              | none => simp [List.filterMap_cons, hmk]
              | some m => simp [List.filterMap_cons, hmk])
        refine ⟨c1, c2, c3, c4, c5, c6, ?_⟩
        intro fuelS hfS
        have hidfil : id ∈ mids.filter (fun u => decide (u ∉ visited)) :=
          List.mem_filter.mpr ⟨hidm, by simpa using hv⟩
        have hpos : 0 < (mids.filter (fun u => decide (u ∉ visited))).length :=
          List.length_pos_of_mem hidfil
        obtain ⟨fs, rfl⟩ : ∃ fs, fuelS = fs + 1 := ⟨fuelS - 1, by omega⟩
        have hdec : (mids.filter (fun u => decide (u ∉ visited ++ [id]))).length <
            (mids.filter (fun u => decide (u ∉ visited))).length := by
          refine filter_length_lt _ _ ?_ mids id hidm ?_ ?_
          · intro y hy
            rw [decide_eq_true_iff] at hy ⊢
            intro hyV
            exact hy (List.mem_append_left _ hyV)
          · simpa using hv
          · simp
        rw [c7 fs (by omega)]
        simp only [specUpgradeSeq, ← hqready]
        rw [List.append_assoc]
        rfl

end VC

namespace VC

theorem mids_sorted (g : DependencyGraph) : List.Sorted sLE (managedIDsOf g) := by
  unfold managedIDsOf ManagedModules
  exact List.pairwise_map.mpr (List.Pairwise.imp (fun h => h) (sortMod_sorted _))

theorem count_map_eq {α : Type} (f : α → Str) (b : Str) :
    ∀ (l : List α), (l.map f).count b = (l.filter (fun x => decide (f x = b))).length := by
  intro l
  induction l with
  | nil => rfl
  | cons x t ih =>
    rw [List.map_cons, List.count_cons, List.filter_cons, ih]
    by_cases hb : f x = b
    · simp [hb]
    · simp [hb]

theorem flatMap_edges_nil (u : Str) :
    ∀ (t : List Module), (∀ m ∈ t, ¬ m.ID = u) →
      t.flatMap (fun m => if m.ID = u then m.Dependencies.map (fun d => d.ID) else []) = [] := by
  intro t
  induction t with
  | nil => intro _; rfl
  | cons m t' ih =>
    intro h
    rw [List.flatMap_cons, if_neg (h m (List.mem_cons_self m t')),
      ih (fun m' hm' => h m' (List.mem_cons_of_mem m hm')), List.nil_append]

theorem flatMap_edges_lookup (u : Str) :
    ∀ (ms : List Module), (ms.map (fun m => m.ID)).Nodup →
      ms.flatMap (fun m => if m.ID = u then m.Dependencies.map (fun d => d.ID) else []) =
        (match lookupA (ms.map (fun m => (m.ID, m))) u with
          | some x => x.Dependencies.map (fun d => d.ID)
          | none => []) := by
  intro ms
  induction ms with
  | nil => intro _; rfl
  | cons m t ih =>
    intro hnd
    rw [List.map_cons] at hnd
    have hnd' := List.nodup_cons.mp hnd
    rw [List.flatMap_cons, List.map_cons]
    show _ = (match (if m.ID = u then some m else lookupA (t.map (fun m => (m.ID, m))) u) with
      | some x => x.Dependencies.map (fun d => d.ID) | none => [])
    by_cases hm : m.ID = u
    · rw [if_pos hm, if_pos hm]
      have hrest : t.flatMap
          (fun m' => if m'.ID = u then m'.Dependencies.map (fun d => d.ID) else []) = [] := by
        refine flatMap_edges_nil u t ?_
        intro m' hm' he
        exact hnd'.1 (by rw [← hm] at he; exact (List.mem_map.mpr ⟨m', hm', he⟩))
      rw [hrest, List.append_nil]
    · rw [if_neg hm, if_neg hm, ih hnd'.2, List.nil_append]

theorem buildGraph_edges_nodup (p : Portfolio) (ms : List Module)
    (hnd : (ms.map (fun m => m.ID)).Nodup) (u : Str) :
    getListA (buildGraph p ms).edges u =
      (depsOf (lookupA (buildGraph p ms).modules) u).map (fun d => d.ID) := by
  rw [buildGraph_edges, flatMap_edges_lookup u ms hnd]
  unfold depsOf
  rw [buildGraph_modules p ms hnd]
  cases lookupA (ms.map (fun m => (m.ID, m))) u with
  | none => rfl
  | some x => rfl

theorem rlook_count (p : Portfolio) (ms : List Module)
    (hnd : (ms.map (fun m => m.ID)).Nodup) (id u : Str) :
    (getListA (buildGraph p ms).reverse id).count u =
      ((depsOf (lookupA (buildGraph p ms).modules) u).filter
        (fun d => decide (d.ID = id))).length := by
  rw [← buildGraph_transpose p ms u id, buildGraph_edges_nodup p ms hnd u,
    count_map_eq (fun d : ModuleRef => d.ID) id]

theorem filter_sub_count {α : Type} (P Q : α → Bool) (h : ∀ x, Q x = true → P x = true) :
    ∀ l : List α,
      (l.filter (fun x => P x && !Q x)).length + (l.filter Q).length =
        (l.filter P).length := by
  intro l
  induction l with
  | nil => rfl
  | cons x t ih =>
    rw [List.filter_cons, List.filter_cons, List.filter_cons]
    by_cases hq : Q x = true
    · rw [if_pos hq, if_pos (h x hq), if_neg (by rw [hq]; simp)]
      simp only [List.length_cons]
      omega
    · rw [if_neg hq]
      have hq' : Q x = false := by
        cases hqx : Q x
        · rfl
        · exact absurd hqx hq
      by_cases hp : P x = true
      · rw [if_pos hp, if_pos (by rw [hp, hq']; rfl)]
        simp only [List.length_cons]
        omega
      · have hp' : P x = false := by
          cases hpx : P x
          · rfl
          · exact absurd hpx hp
        rw [if_neg hp, if_neg (by rw [hp']; simp)]
        exact ih

theorem remDeg_pred_split (mids V : List Str) (id : Str) (hidm : id ∈ mids)
    (hidv : id ∉ V) (x : Str) :
    (decide (x ∈ mids) && decide (x ∉ V ++ [id])) =
      ((decide (x ∈ mids) && decide (x ∉ V)) && !decide (x = id)) := by
  by_cases h1 : x ∈ mids
  · by_cases h2 : x ∈ V
    · have : x ∈ V ++ [id] := List.mem_append_left _ h2
      simp [h1, h2, this]
    · by_cases h3 : x = id
      · have : x ∈ V ++ [id] := List.mem_append_right _ (by rw [h3]; exact List.mem_singleton_self id)
        simp [h1, h2, h3, this]
      · have : x ∉ V ++ [id] := by
          intro hc
          rcases List.mem_append.mp hc with h | h
          · exact h2 h
          · exact h3 (List.mem_singleton.mp h)
        simp [h1, h2, h3, this]
  · simp [h1]

theorem remDeg_append (mlook : Str → Option Module) (mids V : List Str) (id u : Str)
    (hidm : id ∈ mids) (hidv : id ∉ V) :
    remDeg mlook mids (V ++ [id]) u =
      remDeg mlook mids V u -
        (((depsOf mlook u).filter (fun d => decide (d.ID = id))).length : Int) := by
  unfold remDeg
  have hsplit : (depsOf mlook u).filter
      (fun dep => decide (dep.ID ∈ mids) && decide (dep.ID ∉ V ++ [id])) =
      (depsOf mlook u).filter
        (fun dep => (decide (dep.ID ∈ mids) && decide (dep.ID ∉ V)) && !decide (dep.ID = id)) := by
    refine List.filter_congr ?_
    intro dep _
    exact remDeg_pred_split mids V id hidm hidv dep.ID
  rw [hsplit]
  have hcount := filter_sub_count
    (fun dep : ModuleRef => decide (dep.ID ∈ mids) && decide (dep.ID ∉ V))
    (fun dep : ModuleRef => decide (dep.ID = id))
    (by
      intro dep hdep
      rw [decide_eq_true_iff] at hdep
      rw [Bool.and_eq_true, decide_eq_true_iff, decide_eq_true_iff]
      exact ⟨hdep ▸ hidm, hdep ▸ hidv⟩)
    (depsOf mlook u)
  omega

theorem hupd_build (p : Portfolio) (ms : List Module)
    (hnd : (ms.map (fun m => m.ID)).Nodup) :
    ∀ (u : Str) (V : List Str) (id : Str),
      id ∈ managedIDsOf (buildGraph p ms) → id ∉ V →
      remDeg (lookupA (buildGraph p ms).modules) (managedIDsOf (buildGraph p ms)) (V ++ [id]) u =
        remDeg (lookupA (buildGraph p ms).modules) (managedIDsOf (buildGraph p ms)) V u -
          ((getListA (buildGraph p ms).reverse id).count u : Int) := by
  intro u V id hidm hidv
  rw [remDeg_append _ _ _ _ _ hidm hidv, rlook_count p ms hnd id u]

end VC

namespace VC

theorem inDeg0_eq (p : Portfolio) (ms : List Module)
    (hnd : (ms.map (fun m => m.ID)).Nodup) :
    ∀ u ∈ managedIDsOf (buildGraph p ms),
      inDeg0 (ManagedModules (buildGraph p ms)) (managedIDsOf (buildGraph p ms)) u =
        remDeg (lookupA (buildGraph p ms).modules) (managedIDsOf (buildGraph p ms)) [] u := by
  intro u hu
  have hwf := WFkeys_build p ms
  unfold inDeg0
  cases hf : (ManagedModules (buildGraph p ms)).find? (fun m => m.ID = u) with
  | none =>
    exfalso
    rcases List.mem_map.mp hu with ⟨m, hm, hid⟩
    exact List.find?_eq_none.mp hf m hm (decide_eq_true hid)
  | some m =>
    have hpred : m.ID = u := by
      have := List.find?_some hf
      rwa [decide_eq_true_iff] at this
    have hmem : m ∈ ManagedModules (buildGraph p ms) := List.mem_of_find?_eq_some hf
    have hlook : lookupA (buildGraph p ms).modules u = some m := by
      rcases (managedModules_mem_char _ m).mp hmem with ⟨hman, k, hk⟩
      have hkid : m.ID = k := hwf.2 (k, m) hk
      rw [← hpred, hkid]
      exact (lookupA_eq_some_iff hwf.1 k m).mpr hk
    have hdeps : depsOf (lookupA (buildGraph p ms).modules) u = m.Dependencies := by
      unfold depsOf
      rw [hlook]
    dsimp only
    unfold remDeg
    rw [hdeps]
    congr 1
    refine congrArg List.length (List.filter_congr ?_)
    intro dep _
    simp

theorem upgradeOrder_nodup_build (p : Portfolio) (ms : List Module)
    (hnd : (ms.map (fun m => m.ID)).Nodup) :
    ((UpgradeOrder (buildGraph p ms)).1.Modules.map (fun m => m.ID) =
        specUpgradeOrder (buildGraph p ms)) ∧
    ((UpgradeOrder (buildGraph p ms)).1.Modules.map (fun m => m.ID)).Nodup ∧
    (∀ x ∈ (UpgradeOrder (buildGraph p ms)).1.Modules.map (fun m => m.ID),
      x ∈ managedIDsOf (buildGraph p ms)) ∧
    (∀ u ∈ managedIDsOf (buildGraph p ms),
      u ∉ (UpgradeOrder (buildGraph p ms)).1.Modules.map (fun m => m.ID) →
      ¬ remDeg (lookupA (buildGraph p ms).modules) (managedIDsOf (buildGraph p ms))
          ((UpgradeOrder (buildGraph p ms)).1.Modules.map (fun m => m.ID)) u = 0) ∧
    ordInv (lookupA (buildGraph p ms).modules) (managedIDsOf (buildGraph p ms))
      ((UpgradeOrder (buildGraph p ms)).1.Modules.map (fun m => m.ID)) ∧
    (UpgradeOrder (buildGraph p ms)).1.Modules =
      ((UpgradeOrder (buildGraph p ms)).1.Modules.map (fun m => m.ID)).filterMap
        (lookupA (buildGraph p ms).modules) ∧
    ((UpgradeOrder (buildGraph p ms)).1.Cycles = [] ↔
      ∀ u ∈ managedIDsOf (buildGraph p ms),
        u ∈ (UpgradeOrder (buildGraph p ms)).1.Modules.map (fun m => m.ID)) := by
  have hwf : WFkeys (buildGraph p ms) := WFkeys_build p ms
  have hndm : (managedIDsOf (buildGraph p ms)).Nodup := managedModules_ids_nodup hwf
  have hsortm := mids_sorted (buildGraph p ms)
  set g := buildGraph p ms with hg
  set mids := managedIDsOf g with hmids
  set d0 := inDeg0 (ManagedModules g) mids with hd0
  set q0 := initialQueue g with hq0
  set K := kahnLoopF (lookupA g.modules) (fun id => getListA g.reverse id) mids
    (kahnFuel mids d0 q0) d0 [] [] q0 with hK
  have hUO : UpgradeOrder g =
      (⟨K.1, if K.1.length < (ManagedModules g).length then
          [Cycle.mk (mids.filter (fun id => decide (id ∉ K.2.1)))] else []⟩, none) := rfl
  have hq0f : q0 = sortStr (mids.filter (fun id => decide (d0 id = 0))) := rfl
  have hdC : ∀ u ∈ mids, d0 u = remDeg (lookupA g.modules) mids [] u := inDeg0_eq p ms hnd
  obtain ⟨c1, c2, c3, c4, c5, c6, c7⟩ :=
    kahnLoopF_build (lookupA g.modules) (fun id => getListA g.reverse id) mids hndm hsortm
      (hupd_build p ms hnd)
      (kahnFuel mids d0 q0) d0 [] [] q0 K hK le_rfl
      List.nodup_nil (by intro x hx; cases hx)
      (by
        rw [hq0f]
        exact sortStr_nodup (List.Nodup.filter _ hndm))
      (by
        rw [hq0f]
        exact sortStr_sorted _)
      (by
        intro x hx
        rw [hq0f, mem_sortStr, List.mem_filter] at hx
        exact ⟨hx.1, List.not_mem_nil x, decide_eq_true_iff.mp hx.2⟩)
      hdC
      (by
        intro u hu _ h0
        rw [hq0f, mem_sortStr, List.mem_filter]
        refine ⟨hu, decide_eq_true ?_⟩
        rw [hdC u hu]
        exact h0)
      (by intro u hu; cases hu)
      (by
        intro i u hi
        rw [List.getElem?_nil] at hi
        cases hi)
      rfl
  have hids : K.1.map (fun m => m.ID) = K.2.1 := by
    rw [c6]
    exact filterMap_map_id _ _ (fun x hx => mids_lookup hwf x (c3 x hx))
  have hspec : K.2.1 = specUpgradeOrder g := by
    have hfl : ((mids.filter (fun u => decide (u ∉ ([] : List Str)))).length ≤ mids.length) :=
      List.length_filter_le _ _
    have := c7 mids.length hfl
    rw [List.nil_append] at this
    exact this
  have hlen : K.1.length = K.2.1.length := by
    have := congrArg List.length hids
    simpa using this
  have hmlen : (ManagedModules g).length = mids.length := by
    rw [hmids]
    unfold managedIDsOf
    rw [List.length_map]
  have htrig : K.1.length < (ManagedModules g).length ↔ ∃ u ∈ mids, u ∉ K.2.1 := by
    rw [hlen, hmlen]
    exact sub_length_lt_iff c2 hndm c3
  rw [hUO]
  dsimp only
  rw [hids]
  refine ⟨hspec, c2, c3, c4, c5, c6, ?_⟩
  · constructor
    · intro hemp u hu
      by_contra hnu
      rw [if_pos (htrig.mpr ⟨u, hu, hnu⟩)] at hemp
      cases hemp
    · intro hall
      rw [if_neg ?_]
      rw [htrig]
      rintro ⟨u, hu, hnu⟩
      exact hnu (hall u hu)

end VC

namespace VC

theorem lookupA_mem {α : Type} : ∀ (l : List (Str × α)) (k : Str) (v : α),
    lookupA l k = some v → (k, v) ∈ l := by
  intro l
  induction l with
  | nil => intro k v h; cases h
  | cons p t ih =>
    obtain ⟨k₀, v₀⟩ := p
    intro k v h
    unfold lookupA at h
    by_cases h0 : k₀ = k
    · rw [if_pos h0] at h
      subst h0
      rw [Option.some.injEq] at h
      subst h
      exact List.mem_cons_self _ _
    · rw [if_neg h0] at h
      exact List.mem_cons_of_mem _ (ih k v h)

theorem edge_mids {g : DependencyGraph} (hwf : WFkeys g) {a b : Str}
    (h : EdgeToB g a b = true) :
    a ∈ managedIDsOf g ∧ b ∈ managedIDsOf g := by
  unfold EdgeToB at h
  cases hla : lookupA g.modules a with
  | none => rw [hla] at h; cases h
  | some ma =>
    cases hlb : lookupA g.modules b with
    | none => rw [hla, hlb] at h; cases h
    | some mb =>
      rw [hla, hlb] at h
      rw [Bool.and_eq_true, Bool.and_eq_true] at h
      have hmema : (a, ma) ∈ g.modules := lookupA_mem g.modules a ma hla
      have hmemb : (b, mb) ∈ g.modules := lookupA_mem g.modules b mb hlb
      have hida : ma.ID = a := hwf.2 (a, ma) hmema
      have hidb : mb.ID = b := hwf.2 (b, mb) hmemb
      constructor
      · refine List.mem_map.mpr ⟨ma, ?_, hida⟩
        exact (managedModules_mem_char g ma).mpr ⟨h.1.1, a, hmema⟩
      · refine List.mem_map.mpr ⟨mb, ?_, hidb⟩
        exact (managedModules_mem_char g mb).mpr ⟨h.1.2, b, hmemb⟩

theorem edge_keys {g : DependencyGraph} {a b : Str} (h : EdgeToB g a b = true) :
    a ∈ g.modules.map Prod.fst ∧ b ∈ g.modules.map Prod.fst := by
  unfold EdgeToB at h
  cases hla : lookupA g.modules a with
  | none => rw [hla] at h; cases h
  | some ma =>
    cases hlb : lookupA g.modules b with
    | none => rw [hla, hlb] at h; cases h
    | some mb =>
      exact ⟨List.mem_map.mpr ⟨(a, ma), lookupA_mem g.modules a ma hla, rfl⟩,
        List.mem_map.mpr ⟨(b, mb), lookupA_mem g.modules b mb hlb, rfl⟩⟩

/-- A graph with a rank function that strictly decreases along every
managed-to-managed edge (checked on map keys only) has no managed cycle. -/
theorem rank_no_cycle (g : DependencyGraph) (rank : Str → Nat)
    (h : ∀ a b, a ∈ g.modules.map Prod.fst → b ∈ g.modules.map Prod.fst →
      EdgeToB g a b = true → rank b < rank a) : NoManagedCycle g := by
  intro a hcyc
  have key : ∀ x y, Relation.TransGen (fun u v => EdgeToB g u v = true) x y →
      rank y < rank x := by
    intro x y hxy
    induction hxy with
    | single h1 => exact h _ _ (edge_keys h1).1 (edge_keys h1).2 h1
    | tail hxz h1 ih => exact lt_trans (h _ _ (edge_keys h1).1 (edge_keys h1).2 h1) ih
  exact absurd (key a a hcyc) (lt_irrefl _)

theorem idxOfS_lt_length {b : Str} : ∀ {l : List Str}, b ∈ l → idxOfS b l < l.length := by
  intro l
  induction l with
  | nil => intro h; cases h
  | cons x t ih =>
    intro h
    unfold idxOfS
    by_cases hxb : x = b
    · rw [if_pos hxb]
      simp
    · rw [if_neg hxb]
      rcases List.mem_cons.mp h with he | ht
      · exact absurd he.symm hxb
      · have := ih ht
        simp only [List.length_cons]
        omega

theorem getElem_idxOfS {b : Str} : ∀ {l : List Str}, b ∈ l → l[idxOfS b l]? = some b := by
  intro l
  induction l with
  | nil => intro h; cases h
  | cons x t ih =>
    intro h
    unfold idxOfS
    by_cases hxb : x = b
    · rw [if_pos hxb]
      rw [List.getElem?_cons_zero, hxb]
    · rw [if_neg hxb]
      rw [List.getElem?_cons_succ]
      rcases List.mem_cons.mp h with he | ht
      · exact absurd he.symm hxb
      · exact ih ht

theorem idxOfS_inj {a b : Str} {l : List Str} (ha : a ∈ l) (hb : b ∈ l)
    (h : idxOfS a l = idxOfS b l) : a = b := by
  have h1 := getElem_idxOfS ha
  have h2 := getElem_idxOfS hb
  rw [h] at h1
  rw [h1] at h2
  exact (Option.some.injEq _ _).mp h2

/-- A nonempty finite set closed under taking an `R`-successor contains an
`R`-cycle. -/
theorem closure_cycle (R : Str → Str → Prop) (U : List Str) (hne : U ≠ [])
    (hstep : ∀ u ∈ U, ∃ w, w ∈ U ∧ R u w) : ∃ a, Relation.TransGen R a a := by
  classical
  let f : {x // x ∈ U} → {x // x ∈ U} := fun x =>
    ⟨Classical.choose (hstep x.1 x.2), (Classical.choose_spec (hstep x.1 x.2)).1⟩
  have hR : ∀ x : {x // x ∈ U}, R x.1 (f x).1 :=
    fun x => (Classical.choose_spec (hstep x.1 x.2)).2
  let x0 : {x // x ∈ U} := ⟨U.head hne, List.head_mem hne⟩
  let seq : Nat → {x // x ∈ U} := fun k => f^[k] x0
  have hsucc : ∀ k, seq (k + 1) = f (seq k) := fun k => Function.iterate_succ_apply' f k x0
  have hchain : ∀ i j, i < j → Relation.TransGen R (seq i).1 (seq j).1 := by
    intro i j hij
    induction j with
    | zero => omega
    | succ j ih =>
      rcases Nat.lt_succ_iff_lt_or_eq.mp hij with hlt | heq
      · refine Relation.TransGen.tail (ih hlt) ?_
        rw [hsucc j]
        exact hR (seq j)
      · subst heq
        refine Relation.TransGen.single ?_
        rw [hsucc i]
        exact hR (seq i)
  have hUlen : 0 < U.length := by
    cases U with
    | nil => exact absurd rfl hne
    | cons x t => simp
  let F : Fin (U.length + 1) → Fin U.length := fun i =>
    ⟨idxOfS (seq i.1).1 U, idxOfS_lt_length (seq i.1).2⟩
  obtain ⟨i, j, hij, heq⟩ := Fintype.exists_ne_map_eq_of_card_lt F (by simp)
  have hval : idxOfS (seq i.1).1 U = idxOfS (seq j.1).1 U := congrArg Fin.val heq
  have hseq : (seq i.1).1 = (seq j.1).1 :=
    idxOfS_inj (seq i.1).2 (seq j.1).2 hval
  rcases Ne.lt_or_lt hij with hlt | hlt
  · have hfin : (i : Nat) < (j : Nat) := hlt
    refine ⟨(seq i.1).1, ?_⟩
    have := hchain i.1 j.1 hfin
    rwa [← hseq] at this
  · have hfin : (j : Nat) < (i : Nat) := hlt
    refine ⟨(seq j.1).1, ?_⟩
    have := hchain j.1 i.1 hfin
    rwa [hseq] at this

theorem idxOfS_lt_of_mem_take {b : Str} :
    ∀ (l : List Str) (i : Nat), b ∈ l.take i → idxOfS b l < i := by
  intro l
  induction l with
  | nil => intro i h; rw [List.take_nil] at h; cases h
  | cons x t ih =>
    intro i h
    cases i with
    | zero => rw [List.take_zero] at h; cases h
    | succ i' =>
      rw [List.take_succ_cons] at h
      unfold idxOfS
      by_cases hxb : x = b
      · rw [if_pos hxb]
        omega
      · rw [if_neg hxb]
        rcases List.mem_cons.mp h with he | ht
        · exact absurd he.symm hxb
        · have := ih i' ht
          omega

end VC

namespace VC

theorem mids_lookup_managed {g : DependencyGraph} (hwf : WFkeys g) :
    ∀ w ∈ managedIDsOf g,
      ∃ m, lookupA g.modules w = some m ∧ m.ID = w ∧ m.IsManaged = true := by
  intro w hw
  rcases List.mem_map.mp hw with ⟨m, hm, rfl⟩
  rcases (managedModules_mem_char g m).mp hm with ⟨hman, k, hk⟩
  have hkid : m.ID = k := hwf.2 (k, m) hk
  refine ⟨m, ?_, rfl, hman⟩
  rw [hkid]
  exact (lookupA_eq_some_iff hwf.1 k m).mpr hk

theorem edge_dep {g : DependencyGraph} {a b : Str} (h : EdgeToB g a b = true) :
    ∃ dref ∈ depsOf (lookupA g.modules) a, dref.ID = b := by
  unfold EdgeToB at h
  cases hla : lookupA g.modules a with
  | none => rw [hla] at h; cases h
  | some ma =>
    cases hlb : lookupA g.modules b with
    | none => rw [hla, hlb] at h; cases h
    | some mb =>
      rw [hla, hlb] at h
      rw [Bool.and_eq_true, Bool.and_eq_true] at h
      rcases List.any_eq_true.mp h.2 with ⟨dref, hdref, hid⟩
      rw [decide_eq_true_iff] at hid
      have hda : depsOf (lookupA g.modules) a = ma.Dependencies := by
        unfold depsOf
        rw [hla]
      exact ⟨dref, hda ▸ hdref, hid⟩

theorem edge_intro {g : DependencyGraph} (hwf : WFkeys g) {a b : Str}
    (ha : a ∈ managedIDsOf g) (hb : b ∈ managedIDsOf g)
    (hdep : ∃ dref ∈ depsOf (lookupA g.modules) a, dref.ID = b) :
    EdgeToB g a b = true := by
  obtain ⟨ma, hla, hida, hmana⟩ := mids_lookup_managed hwf a ha
  obtain ⟨mb, hlb, hidb, hmanb⟩ := mids_lookup_managed hwf b hb
  obtain ⟨dref, hdref, hdid⟩ := hdep
  unfold EdgeToB
  simp only [hla, hlb, Bool.and_eq_true]
  refine ⟨⟨hmana, hmanb⟩, ?_⟩
  refine List.any_eq_true.mpr ⟨dref, ?_, ?_⟩
  · have hda : depsOf (lookupA g.modules) a = ma.Dependencies := by
      unfold depsOf
      rw [hla]
    rw [← hda]
    exact hdref
  · simp [hdid]

/-- C1 (amended): for every graph assembled by adding each module id once, if
the managed-to-managed dependency edges are acyclic then `UpgradeOrder` emits
every managed module exactly once (the emitted id sequence is a permutation of
the managed ids) and reports no cycle record, and whenever managed module `a`
lists managed module `b` among its dependency targets (both present), `b` is
emitted strictly before `a`; independently of acyclicity, a managed module none
of whose dependency targets is a managed id enters the initial ready queue, so
edges to unmanaged modules never block ordering. -/
theorem upgradeOrder_acyclic :
    (∀ (p : Portfolio) (ms : List Module),
      (ms.map (fun m => m.ID)).Nodup →
      NoManagedCycle (buildGraph p ms) →
      ((UpgradeOrder (buildGraph p ms)).1.Modules.map (fun m => m.ID)).Perm
          (managedIDsOf (buildGraph p ms)) ∧
      (UpgradeOrder (buildGraph p ms)).1.Cycles = [] ∧
      (∀ a b, EdgeToB (buildGraph p ms) a b = true →
        idxOfS b ((UpgradeOrder (buildGraph p ms)).1.Modules.map (fun m => m.ID)) <
          idxOfS a ((UpgradeOrder (buildGraph p ms)).1.Modules.map (fun m => m.ID)))) ∧
    (∀ (p : Portfolio) (ms : List Module),
      (ms.map (fun m => m.ID)).Nodup →
      ∀ u ∈ managedIDsOf (buildGraph p ms),
        (∀ dref ∈ depsOf (lookupA (buildGraph p ms).modules) u,
            dref.ID ∉ managedIDsOf (buildGraph p ms)) →
        u ∈ initialQueue (buildGraph p ms)) := by
  constructor
  · intro p ms hnd hacyc
    obtain ⟨hspec, hVnd, hVsub, hVrem, hVord, hVfm, hVcyc⟩ := upgradeOrder_nodup_build p ms hnd
    have hwf := WFkeys_build p ms
    have hmidsnd := managedModules_ids_nodup hwf
    set V := (UpgradeOrder (buildGraph p ms)).1.Modules.map (fun m => m.ID) with hV
    have hall : ∀ u ∈ managedIDsOf (buildGraph p ms), u ∈ V := by
      by_contra hno
      push_neg at hno
      obtain ⟨u0, hu0m, hu0V⟩ := hno
      have hne : (managedIDsOf (buildGraph p ms)).filter (fun w => decide (w ∉ V)) ≠ [] := by
        intro he
        have hu0 : u0 ∈ (managedIDsOf (buildGraph p ms)).filter (fun w => decide (w ∉ V)) :=
          List.mem_filter.mpr ⟨hu0m, by simpa using hu0V⟩
        rw [he] at hu0
        cases hu0
      have hstep : ∀ w ∈ (managedIDsOf (buildGraph p ms)).filter (fun w => decide (w ∉ V)),
          ∃ z, z ∈ (managedIDsOf (buildGraph p ms)).filter (fun w => decide (w ∉ V)) ∧
            EdgeToB (buildGraph p ms) w z = true := by
        intro w hw
        rw [List.mem_filter, decide_eq_true_iff] at hw
        have hrem := hVrem w hw.1 hw.2
        rw [remDeg_eq_zero_iff] at hrem
        push_neg at hrem
        obtain ⟨dref, hdref, hdm, hdV⟩ := hrem
        refine ⟨dref.ID, List.mem_filter.mpr ⟨hdm, by simpa using hdV⟩, ?_⟩
        exact edge_intro hwf hw.1 hdm ⟨dref, hdref, rfl⟩
      obtain ⟨a, ha⟩ := closure_cycle (fun x y => EdgeToB (buildGraph p ms) x y = true)
        ((managedIDsOf (buildGraph p ms)).filter (fun w => decide (w ∉ V))) hne hstep
      exact hacyc a ha
    have hperm : V.Perm (managedIDsOf (buildGraph p ms)) :=
      List.Subperm.antisymm (List.subperm_of_subset hVnd hVsub)
        (List.subperm_of_subset hmidsnd hall)
    refine ⟨hperm, hVcyc.mpr hall, ?_⟩
    intro a b hedge
    obtain ⟨ham, hbm⟩ := edge_mids hwf hedge
    obtain ⟨dref, hdref, hdid⟩ := edge_dep hedge
    have hpos := getElem_idxOfS (hall a ham)
    have htk := hVord (idxOfS a V) a hpos dref hdref (hdid ▸ hbm)
    rw [hdid] at htk
    exact idxOfS_lt_of_mem_take V _ htk
  · intro p ms hnd u hu hdeps
    have hrd : remDeg (lookupA (buildGraph p ms).modules)
        (managedIDsOf (buildGraph p ms)) [] u = 0 := by
      rw [remDeg_eq_zero_iff]
      intro dref hd hm
      exact absurd hm (hdeps dref hd)
    have hq0f : initialQueue (buildGraph p ms) =
        sortStr ((managedIDsOf (buildGraph p ms)).filter
          (fun id => decide (inDeg0 (ManagedModules (buildGraph p ms))
            (managedIDsOf (buildGraph p ms)) id = 0))) := rfl
    rw [hq0f, mem_sortStr, List.mem_filter]
    refine ⟨hu, decide_eq_true ?_⟩
    rw [inDeg0_eq p ms hnd u hu]
    exact hrd

end VC

namespace VC

/-- Witness for C1: the chain A→B→C is acyclic (strictly decreasing rank),
so every managed module is emitted and no cycle is reported; in `gExt` the
managed module `A`, whose only dependency is unmanaged, is in the initial
ready queue. -/
theorem upgradeOrder_acyclic_witness :
    ((UpgradeOrder gChain).1.Modules.map (fun m => m.ID)).Perm (managedIDsOf gChain) ∧
    (UpgradeOrder gChain).1.Cycles = [] ∧
    (("A").data) ∈ initialQueue gExt := by
  have hrank : NoManagedCycle gChain := by
    refine rank_no_cycle gChain
      (fun s => if s = ("A").data then 2 else if s = ("B").data then 1 else 0) ?_
    have hk : gChain.modules.map Prod.fst = [("A").data, ("B").data, ("C").data] := by decide
    intro a b ha hb he
    rw [hk] at ha hb
    simp only [List.mem_cons, List.not_mem_nil, or_false] at ha hb
    rcases ha with rfl | rfl | rfl <;> rcases hb with rfl | rfl | rfl <;>
      revert he <;> decide
  have h1 := upgradeOrder_acyclic.1 P0
    [mkM (("A").data) [((("B").data), [])] true,
     mkM (("B").data) [((("C").data), [])] true,
     mkM (("C").data) [] true] (by decide) hrank
  have h2 := upgradeOrder_acyclic.2 P0
    [mkM (("A").data) [((("X").data), [])] true,
     mkM (("X").data) [] false] (by decide) (("A").data) (by decide) (by decide)
  exact ⟨h1.1, h1.2.1, h2⟩

/-- C1 counterexample: after re-adding module `x` (first depending on `a`,
then on `y`) the current managed dependency edges are acyclic, `x` currently
depends on `y`, yet `UpgradeOrder` emits `x` strictly before `y` — the stale
reverse entry `a → x` unblocks `x` too early. -/
theorem upgradeOrder_readd_cex :
    NoManagedCycle gRe ∧
    EdgeToB gRe (("x").data) (("y").data) = true ∧
    idxOfS (("x").data) ((UpgradeOrder gRe).1.Modules.map (fun m => m.ID)) <
      idxOfS (("y").data) ((UpgradeOrder gRe).1.Modules.map (fun m => m.ID)) := by
  refine ⟨?_, by decide, by decide⟩
  refine rank_no_cycle gRe
    (fun s => if s = ("x").data then 3 else if s = ("y").data then 2
      else if s = ("b").data then 1 else 0) ?_
  have hk : gRe.modules.map Prod.fst =
      [("x").data, ("a").data, ("y").data, ("b").data] := by decide
  intro a b ha hb he
  rw [hk] at ha hb
  simp only [List.mem_cons, List.not_mem_nil, or_false] at ha hb
  rcases ha with rfl | rfl | rfl | rfl <;> rcases hb with rfl | rfl | rfl | rfl <;>
    revert he <;> decide

end VC

namespace VC

theorem mem_mids_iff (p : Portfolio) (ms : List Module)
    (hnd : (ms.map (fun m => m.ID)).Nodup) (x : Str) :
    x ∈ managedIDsOf (buildGraph p ms) ↔ ∃ m ∈ ms, m.IsManaged = true ∧ m.ID = x := by
  constructor
  · intro hx
    rcases List.mem_map.mp hx with ⟨m, hm, hid⟩
    rcases (managedModules_mem_char _ m).mp hm with ⟨hman, k, hk⟩
    have hv : m ∈ (buildGraph p ms).modules.map Prod.snd :=
      List.mem_map.mpr ⟨(k, m), hk, rfl⟩
    exact ⟨m, (mem_values_buildGraph p ms hnd m).mp hv, hman, hid⟩
  · rintro ⟨m, hm, hman, hid⟩
    have hv : m ∈ (buildGraph p ms).modules.map Prod.snd :=
      (mem_values_buildGraph p ms hnd m).mpr hm
    obtain ⟨⟨k, m'⟩, hpr, hsnd⟩ := List.mem_map.mp hv
    dsimp only at hsnd
    subst hsnd
    exact List.mem_map.mpr ⟨m', (managedModules_mem_char _ m').mpr ⟨hman, k, hpr⟩, hid⟩

/-- C3 (amended): for every graph assembled by adding each module id once, the
emitted id sequence equals the greedy reference order that always takes the
lexicographically smallest ready managed id, re-computed after every emission;
hence the module insertion order is irrelevant (any permutation of the same
module set yields the identical Modules sequence); the diamond orders as
[D, B, C, A] and the chain as [C, B, A]. -/
theorem upgradeOrder_deterministic :
    (∀ (p : Portfolio) (ms : List Module), (ms.map (fun m => m.ID)).Nodup →
      (UpgradeOrder (buildGraph p ms)).1.Modules.map (fun m => m.ID) =
        specUpgradeOrder (buildGraph p ms)) ∧
    (∀ (p : Portfolio) (ms ms' : List Module), (ms.map (fun m => m.ID)).Nodup →
      ms.Perm ms' →
      (UpgradeOrder (buildGraph p ms)).1.Modules =
        (UpgradeOrder (buildGraph p ms')).1.Modules) ∧
    (UpgradeOrder gDiamond).1.Modules.map (fun m => m.ID) =
      [("D").data, ("B").data, ("C").data, ("A").data] ∧
    (UpgradeOrder gChain).1.Modules.map (fun m => m.ID) =
      [("C").data, ("B").data, ("A").data] := by
  refine ⟨?_, ?_, by decide, by decide⟩
  · intro p ms hnd
    exact (upgradeOrder_nodup_build p ms hnd).1
  · intro p ms ms' hnd hp
    have hnd' : (ms'.map (fun m => m.ID)).Nodup :=
      ((hp.map (fun m => m.ID)).nodup_iff).mp hnd
    have hlook : lookupA (buildGraph p ms).modules = lookupA (buildGraph p ms').modules := by
      funext u
      cases h1 : lookupA (buildGraph p ms).modules u with
      | some x =>
        have hx := (buildGraph_lookup p ms hnd u x).mp h1
        exact ((buildGraph_lookup p ms' hnd' u x).mpr ⟨hp.subset hx.1, hx.2⟩).symm
      | none =>
        cases h2 : lookupA (buildGraph p ms').modules u with
        | none => rfl
        | some y =>
          have hy := (buildGraph_lookup p ms' hnd' u y).mp h2
          have hcon := (buildGraph_lookup p ms hnd u y).mpr ⟨hp.symm.subset hy.1, hy.2⟩
          rw [h1] at hcon
          cases hcon
    have hm12 : managedIDsOf (buildGraph p ms) = managedIDsOf (buildGraph p ms') := by
      have hsub1 : managedIDsOf (buildGraph p ms) ⊆ managedIDsOf (buildGraph p ms') := by
        intro x hx
        rcases (mem_mids_iff p ms hnd x).mp hx with ⟨m, hm, hman, hid⟩
        exact (mem_mids_iff p ms' hnd' x).mpr ⟨m, hp.subset hm, hman, hid⟩
      have hsub2 : managedIDsOf (buildGraph p ms') ⊆ managedIDsOf (buildGraph p ms) := by
        intro x hx
        rcases (mem_mids_iff p ms' hnd' x).mp hx with ⟨m, hm, hman, hid⟩
        exact (mem_mids_iff p ms hnd x).mpr ⟨m, hp.symm.subset hm, hman, hid⟩
      exact sortedStrEq
        (List.Subperm.antisymm
          (List.subperm_of_subset (managedModules_ids_nodup (WFkeys_build p ms)) hsub1)
          (List.subperm_of_subset (managedModules_ids_nodup (WFkeys_build p ms')) hsub2))
        (mids_sorted _) (mids_sorted _)
    have hspec12 : specUpgradeOrder (buildGraph p ms) = specUpgradeOrder (buildGraph p ms') := by
      unfold specUpgradeOrder
      rw [hlook, hm12]
    have h1 := upgradeOrder_nodup_build p ms hnd
    have h2 := upgradeOrder_nodup_build p ms' hnd'
    have e1 := h1.2.2.2.2.2.1
    rw [h1.1] at e1
    have e2 := h2.2.2.2.2.2.1
    rw [h2.1] at e2
    rw [e1, e2, hspec12, hlook]

/-- Witness for C3: the chain run matches the greedy reference order, and
swapping the insertion order of two modules leaves the emitted sequence
unchanged. -/
theorem upgradeOrder_deterministic_witness :
    (UpgradeOrder gChain).1.Modules.map (fun m => m.ID) = specUpgradeOrder gChain ∧
    (UpgradeOrder (buildGraph P0
        [mkM (("B").data) [] true,
         mkM (("A").data) [((("B").data), [])] true])).1.Modules =
      (UpgradeOrder (buildGraph P0
        [mkM (("A").data) [((("B").data), [])] true,
         mkM (("B").data) [] true])).1.Modules := by
  constructor
  · exact upgradeOrder_deterministic.1 P0
      [mkM (("A").data) [((("B").data), [])] true,
       mkM (("B").data) [((("C").data), [])] true,
       mkM (("C").data) [] true] (by decide)
  · exact upgradeOrder_deterministic.2.1 P0
      [mkM (("B").data) [] true, mkM (("A").data) [((("B").data), [])] true]
      [mkM (("A").data) [((("B").data), [])] true, mkM (("B").data) [] true]
      (by decide) (by decide)

/-- C3 counterexample: on the re-add graph `gRe`, after emitting `a` and `b`
the ready set (managed, unvisited, zero remaining qualifying in-degree per the
current dependency lists) is exactly `[y]`, yet the third module emitted is
`x` — the stale reverse entry promotes `x` ahead of the smallest ready id. -/
theorem upgradeOrder_det_cex :
    ((UpgradeOrder gRe).1.Modules.map (fun m => m.ID)).take 3 =
      [("a").data, ("b").data, ("x").data] ∧
    readyList (lookupA gRe.modules) (managedIDsOf gRe)
      [("a").data, ("b").data] = [("y").data] ∧
    ("x").data ≠ ("y").data := by decide

end VC

namespace VC

theorem dropWhile_head : ∀ (l : Str) (c : Char) (t : Str),
    l.dropWhile isGoSpace = c :: t → isGoSpace c = false := by
  intro l
  induction l with
  | nil => intro c t h; cases h
  | cons x xs ih =>
    intro c t h
    rw [List.dropWhile_cons] at h
    by_cases hx : isGoSpace x = true
    · rw [if_pos hx] at h
      exact ih c t h
    · rw [if_neg hx] at h
      have hxc : x = c := (List.cons.injEq x xs c t).mp h |>.1
      rw [← hxc]
      cases hb : isGoSpace x
      · rfl
      · exact absurd hb hx

theorem head?_trimGo (s : Str) (c : Char) (h : (trimGo s).head? = some c) :
    isGoSpace c = false := by
  unfold trimGo at h
  rw [List.head?_reverse] at h
  have hvne : ((s.dropWhile isGoSpace).reverse.dropWhile isGoSpace) ≠ [] := by
    intro he
    rw [he] at h
    cases h
  obtain ⟨w', hw'⟩ := (List.dropWhile_suffix isGoSpace :
    ((s.dropWhile isGoSpace).reverse).dropWhile isGoSpace <:+ (s.dropWhile isGoSpace).reverse)
  have hgl : ((s.dropWhile isGoSpace).reverse).getLast? = some c := by
    rw [← hw', List.getLast?_append_of_ne_nil w' hvne]
    exact h
  rw [List.getLast?_reverse] at hgl
  cases hu : s.dropWhile isGoSpace with
  | nil => rw [hu] at hgl; cases hgl
  | cons c' t =>
    rw [hu] at hgl
    rw [List.head?_cons, Option.some.injEq] at hgl
    subst hgl
    exact dropWhile_head s c' t hu

theorem getLast?_trimGo (s : Str) (c : Char) (h : (trimGo s).getLast? = some c) :
    isGoSpace c = false := by
  unfold trimGo at h
  rw [List.getLast?_reverse] at h
  cases hv : ((s.dropWhile isGoSpace).reverse.dropWhile isGoSpace) with
  | nil => rw [hv] at h; cases h
  | cons c' t =>
    rw [hv] at h
    rw [List.head?_cons, Option.some.injEq] at h
    subst h
    exact dropWhile_head _ c' t hv

theorem trimGo_idem (s : Str) : trimGo (trimGo s) = trimGo s := by
  have h1 : (trimGo s).dropWhile isGoSpace = trimGo s := by
    cases ht : trimGo s with
    | nil => rfl
    | cons c r =>
      have hc : isGoSpace c = false := head?_trimGo s c (by rw [ht]; rfl)
      rw [List.dropWhile_cons, hc]
      simp
  have h2 : ((trimGo s).reverse).dropWhile isGoSpace = (trimGo s).reverse := by
    cases ht : (trimGo s).reverse with
    | nil => rfl
    | cons c r =>
      have hgl : (trimGo s).getLast? = some c := by
        rw [← List.head?_reverse, ht]
        rfl
      have hc := getLast?_trimGo s c hgl
      rw [List.dropWhile_cons, hc]
      simp
  show ((((trimGo s).dropWhile isGoSpace).reverse).dropWhile isGoSpace).reverse = trimGo s
  rw [h1, h2, List.reverse_reverse]

theorem fieldsAux_ne : ∀ (s acc : Str),
    (acc ≠ [] ∨ ∃ x ∈ s, isGoSpace x = false) → fieldsAux s acc ≠ [] := by
  intro s
  induction s with
  | nil =>
    intro acc h
    rcases h with h | ⟨x, hx, _⟩
    · cases acc with
      | nil => exact absurd rfl h
      | cons a b => simp [fieldsAux]
    · cases hx
  | cons c t ih =>
    intro acc h
    unfold fieldsAux
    by_cases hc : isGoSpace c = true
    · rw [if_pos hc]
      cases acc with
      | nil =>
        rw [if_pos List.isEmpty_nil]
        refine ih [] (Or.inr ?_)
        rcases h with h | ⟨x, hx, hnx⟩
        · exact absurd rfl h
        · rcases List.mem_cons.mp hx with rfl | hxt
          · exact absurd hc (by rw [hnx]; exact Bool.false_ne_true)
          · exact ⟨x, hxt, hnx⟩
      | cons a b =>
        rw [if_neg (by simp)]
        exact List.cons_ne_nil _ _
    · rw [if_neg hc]
      exact ih (c :: acc) (Or.inl (List.cons_ne_nil c acc))

theorem fields_split (sp : Char) (hsp : isGoSpace sp = true) :
    ∀ (u v acc : Str), fieldsAux (u ++ sp :: v) acc = fieldsAux u acc ++ fieldsGo v := by
  intro u
  induction u with
  | nil =>
    intro v acc
    rw [List.nil_append]
    show fieldsAux (sp :: v) acc = _
    unfold fieldsAux
    rw [if_pos hsp]
    cases acc with
    | nil => rw [if_pos List.isEmpty_nil]; rfl
    | cons a b =>
      rw [if_neg (by simp), if_neg (by simp)]
      rfl
  | cons c u' ih =>
    intro v acc
    rw [List.cons_append]
    show fieldsAux (c :: (u' ++ sp :: v)) acc = fieldsAux (c :: u') acc ++ fieldsGo v
    unfold fieldsAux
    by_cases hc : isGoSpace c = true
    · rw [if_pos hc, if_pos hc]
      cases acc with
      | nil =>
        rw [if_pos List.isEmpty_nil, if_pos List.isEmpty_nil]
        exact ih v []
      | cons a b =>
        rw [if_neg (by simp), if_neg (by simp), ih v [], List.cons_append]
    · rw [if_neg hc, if_neg hc]
      exact ih v (c :: acc)

theorem fields_prefix_le : ∀ (u v acc : Str),
    (fieldsAux u acc).length ≤ (fieldsAux (u ++ v) acc).length := by
  intro u
  induction u with
  | nil =>
    intro v acc
    rw [List.nil_append]
    cases acc with
    | nil => simp [fieldsAux]
    | cons a b =>
      have h1 : fieldsAux ([] : Str) (a :: b) = [(a :: b).reverse] := by
        simp [fieldsAux]
      rw [h1]
      have h2 := fieldsAux_ne v (a :: b) (Or.inl (List.cons_ne_nil a b))
      have h3 : 0 < (fieldsAux v (a :: b)).length := List.length_pos.mpr h2
      simp only [List.length_singleton]
      omega
  | cons c u' ih =>
    intro v acc
    rw [List.cons_append]
    show (fieldsAux (c :: u') acc).length ≤ (fieldsAux (c :: (u' ++ v)) acc).length
    unfold fieldsAux
    by_cases hc : isGoSpace c = true
    · rw [if_pos hc, if_pos hc]
      cases acc with
      | nil =>
        rw [if_pos List.isEmpty_nil, if_pos List.isEmpty_nil]
        exact ih v []
      | cons a b =>
        rw [if_neg (by simp), if_neg (by simp)]
        simp only [List.length_cons]
        have := ih v ([] : Str)
        omega
    · rw [if_neg hc, if_neg hc]
      exact ih v (c :: acc)

end VC

namespace VC

theorem intercalate_cons2 (sep a b : Str) (l : List Str) :
    List.intercalate sep (a :: b :: l) = a ++ sep ++ List.intercalate sep (b :: l) := by
  simp [List.intercalate, List.intersperse_cons_cons, List.flatten, List.append_assoc]

theorem intercalate_pair (sep a b : Str) : List.intercalate sep [a, b] = a ++ sep ++ b := by
  simp [List.intercalate, List.intersperse]

theorem fieldsGo_dropWhile (s : Str) :
    fieldsGo (s.dropWhile isGoSpace) = fieldsGo s := by
  induction s with
  | nil => rfl
  | cons c t ih =>
    rw [List.dropWhile_cons]
    by_cases hc : isGoSpace c = true
    · rw [if_pos hc, ih]
      have hstep : fieldsGo (c :: t) = fieldsGo t := by
        simp [fieldsGo, fieldsAux, hc]
      exact hstep.symm
    · rw [if_neg hc]

theorem fieldsAux_shift_allspace : ∀ (w : Str), (∀ x ∈ w, isGoSpace x = true) →
    ∀ acc, fieldsAux w acc = fieldsAux [] acc := by
  intro w
  induction w with
  | nil => intro _ _; rfl
  | cons sp w' ih =>
    intro h acc
    have hsp := h sp (List.mem_cons_self sp w')
    have htail : ∀ x ∈ w', isGoSpace x = true := fun x hx => h x (List.mem_cons_of_mem sp hx)
    show fieldsAux (sp :: w') acc = _
    unfold fieldsAux
    rw [if_pos hsp]
    cases acc with
    | nil =>
      rw [if_pos List.isEmpty_nil, if_pos List.isEmpty_nil]
      exact ih htail []
    | cons a b =>
      rw [if_neg (by simp), if_neg (by simp)]
      have := ih htail []
      rw [this]
      rfl

theorem fieldsAux_append_allspace (w : Str) (hw : ∀ x ∈ w, isGoSpace x = true) :
    ∀ (u acc : Str), fieldsAux (u ++ w) acc = fieldsAux u acc := by
  intro u
  induction u with
  | nil =>
    intro acc
    rw [List.nil_append]
    exact fieldsAux_shift_allspace w hw acc
  | cons c u' ih =>
    intro acc
    rw [List.cons_append]
    show fieldsAux (c :: (u' ++ w)) acc = fieldsAux (c :: u') acc
    unfold fieldsAux
    by_cases hc : isGoSpace c = true
    · rw [if_pos hc, if_pos hc]
      cases acc with
      | nil =>
        rw [if_pos List.isEmpty_nil, if_pos List.isEmpty_nil]
        exact ih []
      | cons a b =>
        rw [if_neg (by simp), if_neg (by simp), ih []]
    · rw [if_neg hc, if_neg hc]
      exact ih (c :: acc)

theorem fieldsGo_trim (s : Str) : fieldsGo (trimGo s) = fieldsGo s := by
  have hd : ((s.dropWhile isGoSpace).reverse.takeWhile isGoSpace) ++
      ((s.dropWhile isGoSpace).reverse.dropWhile isGoSpace) =
      (s.dropWhile isGoSpace).reverse :=
    List.takeWhile_append_dropWhile isGoSpace _
  have hdec : (((s.dropWhile isGoSpace).reverse.dropWhile isGoSpace)).reverse ++
      (((s.dropWhile isGoSpace).reverse.takeWhile isGoSpace)).reverse =
      s.dropWhile isGoSpace := by
    have h2 := congrArg List.reverse hd
    rwa [List.reverse_append, List.reverse_reverse] at h2
  have htrim : trimGo s = (((s.dropWhile isGoSpace).reverse.dropWhile isGoSpace)).reverse := rfl
  have hws : ∀ x ∈ (((s.dropWhile isGoSpace).reverse.takeWhile isGoSpace)).reverse,
      isGoSpace x = true := by
    intro x hx
    exact List.mem_takeWhile_imp (List.mem_reverse.mp hx)
  have h3 : fieldsGo (s.dropWhile isGoSpace) = fieldsGo (trimGo s) := by
    conv_lhs => rw [← hdec]
    exact fieldsAux_append_allspace _ hws _ []
  rw [← h3, fieldsGo_dropWhile]

theorem beforeFirst_prefix : ∀ (s sub : Str), beforeFirst s sub <+: s := by
  intro s
  induction s with
  | nil => intro sub; exact List.nil_prefix
  | cons c t ih =>
    intro sub
    unfold beforeFirst
    by_cases hp : sub.isPrefixOf (c :: t) = true
    · rw [if_pos hp]
      exact List.nil_prefix
    · rw [if_neg hp]
      rcases ih sub with ⟨r, hr⟩
      exact ⟨r, by rw [List.cons_append, hr]⟩

theorem prefixed_ge2 (w line : Str) (hw : ∀ x ∈ w, isGoSpace x = false) (hwne : w ≠ [])
    (hpre : (w ++ [' ']).isPrefixOf line = true)
    (hlast : ∀ c, line.getLast? = some c → isGoSpace c = false) :
    2 ≤ (fieldsGo line).length := by
  obtain ⟨t, ht⟩ := List.isPrefixOf_iff_prefix.mp hpre
  have hline : line = w ++ ' ' :: t := by
    rw [← ht, List.append_assoc]
    rfl
  have hfs : fieldsGo line = fieldsGo w ++ fieldsGo t := by
    rw [hline]
    exact fields_split ' ' (by decide) w t []
  have hfw : fieldsGo w ≠ [] := by
    refine fieldsAux_ne w [] (Or.inr ?_)
    cases w with
    | nil => exact absurd rfl hwne
    | cons a b => exact ⟨a, List.mem_cons_self a b, hw a (List.mem_cons_self a b)⟩
  have htne : t ≠ [] := by
    intro he
    subst he
    have hgl : line.getLast? = some ' ' := by
      rw [hline]
      exact List.getLast?_concat w
    exact absurd (hlast ' ' hgl) (by decide)
  obtain ⟨c, hc⟩ : ∃ c, t.getLast? = some c := by
    cases hgl : t.getLast? with
    | some c => exact ⟨c, rfl⟩
    | none => exact absurd (List.getLast?_eq_none_iff.mp hgl) htne
  have hcl : line.getLast? = some c := by
    rw [hline, show w ++ ' ' :: t = (w ++ [' ']) ++ t from by rw [List.append_assoc]; rfl,
      List.getLast?_append_of_ne_nil _ htne]
    exact hc
  have hcin : c ∈ t := by
    have h2 : c ∈ t.reverse := by
      rw [← List.head?_reverse] at hc
      exact List.mem_of_mem_head? hc
    exact List.mem_reverse.mp h2
  have hft : fieldsGo t ≠ [] := fieldsAux_ne t [] (Or.inr ⟨c, hcin, hlast c hcl⟩)
  rw [hfs, List.length_append]
  have l1 := List.length_pos.mpr hfw
  have l2 := List.length_pos.mpr hft
  omega

end VC

namespace VC

theorem splitArrow_ne_nil (s : Str) : splitArrow s ≠ [] := by
  unfold splitArrow
  by_cases h : arrowSep.isPrefixOf s = true
  · rw [dif_pos h]
    exact List.cons_ne_nil _ _
  · rw [dif_neg h]
    cases s with
    | nil => exact List.cons_ne_nil _ _
    | cons c t =>
      show consHead c (splitArrow t) ≠ []
      unfold consHead
      cases splitArrow t with
      | nil => exact List.cons_ne_nil _ _
      | cons x r => exact List.cons_ne_nil _ _

theorem splitArrow_join : ∀ (n : Nat) (s : Str), s.length ≤ n →
    List.intercalate arrowSep (splitArrow s) = s := by
  intro n
  induction n with
  | zero =>
    intro s hs
    have hse : s = [] := List.length_eq_zero.mp (by omega)
    subst hse
    have h : splitArrow [] = [[]] := by
      unfold splitArrow
      rw [dif_neg (by decide)]
    rw [h]
    simp [List.intercalate]
  | succ n ih =>
    intro s hs
    by_cases h : arrowSep.isPrefixOf s = true
    · have heq : splitArrow s = [] :: splitArrow (s.drop 4) := by
        conv_lhs => unfold splitArrow
        rw [dif_pos h]
      obtain ⟨t, ht⟩ := List.isPrefixOf_iff_prefix.mp h
      have hlen4 : s.length = t.length + 4 := by
        rw [← ht, List.length_append, show arrowSep.length = 4 from by decide]
        omega
      have hdrop : s.drop 4 = t := by
        rw [← ht, show (4 : Nat) = arrowSep.length from rfl, List.drop_left]
      rw [heq, hdrop]
      cases hpt : splitArrow t with
      | nil => exact absurd hpt (splitArrow_ne_nil t)
      | cons x rest =>
        rw [intercalate_cons2]
        rw [← hpt, ih t (by omega)]
        rw [List.nil_append]
        exact ht
    · cases s with
      | nil =>
        have h0 : splitArrow ([] : Str) = [[]] := by
          unfold splitArrow
          rw [dif_neg (by decide)]
        rw [h0]
        simp [List.intercalate]
      | cons c t =>
        have h1 : splitArrow (c :: t) = consHead c (splitArrow t) := by
          conv_lhs => unfold splitArrow
          rw [dif_neg h]
        rw [h1]
        have hc : List.intercalate arrowSep (consHead c (splitArrow t)) =
            c :: List.intercalate arrowSep (splitArrow t) := by
          cases hpt : splitArrow t with
          | nil => exact absurd hpt (splitArrow_ne_nil t)
          | cons x rest =>
            show List.intercalate arrowSep (consHead c (x :: rest)) = _
            unfold consHead
            cases rest with
            | nil => simp [List.intercalate]
            | cons y rest' =>
              rw [intercalate_cons2, intercalate_cons2]
              simp
        rw [hc, ih t (by simp only [List.length_cons] at hs; omega)]

theorem splitArrow_pair_facts (line a b : Str)
    (hsp : splitArrow (trimGo line) = [a, b]) :
    (∃ c a', a = c :: a' ∧ isGoSpace c = false) ∧
    b ≠ [] ∧ (∃ c, b.getLast? = some c ∧ c ∈ b ∧ isGoSpace c = false) := by
  have hjoin : a ++ arrowSep ++ b = trimGo line := by
    have hj := splitArrow_join (trimGo line).length (trimGo line) le_rfl
    rw [hsp, intercalate_pair] at hj
    exact hj
  have hbne : b ≠ [] := by
    intro he
    subst he
    have hgl : (trimGo line).getLast? = some ' ' := by
      rw [← hjoin, List.append_nil,
        show arrowSep = ([' ', '='] ++ ['>', ' '] : Str) from rfl]
      rw [show a ++ ([' ', '='] ++ ['>', ' ']) = (a ++ [' ', '=', '>']) ++ [' '] from by
        simp [List.append_assoc]]
      exact List.getLast?_concat _
    exact absurd (getLast?_trimGo line ' ' hgl) (by decide)
  refine ⟨?_, hbne, ?_⟩
  · cases a with
    | nil =>
      exfalso
      have hh : (trimGo line).head? = some ' ' := by
        rw [← hjoin]
        rfl
      exact absurd (head?_trimGo line ' ' hh) (by decide)
    | cons c a' =>
      refine ⟨c, a', rfl, ?_⟩
      have hh : (trimGo line).head? = some c := by
        rw [← hjoin]
        rfl
      exact head?_trimGo line c hh
  · obtain ⟨c, hc⟩ : ∃ c, b.getLast? = some c := by
      cases hgl : b.getLast? with
      | some c => exact ⟨c, rfl⟩
      | none => exact absurd (List.getLast?_eq_none_iff.mp hgl) hbne
    have hlast : (trimGo line).getLast? = some c := by
      rw [← hjoin, List.getLast?_append_of_ne_nil _ hbne]
      exact hc
    have hcin : c ∈ b := by
      have h2 : c ∈ b.reverse := by
        rw [← List.head?_reverse] at hc
        exact List.mem_of_mem_head? hc
      exact List.mem_reverse.mp h2
    exact ⟨c, hc, hcin, getLast?_trimGo line c hlast⟩

end VC

namespace VC

theorem parseModuleVersion_zero (line : Str)
    (hf : (fieldsGo (trimGo line)).length < 2) :
    parseModuleVersion line = ⟨[], [], false⟩ := by
  have hl2 : (fieldsGo (if hasSub (trimGo line) (("// indirect").data) = true then
      trimGo (beforeFirst (trimGo line) (("//").data)) else trimGo line)).length < 2 := by
    by_cases hi : hasSub (trimGo line) (("// indirect").data) = true
    · rw [if_pos hi, fieldsGo_trim]
      obtain ⟨r, hr⟩ := beforeFirst_prefix (trimGo line) (("//").data)
      have hle := fields_prefix_le (beforeFirst (trimGo line) (("//").data)) r []
      rw [hr] at hle
      have : (fieldsGo (beforeFirst (trimGo line) (("//").data))).length ≤
          (fieldsGo (trimGo line)).length := hle
      omega
    · rw [if_neg hi]
      exact hf
  unfold parseModuleVersion
  dsimp only
  generalize hml : fieldsGo (if hasSub (trimGo line) (("// indirect").data) = true then
      trimGo (beforeFirst (trimGo line) (("//").data)) else trimGo line) = L at hl2 ⊢
  cases L with
  | nil => rfl
  | cons p0 r =>
    cases r with
    | nil => rfl
    | cons p1 rest =>
      exfalso
      simp only [List.length_cons] at hl2
      omega

theorem parseModuleReplace_ne_none (line : Str) : parseModuleReplace line ≠ none := by
  unfold parseModuleReplace
  cases hsp : splitArrow (trimGo line) with
  | nil => exact absurd hsp (splitArrow_ne_nil _)
  | cons a r1 =>
    cases r1 with
    | nil => exact Option.some_ne_none _
    | cons b r2 =>
      cases r2 with
      | cons x r3 => exact Option.some_ne_none _
      | nil =>
        dsimp only
        obtain ⟨⟨c, a', ha, hca⟩, hbne, ⟨c', _, hcin, hcb⟩⟩ :=
          splitArrow_pair_facts line a b hsp
        have hfa : fieldsGo (trimGo a) ≠ [] := by
          rw [fieldsGo_trim]
          refine fieldsAux_ne a [] (Or.inr ⟨c, ?_, hca⟩)
          rw [ha]
          exact List.mem_cons_self c a'
        have hfb : fieldsGo (trimGo b) ≠ [] := by
          rw [fieldsGo_trim]
          exact fieldsAux_ne b [] (Or.inr ⟨c', hcin, hcb⟩)
        cases hma : fieldsGo (trimGo a) with
        | nil => exact absurd hma hfa
        | cons o0 oRest =>
          cases hmb : fieldsGo (trimGo b) with
          | nil => exact absurd hmb hfb
          | cons n0 nRest =>
            exact Option.some_ne_none _

theorem parseModuleReplace_skip (line : Str)
    (hf : (fieldsGo (trimGo line)).length < 2) :
    parseModuleReplace line = some ⟨⟨[], [], false⟩, ⟨[], [], false⟩⟩ := by
  unfold parseModuleReplace
  cases hsp : splitArrow (trimGo line) with
  | nil => exact absurd hsp (splitArrow_ne_nil _)
  | cons a r1 =>
    cases r1 with
    | nil => rfl
    | cons b r2 =>
      cases r2 with
      | cons x r3 => rfl
      | nil =>
        exfalso
        obtain ⟨⟨c, a', ha, hca⟩, hbne, ⟨c', _, hcin, hcb⟩⟩ :=
          splitArrow_pair_facts line a b hsp
        have hjoin : a ++ arrowSep ++ b = trimGo line := by
          have hj := splitArrow_join (trimGo line).length (trimGo line) le_rfl
          rw [hsp, intercalate_pair] at hj
          exact hj
        have heq : trimGo line = a ++ ' ' :: (['=', '>'] ++ ' ' :: b) := by
          rw [← hjoin]
          simp [arrowSep, List.append_assoc]
        have hge : 2 ≤ (fieldsGo (trimGo line)).length := by
          rw [heq,
            show fieldsGo (a ++ ' ' :: (['=', '>'] ++ ' ' :: b)) =
              fieldsGo a ++ fieldsGo (['=', '>'] ++ ' ' :: b) from
                fields_split ' ' (by decide) a _ [],
            show fieldsGo ((['=', '>'] : Str) ++ ' ' :: b) =
              fieldsGo ['=', '>'] ++ fieldsGo b from
                fields_split ' ' (by decide) ['=', '>'] b []]
          have hfa : fieldsGo a ≠ [] := by
            refine fieldsAux_ne a [] (Or.inr ⟨c, ?_, hca⟩)
            rw [ha]
            exact List.mem_cons_self c a'
          have h1 := List.length_pos.mpr hfa
          rw [List.length_append, List.length_append,
            show (fieldsGo (['=', '>'] : Str)).length = 1 from by decide]
          omega
        omega

end VC

namespace VC

theorem stepLine_ne_none (st : PState) (raw : Str) : stepLine st raw ≠ none := by
  obtain ⟨mr1, hmr1⟩ := Option.ne_none_iff_exists'.mp
    (parseModuleReplace_ne_none (trimPre (("replace ").data) (trimGo raw)))
  obtain ⟨mr2, hmr2⟩ := Option.ne_none_iff_exists'.mp (parseModuleReplace_ne_none (trimGo raw))
  unfold stepLine
  dsimp only
  by_cases h1 : trimGo raw = [] ∨ (("//").data).isPrefixOf (trimGo raw) = true
  · rw [if_pos h1]
    exact Option.some_ne_none _
  · rw [if_neg h1]
    by_cases h2 : trimGo raw = ("require (").data
    · rw [if_pos h2]
      exact Option.some_ne_none _
    · rw [if_neg h2]
      by_cases h3 : trimGo raw = ("replace (").data
      · rw [if_pos h3]
        exact Option.some_ne_none _
      · rw [if_neg h3]
        by_cases h4 : trimGo raw = ("exclude (").data
        · rw [if_pos h4]
          exact Option.some_ne_none _
        · rw [if_neg h4]
          by_cases h5 : trimGo raw = (")").data
          · rw [if_pos h5]
            exact Option.some_ne_none _
          · rw [if_neg h5]
            by_cases h6 : (("module ").data).isPrefixOf (trimGo raw) = true
            · rw [if_pos h6]
              exact Option.some_ne_none _
            · rw [if_neg h6]
              by_cases h7 : (("go ").data).isPrefixOf (trimGo raw) = true
              · rw [if_pos h7]
                exact Option.some_ne_none _
              · rw [if_neg h7]
                by_cases h8 : (("require ").data).isPrefixOf (trimGo raw) = true ∧
                    st.inRequire = false
                · rw [if_pos h8]
                  exact Option.some_ne_none _
                · rw [if_neg h8]
                  by_cases h9 : (("replace ").data).isPrefixOf (trimGo raw) = true ∧
                      st.inReplace = false
                  · rw [if_pos h9, hmr1]
                    exact Option.some_ne_none _
                  · rw [if_neg h9]
                    by_cases h10 : (("exclude ").data).isPrefixOf (trimGo raw) = true ∧
                        st.inExclude = false
                    · rw [if_pos h10]
                      exact Option.some_ne_none _
                    · rw [if_neg h10]
                      by_cases hrep :
                          (if st.inRequire = true then
                            if (parseModuleVersion (trimGo raw)).Path ≠ [] then
                              { st with info := { st.info with
                                Require := st.info.Require ++ [parseModuleVersion (trimGo raw)] } }
                            else st
                          else st).inReplace = true
                      · rw [if_pos hrep, hmr2]
                        exact Option.some_ne_none _
                      · rw [if_neg hrep]
                        exact Option.some_ne_none _

theorem stepLine_skip (st : PState) (raw : Str)
    (hf : (fieldsGo (trimGo raw)).length < 2)
    (hcl : trimGo raw ≠ (")").data) :
    stepLine st raw = some st := by
  have hidem : trimGo (trimGo raw) = trimGo raw := trimGo_idem raw
  have hlast : ∀ c, (trimGo raw).getLast? = some c → isGoSpace c = false :=
    fun c hc => getLast?_trimGo raw c hc
  have hmv : parseModuleVersion (trimGo raw) = ⟨[], [], false⟩ :=
    parseModuleVersion_zero (trimGo raw) (by rw [hidem]; exact hf)
  have hmr : parseModuleReplace (trimGo raw) = some ⟨⟨[], [], false⟩, ⟨[], [], false⟩⟩ :=
    parseModuleReplace_skip (trimGo raw) (by rw [hidem]; exact hf)
  unfold stepLine
  dsimp only
  by_cases h1 : trimGo raw = [] ∨ (("//").data).isPrefixOf (trimGo raw) = true
  · rw [if_pos h1]
  · rw [if_neg h1]
    by_cases h2 : trimGo raw = ("require (").data
    · exfalso
      rw [h2] at hf
      exact absurd hf (by decide)
    · rw [if_neg h2]
      by_cases h3 : trimGo raw = ("replace (").data
      · exfalso
        rw [h3] at hf
        exact absurd hf (by decide)
      · rw [if_neg h3]
        by_cases h4 : trimGo raw = ("exclude (").data
        · exfalso
          rw [h4] at hf
          exact absurd hf (by decide)
        · rw [if_neg h4, if_neg hcl]
          by_cases h6 : (("module ").data).isPrefixOf (trimGo raw) = true
          · exfalso
            have := prefixed_ge2 (("module").data) (trimGo raw) (by decide) (by decide)
              (by rw [show ((("module").data ++ [' ']) : Str) = ("module ").data from rfl]
                  exact h6) hlast
            omega
          · rw [if_neg h6]
            by_cases h7 : (("go ").data).isPrefixOf (trimGo raw) = true
            · exfalso
              have := prefixed_ge2 (("go").data) (trimGo raw) (by decide) (by decide)
                (by rw [show ((("go").data ++ [' ']) : Str) = ("go ").data from rfl]
                    exact h7) hlast
              omega
            · rw [if_neg h7]
              by_cases h8 : (("require ").data).isPrefixOf (trimGo raw) = true ∧
                  st.inRequire = false
              · exfalso
                have := prefixed_ge2 (("require").data) (trimGo raw) (by decide) (by decide)
                  (by rw [show ((("require").data ++ [' ']) : Str) = ("require ").data from rfl]
                      exact h8.1) hlast
                omega
              · rw [if_neg h8]
                by_cases h9 : (("replace ").data).isPrefixOf (trimGo raw) = true ∧
                    st.inReplace = false
                · exfalso
                  have := prefixed_ge2 (("replace").data) (trimGo raw) (by decide) (by decide)
                    (by rw [show ((("replace").data ++ [' ']) : Str) = ("replace ").data from rfl]
                        exact h9.1) hlast
                  omega
                · rw [if_neg h9]
                  by_cases h10 : (("exclude ").data).isPrefixOf (trimGo raw) = true ∧
                      st.inExclude = false
                  · exfalso
                    have := prefixed_ge2 (("exclude").data) (trimGo raw) (by decide) (by decide)
                      (by rw [show ((("exclude").data ++ [' ']) : Str) = ("exclude ").data from rfl]
                          exact h10.1) hlast
                    omega
                  · rw [if_neg h10]
                    simp [hmv, hmr]

theorem foldlM_stepLine_ne_none : ∀ (lines : List Str) (st : PState),
    List.foldlM stepLine st lines ≠ none := by
  intro lines
  induction lines with
  | nil =>
    intro st
    rw [List.foldlM_nil]
    exact Option.some_ne_none st
  | cons a l ih =>
    intro st
    rw [List.foldlM_cons]
    obtain ⟨st', hst'⟩ := Option.ne_none_iff_exists'.mp (stepLine_ne_none st a)
    rw [hst']
    exact ih st'

theorem scanTokens_no_err : ∀ (segs : List Str),
    (∀ seg ∈ segs, seg.length < maxTok) → (scanTokens segs).2 = false := by
  intro segs
  induction segs with
  | nil => intro _; rfl
  | cons seg rest ih =>
    intro h
    cases rest with
    | nil =>
      show (scanTokens [seg]).2 = false
      unfold scanTokens
      by_cases he : seg = []
      · rw [if_pos he]
      · rw [if_neg he, if_neg (by have := h seg (List.mem_cons_self _ _); omega)]
    | cons r rest' =>
      show (scanTokens (seg :: r :: rest')).2 = false
      unfold scanTokens
      rw [if_neg (by have := h seg (List.mem_cons_self _ _); omega)]
      exact ih (fun s hs => h s (List.mem_cons_of_mem _ hs))

theorem splitNL_no_newline : ∀ (s : Str), (∀ c ∈ s, c ≠ '\n') → splitNL s = [s] := by
  intro s
  induction s with
  | nil => intro _; rfl
  | cons c t ih =>
    intro h
    unfold splitNL
    rw [if_neg (h c (List.mem_cons_self c t)), ih (fun x hx => h x (List.mem_cons_of_mem c hx))]
    rfl

end VC

namespace VC

/-- C8 (amended): `ParseGoMod` never reaches a run-time fault on any input
(`parseModuleReplace` trims its line first, so both sides of a two-part
split always contain a field); when every newline-separated segment is
shorter than the 64 KiB scanner token cap the parse succeeds with a nil
scanner error; and a line whose trimmed form has fewer than two
whitespace-separated fields — other than the block terminator `)` — leaves
the parser state unchanged (it is silently skipped).  The original claim
fails because a 64 KiB line makes `bufio.Scanner` stop with `ErrTooLong`. -/
theorem parseGoMod_total :
    (∀ content : Str, ParseGoMod content ≠ none) ∧
    (∀ content : Str, (∀ seg ∈ splitNL content, seg.length < maxTok) →
      ∃ info, ParseGoMod content = some (info, false)) ∧
    (∀ (st : PState) (raw : Str),
      (fieldsGo (trimGo raw)).length < 2 → trimGo raw ≠ (")").data →
      stepLine st raw = some st) := by
  refine ⟨?_, ?_, stepLine_skip⟩
  · intro content
    obtain ⟨st, hst⟩ := Option.ne_none_iff_exists'.mp
      (foldlM_stepLine_ne_none (scanGo content).1 initPState)
    unfold ParseGoMod
    dsimp only
    rw [hst]
    exact Option.some_ne_none _
  · intro content h
    have herr : (scanGo content).2 = false := scanTokens_no_err (splitNL content) h
    obtain ⟨st, hst⟩ := Option.ne_none_iff_exists'.mp
      (foldlM_stepLine_ne_none (scanGo content).1 initPState)
    refine ⟨st.info, ?_⟩
    unfold ParseGoMod
    dsimp only
    rw [hst, herr]
    rfl

/-- Witness for C8: a small well-formed manifest parses without fault and
without error, and a one-field line is skipped. -/
theorem parseGoMod_total_witness :
    ParseGoMod (("module example.com/a\ngo 1.21\n").data) ≠ none ∧
    (∃ info, ParseGoMod (("module example.com/a\n").data) = some (info, false)) ∧
    stepLine initPState (("x").data) = some initPState := by
  refine ⟨parseGoMod_total.1 _, parseGoMod_total.2.1 _ (by decide), ?_⟩
  exact parseGoMod_total.2.2 initPState (("x").data) (by decide) (by decide)

/-- C8 counterexample: a single 65536-byte line with no newline reaches the
`bufio.Scanner` token cap, so scanning stops with `ErrTooLong` and
`ParseGoMod` reports a non-nil error with the zero-value info — the claim
that every input parses without error is false. -/
theorem parseGoMod_cex :
    ParseGoMod (List.replicate 65536 'a') = some (⟨[], [], [], [], []⟩, true) := by
  have h1 : splitNL (List.replicate 65536 'a') = [List.replicate 65536 'a'] := by
    refine splitNL_no_newline _ ?_
    intro c hc
    rw [List.eq_of_mem_replicate hc]
    decide
  have hsingle : ∀ seg : Str, seg ≠ [] → maxTok ≤ seg.length →
      scanTokens [seg] = ([], true) := by
    intro seg hne hlen
    unfold scanTokens
    rw [if_neg hne, if_pos hlen]
  have h2 : scanGo (List.replicate 65536 'a') = ([], true) := by
    unfold scanGo
    rw [h1]
    refine hsingle _ ?_ (by rw [List.length_replicate]; decide)
    intro he
    have hlen := congrArg List.length he
    rw [List.length_replicate] at hlen
    exact absurd hlen (by decide)
  unfold ParseGoMod
  dsimp only
  rw [h2]
  rfl

end VC

namespace VC

theorem removeA_keys_sublist {α : Type} : ∀ (l : List (Str × α)) (k : Str),
    List.Sublist ((removeA l k).map Prod.fst) (l.map Prod.fst) := by
  intro l
  induction l with
  | nil => intro k; exact List.Sublist.refl _
  | cons p t ih =>
    obtain ⟨k₀, v₀⟩ := p
    intro k
    unfold removeA
    by_cases h0 : k₀ = k
    · rw [if_pos h0, List.map_cons]
      exact List.Sublist.cons _ (List.Sublist.refl _)
    · rw [if_neg h0, List.map_cons, List.map_cons]
      exact List.Sublist.cons₂ _ (ih k)

theorem removeA_keys_nodup {α : Type} {l : List (Str × α)} (h : (l.map Prod.fst).Nodup)
    (k : Str) : ((removeA l k).map Prod.fst).Nodup :=
  List.Nodup.sublist (removeA_keys_sublist l k) h

theorem lookupA_removeA_ne {α : Type} : ∀ (l : List (Str × α)) {k' k : Str}, k' ≠ k →
    lookupA (removeA l k') k = lookupA l k := by
  intro l
  induction l with
  | nil => intro k' k _; rfl
  | cons p t ih =>
    obtain ⟨k₀, v₀⟩ := p
    intro k' k hne
    unfold removeA
    by_cases h0 : k₀ = k'
    · rw [if_pos h0]
      subst h0
      rw [lookupA_cons_ne hne]
    · rw [if_neg h0]
      unfold lookupA
      by_cases h1 : k₀ = k
      · rw [if_pos h1, if_pos h1]
      · rw [if_neg h1, if_neg h1]
        exact ih hne

theorem lookupA_removeA_self {α : Type} : ∀ (l : List (Str × α)) (k : Str),
    (l.map Prod.fst).Nodup → lookupA (removeA l k) k = none := by
  intro l
  induction l with
  | nil => intro k _; rfl
  | cons p t ih =>
    obtain ⟨k₀, v₀⟩ := p
    intro k hnd
    rw [List.map_cons] at hnd
    have hnd' := List.nodup_cons.mp hnd
    unfold removeA
    by_cases h0 : k₀ = k
    · rw [if_pos h0]
      rw [lookupA_none_iff]
      intro hc
      exact hnd'.1 (h0 ▸ hc)
    · rw [if_neg h0]
      rw [lookupA_cons_ne h0]
      exact ih k hnd'.2

theorem cacheSet_ttl (h : Str → Str) (c : CacheState) (now : Int) (key : Str)
    (data : Bytes) : (cacheSet h c now key data).ttl = c.ttl := by
  unfold cacheSet
  dsimp only
  split <;> rfl

theorem cacheSet_hasDir (h : Str → Str) (c : CacheState) (now : Int) (key : Str)
    (data : Bytes) : (cacheSet h c now key data).hasDir = c.hasDir := by
  unfold cacheSet
  dsimp only
  split <;> rfl

theorem cacheSet_memory (h : Str → Str) (c : CacheState) (now : Int) (key : Str)
    (data : Bytes) :
    (cacheSet h c now key data).memory = setA c.memory (h key) ⟨data, now + c.ttl⟩ := by
  unfold cacheSet
  dsimp only
  split <;> rfl

theorem cacheSet_fileMeta (h : Str → Str) (c : CacheState) (now : Int) (key : Str)
    (data : Bytes) :
    (cacheSet h c now key data).fileMeta =
      if c.hasDir = true then setA c.fileMeta (h key) (now + c.ttl) else c.fileMeta := by
  unfold cacheSet
  dsimp only
  split <;> rfl

theorem cacheSet_fileData (h : Str → Str) (c : CacheState) (now : Int) (key : Str)
    (data : Bytes) :
    (cacheSet h c now key data).fileData =
      if c.hasDir = true then setA c.fileData (h key) data else c.fileData := by
  unfold cacheSet
  dsimp only
  split <;> rfl

end VC

namespace VC

theorem cacheGet_inv (h : Str → Str) (ttl : Int) (hasDir : Bool) (e : Int) (key : Str)
    (data : Bytes) (c : CacheState) (k' : Str) (t : Int)
    (hop : t ≠ e ∨ h k' ≠ h key)
    (hc : cacheInv h ttl hasDir e key data c) :
    cacheInv h ttl hasDir e key data (cacheGet h c t k').2 := by
  obtain ⟨hT, hD, hM, hndM, hndD, hF⟩ := hc
  unfold cacheGet
  dsimp only
  cases hm : (match lookupA c.memory (h k') with
    | some en => if t < en.expiresAt then some en.data else none
    | none => (none : Option Bytes)) with
  | some d => exact ⟨hT, hD, hM, hndM, hndD, hF⟩
  | none =>
    dsimp only
    by_cases hd : c.hasDir = true
    · rw [if_pos hd]
      unfold getFromFile
      cases hfm : lookupA c.fileMeta (h k') with
      | none =>
        dsimp only
        exact ⟨hT, hD, hM, hndM, hndD, hF⟩
      | some exp =>
        dsimp only
        by_cases hexp : exp < t
        · rw [if_pos hexp]
          dsimp only
          refine ⟨hT, hD, hM, removeA_keys_nodup hndM (h k'), removeA_keys_nodup hndD (h k'), ?_⟩
          intro hd'
          by_cases hkk : h k' = h key
          · refine Or.inr ⟨?_, ?_⟩
            · rw [← hkk]
              exact lookupA_removeA_self c.fileMeta (h k') hndM
            · rw [← hkk]
              exact lookupA_removeA_self c.fileData (h k') hndD
          · rw [lookupA_removeA_ne c.fileMeta hkk, lookupA_removeA_ne c.fileData hkk]
            exact hF hd'
        · rw [if_neg hexp]
          cases hfd : lookupA c.fileData (h k') with
          | none =>
            dsimp only
            exact ⟨hT, hD, hM, hndM, hndD, hF⟩
          | some d =>
            dsimp only
            refine ⟨hT, hD, ?_, hndM, hndD, hF⟩
            by_cases hkk : h k' = h key
            · exfalso
              rw [hkk] at hm hfm
              rw [hM] at hm
              dsimp only at hm
              by_cases hlt : t < e
              · rw [if_pos hlt] at hm
                cases hm
              · rcases hF (hD ▸ hd) with ⟨hfml, _⟩ | ⟨hfmn, _⟩
                · rw [hfm] at hfml
                  rw [Option.some.injEq] at hfml
                  subst hfml
                  rcases hop with hop | hop
                  · exact hop (by omega)
                  · exact hop hkk
                · rw [hfm] at hfmn
                  cases hfmn
            · dsimp only
              rw [lookupA_setA_ne c.memory (h k') (h key) _ hkk]
              exact hM
    · rw [if_neg hd]
      dsimp only
      exact ⟨hT, hD, hM, hndM, hndD, hF⟩

theorem applyGets_inv (h : Str → Str) (ttl : Int) (hasDir : Bool) (e : Int) (key : Str)
    (data : Bytes) :
    ∀ (ops : List (Str × Int)) (c : CacheState),
      (∀ op ∈ ops, op.2 ≠ e ∨ h op.1 ≠ h key) →
      cacheInv h ttl hasDir e key data c →
      cacheInv h ttl hasDir e key data (applyGets h c ops) := by
  intro ops
  induction ops with
  | nil => intro c _ hc; exact hc
  | cons op rest ih =>
    intro c hops hc
    show cacheInv h ttl hasDir e key data (applyGets h (cacheGet h c op.2 op.1).2 rest)
    refine ih _ (fun o ho => hops o (List.mem_cons_of_mem op ho)) ?_
    exact cacheGet_inv h ttl hasDir e key data c op.1 op.2
      (hops op (List.mem_cons_self op rest)) hc

theorem cacheGet_after_expiry (h : Str → Str) (ttl : Int) (hasDir : Bool) (e : Int)
    (key : Str) (data : Bytes) (c : CacheState) (t : Int) (ht : e < t)
    (hc : cacheInv h ttl hasDir e key data c) :
    (cacheGet h c t key).1 = none ∧
    (hasDir = true →
      lookupA (cacheGet h c t key).2.fileMeta (h key) = none ∧
      lookupA (cacheGet h c t key).2.fileData (h key) = none) := by
  obtain ⟨hT, hD, hM, hndM, hndD, hF⟩ := hc
  unfold cacheGet
  dsimp only
  rw [hM]
  dsimp only
  rw [if_neg (by omega)]
  by_cases hd : c.hasDir = true
  · rw [if_pos hd]
    unfold getFromFile
    rcases hF (hD ▸ hd) with ⟨hfml, hfdl⟩ | ⟨hfmn, hfdn⟩
    · rw [hfml]
      dsimp only
      rw [if_pos ht]
      dsimp only
      refine ⟨rfl, fun _ => ⟨?_, ?_⟩⟩
      · exact lookupA_removeA_self c.fileMeta (h key) hndM
      · exact lookupA_removeA_self c.fileData (h key) hndD
    · rw [hfmn]
      dsimp only
      exact ⟨rfl, fun _ => ⟨hfmn, hfdn⟩⟩
  · rw [if_neg hd]
    dsimp only
    refine ⟨rfl, fun hd' => ?_⟩
    rw [hD] at hd
    exact absurd hd' hd

end VC

namespace VC

theorem cacheSet_init_inv (h : Str → Str) (ttl : Int) (hasDir : Bool) (now : Int)
    (key : Str) (data : Bytes) :
    cacheInv h ttl hasDir (now + ttl) key data
      (cacheSet h ⟨ttl, hasDir, [], [], []⟩ now key data) := by
  refine ⟨cacheSet_ttl h _ now key data, cacheSet_hasDir h _ now key data, ?_, ?_, ?_, ?_⟩
  · rw [cacheSet_memory, lookupA_setA_self]
  · rw [cacheSet_fileMeta]
    cases hasDir with
    | false => exact List.nodup_nil
    | true =>
      rw [if_pos rfl]
      exact setA_keys_nodup [] (h key) _ List.nodup_nil
  · rw [cacheSet_fileData]
    cases hasDir with
    | false => exact List.nodup_nil
    | true =>
      rw [if_pos rfl]
      exact setA_keys_nodup [] (h key) _ List.nodup_nil
  · intro hd
    subst hd
    refine Or.inl ⟨?_, ?_⟩
    · rw [cacheSet_fileMeta, if_pos rfl, lookupA_setA_self]
    · rw [cacheSet_fileData, if_pos rfl, lookupA_setA_self]

/-- C9 (amended): `Set(k, v)` records expiration `now + TTL` in the memory
tier and, when a durable directory is configured, in both durable files;
`Get(k)` strictly within the TTL returns `v`; at exactly the recorded
expiration the memory tier already misses (`Before` is strict) and the
result is `v` exactly when the durable tier exists (`After` is strict, and
the durable hit re-populates the memory tier with a fresh TTL); strictly
after the TTL — with no intervening `Set`, and no intervening `Get` on the
same hashed key at the exact expiration instant — `Get(k)` misses and
removes the durable content and metadata files.  The original claim fails
at the exact-TTL boundary for a memory-only cache. -/
theorem cache_ttl :
    (∀ (h : Str → Str) (c : CacheState) (now : Int) (key : Str) (data : Bytes),
      lookupA (cacheSet h c now key data).memory (h key) = some ⟨data, now + c.ttl⟩ ∧
      (c.hasDir = true →
        lookupA (cacheSet h c now key data).fileMeta (h key) = some (now + c.ttl) ∧
        lookupA (cacheSet h c now key data).fileData (h key) = some data)) ∧
    (∀ (h : Str → Str) (c : CacheState) (now t : Int) (key : Str) (data : Bytes),
      t < now + c.ttl →
      (cacheGet h (cacheSet h c now key data) t key).1 = some data) ∧
    (∀ (h : Str → Str) (ttl : Int) (hasDir : Bool) (now : Int) (key : Str) (data : Bytes),
      (cacheGet h (cacheSet h ⟨ttl, hasDir, [], [], []⟩ now key data) (now + ttl) key).1 =
        if hasDir = true then some data else none) ∧
    (∀ (h : Str → Str) (ttl : Int) (hasDir : Bool) (now : Int) (key : Str) (data : Bytes)
      (ops : List (Str × Int)) (t : Int),
      (∀ op ∈ ops, op.2 ≠ now + ttl ∨ h op.1 ≠ h key) →
      now + ttl < t →
      (cacheGet h (applyGets h (cacheSet h ⟨ttl, hasDir, [], [], []⟩ now key data) ops)
          t key).1 = none ∧
      (hasDir = true →
        lookupA (cacheGet h (applyGets h (cacheSet h ⟨ttl, hasDir, [], [], []⟩ now key data)
            ops) t key).2.fileMeta (h key) = none ∧
        lookupA (cacheGet h (applyGets h (cacheSet h ⟨ttl, hasDir, [], [], []⟩ now key data)
            ops) t key).2.fileData (h key) = none)) := by
  refine ⟨?_, ?_, ?_, ?_⟩
  · intro h c now key data
    refine ⟨by rw [cacheSet_memory, lookupA_setA_self], fun hd => ⟨?_, ?_⟩⟩
    · rw [cacheSet_fileMeta, if_pos hd, lookupA_setA_self]
    · rw [cacheSet_fileData, if_pos hd, lookupA_setA_self]
  · intro h c now t key data hlt
    unfold cacheGet
    dsimp only
    rw [cacheSet_memory, lookupA_setA_self]
    dsimp only
    rw [if_pos hlt]
  · intro h ttl hasDir now key data
    unfold cacheGet
    dsimp only
    rw [cacheSet_memory, lookupA_setA_self]
    dsimp only
    rw [if_neg (lt_irrefl (now + ttl))]
    rw [cacheSet_hasDir]
    cases hasDir with
    | false => rfl
    | true =>
      rw [if_pos rfl, if_pos rfl]
      unfold getFromFile
      rw [cacheSet_fileMeta, if_pos rfl, lookupA_setA_self]
      dsimp only
      rw [if_neg (lt_irrefl (now + ttl))]
      rw [cacheSet_fileData, if_pos rfl, lookupA_setA_self]
  · intro h ttl hasDir now key data ops t hops ht
    exact cacheGet_after_expiry h ttl hasDir (now + ttl) key data _ t ht
      (applyGets_inv h ttl hasDir (now + ttl) key data ops _ hops
        (cacheSet_init_inv h ttl hasDir now key data))

/-- Witness for C9: with TTL 5 and a durable tier, a write at instant 0 is
readable at instant 3, and at instant 7 (past the TTL, no intervening
operations) the read misses. -/
theorem cache_ttl_witness :
    (cacheGet (fun s => s) (cacheSet (fun s => s) ⟨5, true, [], [], []⟩ 0 (("k").data) [1]) 3
      (("k").data)).1 = some [1] ∧
    (cacheGet (fun s => s) (applyGets (fun s => s)
        (cacheSet (fun s => s) ⟨5, true, [], [], []⟩ 0 (("k").data) [1]) []) 7
      (("k").data)).1 = none := by
  constructor
  · exact cache_ttl.2.1 (fun s => s) ⟨5, true, [], [], []⟩ 0 3 (("k").data) [1] (by decide)
  · exact (cache_ttl.2.2.2 (fun s => s) 5 true 0 (("k").data) [1] [] 7
      (fun op hop => absurd hop (List.not_mem_nil op)) (by decide)).1

/-- C9 counterexample: with a memory-only cache (no durable directory),
`Set` at instant 0 with TTL 5 followed by `Get` at instant 5 — exactly the
write-time TTL — misses, because the memory tier requires the current
instant to be strictly before the recorded expiration.  The claim says a
`Get` performed at the TTL still returns the value. -/
theorem cache_ttl_cex :
    (cacheGet (fun s => s) (cacheSet (fun s => s) ⟨5, false, [], [], []⟩ 0 (("k").data) [1]) 5
      (("k").data)).1 = none := by
  decide

end VC
